import Mathlib

/-!
Device and mount resolution of `util/getroot.c`.

A shallow embedding of the string-level and list-level parts of GRUB's
`util/getroot.c` and of the command of `tests/lib/functional_test.c`, and
theorems about them.

Conventions of the embedding
* A C string is the list of its bytes before the terminating NUL
  (`List Nat`, every byte below 256 and non-zero).  `charAt s i` is the read
  `s[i]` of the NUL-terminated buffer, `cstr` the C-string view of a buffer
  that may hold a NUL.
* A pointer result that may be `NULL` is an `Option`.
* What the C code obtains from the operating system (the lines of
  `/proc/self/mountinfo`, the answer of `realpath`, the device-mapper tree)
  is a parameter of the embedded function.
-/

namespace Getroot

/-! ## C strings -/

/-- Bytes of a string literal. -/
def bytes (s : String) : List Nat := s.toList.map Char.toNat

/-- Read `s[i]` of a NUL-terminated buffer whose content is `s`. -/
def charAt (s : List Nat) (i : Nat) : Nat := s.getD i 0

/-- C-string view of a buffer: the bytes before the first NUL. -/
def cstr (buf : List Nat) : List Nat := buf.takeWhile (fun c => c != 0)

/-- Whether `strncmp (a, b, n)` is 0: the first `n` bytes agree, the comparison
ending early where both strings end. -/
def strncmpZero : List Nat → List Nat → Nat → Bool
  | _, _, 0 => true
  | [], [], _ + 1 => true
  | [], _ :: _, _ + 1 => false
  | _ :: _, [], _ + 1 => false
  | a :: as, b :: bs, n + 1 => a == b && strncmpZero as bs n

/-- Whether `strcmp (a, b)` is 0. -/
def strcmpZero (a b : List Nat) : Bool := a == b

/-- Result of `strchr (s, c)` for `c` other than NUL: the offset of the first
`c` in `s`, if any. -/
def strchr (s : List Nat) (c : Nat) : Option Nat :=
  if s.indexOf c < s.length then some (s.indexOf c) else none

/-! ## `unescape` (getroot.c, lines 347-366) -/

/-- The test `c >= '0' && c < '8'`. -/
def isOctalDigit (c : Nat) : Bool := 48 ≤ c && c < 56

/-- The loop of `unescape` with the read position made explicit: the first
argument counts the bytes still to be stepped over by a pending `iptr += 4`,
the list is the input from the next byte on.  With nothing pending, `c` is
`iptr[0]` and `tl` holds `iptr[1]`, `iptr[2]`, `iptr[3]` (NUL where the string
has ended); the value stored in `*optr` is a `char`. -/
def unescapeFrom : Nat → List Nat → List Nat
  | _, [] => []
  | pending + 1, _ :: tl => unescapeFrom pending tl
  | 0, c :: tl =>
    if c == 92 && isOctalDigit (charAt tl 0) && isOctalDigit (charAt tl 1)
        && isOctalDigit (charAt tl 2) then
      ((((charAt tl 0 - 48) <<< 6) ||| ((charAt tl 1 - 48) <<< 3) ||| (charAt tl 2 - 48)) % 256)
        :: unescapeFrom 3 tl
    else c :: unescapeFrom 0 tl

/-- Bytes that `unescape (str)` has written when it stores the final NUL. -/
def unescape (str : List Nat) : List Nat := unescapeFrom 0 str

/-- The claimed decoding, in the words of the specification: scanning left to
right, a backslash with three octal digits `d1 d2 d3` becomes the number
`64*d1 + 8*d2 + d3`, and every other byte is copied.  The first argument
bounds the number of steps. -/
def unescapeSpecSteps : Nat → List Nat → List Nat
  | 0, _ => []
  | _ + 1, [] => []
  | n + 1, c :: tl =>
    match tl with
    | d1 :: d2 :: d3 :: rest =>
      if c = 92 ∧ (48 ≤ d1 ∧ d1 ≤ 55) ∧ (48 ≤ d2 ∧ d2 ≤ 55) ∧ (48 ≤ d3 ∧ d3 ≤ 55) then
        (64 * (d1 - 48) + 8 * (d2 - 48) + (d3 - 48)) :: unescapeSpecSteps n rest
      else c :: unescapeSpecSteps n tl
    | _ => c :: unescapeSpecSteps n tl

/-- The claimed decoding of a whole string. -/
def unescapeSpec (s : List Nat) : List Nat := unescapeSpecSteps s.length s

/-! ## `grub_find_root_devices_from_mountinfo` (getroot.c, lines 332-511) -/

/-- The C `struct mountinfo_entry`; the four strings are kept as C strings. -/
structure mountinfo_entry where
  id : Int
  major : Nat
  minor : Nat
  enc_root : List Nat
  enc_path : List Nat
  fstype : List Nat
  device : List Nat
deriving DecidableEq

/-- The fields that the two `sscanf` calls of the loop read from one line of
`/proc/self/mountinfo`: `id parent major:minor enc_root enc_path` at the start
of the line, `fstype device` after the separator `" - "`.  A string field that
the line does not have is empty here; a line whose numeric fields do not
convert is skipped by the loop without any effect and is left out of the
table. -/
structure MountLine where
  id : Int
  parent : Int
  major : Nat
  minor : Nat
  enc_root : List Nat
  enc_path : List Nat
  fstype : List Nat
  device : List Nat
deriving DecidableEq

/-- The variables `entries` (its first `entry_len` elements, so `entry_len` is
the length of the list) and `entry_max`. -/
structure MountList where
  entries : List mountinfo_entry
  entry_max : Nat
deriving DecidableEq

/-- The test of lines 411-413 negated: the line is not skipped, `enc_path`
being the unescaped mount point and `enc_path_len` its `strlen`. -/
def mountRelevant (dir enc_path : List Nat) : Bool :=
  let enc_path_len := enc_path.length
  !(!strncmpZero dir enc_path enc_path_len ||
    (enc_path_len != 0 && charAt dir (enc_path_len - 1) != 47 &&
      charAt dir enc_path_len != 0 && charAt dir enc_path_len != 47))

/-- The value of `parent_entry` once `sscanf` has stored the parent ID. -/
def parentEntry (parent : Int) : mountinfo_entry :=
  { id := parent, major := 0, minor := 0, enc_root := [], enc_path := [], fstype := [],
    device := [] }

/-- The entry built from a line: both paths unescaped in place. -/
def entryOfLine (l : MountLine) : mountinfo_entry :=
  { id := l.id, major := l.major, minor := l.minor,
    enc_root := cstr (unescape l.enc_root), enc_path := cstr (unescape l.enc_path),
    fstype := l.fstype, device := l.device }

/-- The `memmove` and the two stores of the "insert at start" case, on the
array whose first elements are `entries`. -/
def insertAtStart (entries : List mountinfo_entry) (parent_entry entry : mountinfo_entry) :
    List mountinfo_entry :=
  let moved := match entries with
    | [] => []
    | e0 :: rest => e0 :: e0 :: rest
  (moved.set 0 parent_entry).set 1 entry

/-- The loop `for (i = entry_len - 1; i >= 0; i--)` of lines 448-467; the last
argument is `i + 1`, and the result is the list after the loop. -/
def insertScan (entries : List mountinfo_entry) (parent_entry entry : mountinfo_entry) :
    Nat → List mountinfo_entry
  | 0 => entries
  | i + 1 =>
    match entries[i]? with
    | none => insertScan entries parent_entry entry i
    | some ei =>
      if ei.id = parent_entry.id then entries.take (i + 1) ++ [entry]
      else if i = 0 ∧ ei.id = entry.id then insertAtStart entries parent_entry entry
      else insertScan entries parent_entry entry i

/-- Lines 439-468: the list is initialised, or the record is placed by the scan. -/
def insertEntry (entries : List mountinfo_entry) (parent_entry entry : mountinfo_entry) :
    List mountinfo_entry :=
  if entries.length = 0 then [parent_entry, entry]
  else insertScan entries parent_entry entry entries.length

/-- One iteration of the `getline` loop (lines 392-469).  The line is skipped
when the first `sscanf` converts fewer than six fields (a `%s` field is
missing), when the unescaped mount point is not relevant to `dir`, and when the
second `sscanf` does not convert both `fstype` and `device`; otherwise
`entry_max` is doubled if the list is full, and the record is inserted. -/
def processLine (dir : List Nat) (st : MountList) (l : MountLine) : MountList :=
  if charAt l.enc_root 0 = 0 ∨ charAt l.enc_path 0 = 0 then st
  else
    let entry := entryOfLine l
    if !mountRelevant dir entry.enc_path then st
    else if charAt l.fstype 0 = 0 ∨ charAt l.device 0 = 0 then st
    else
      let entry_max := if st.entries.length ≥ st.entry_max then st.entry_max <<< 1
        else st.entry_max
      { entries := insertEntry st.entries (parentEntry l.parent) entry, entry_max := entry_max }

/-- The list of visible mounts after the whole table has been read. -/
def buildMountList (dir : List Nat) (table : List MountLine) : MountList :=
  table.foldl (processLine dir) { entries := [], entry_max := 4 }

/-- What the function hands back: `ret` (a NULL-terminated array of device
strings, or NULL) and the string stored in `*relroot` (or NULL). -/
structure RootDevices where
  ret : Option (List (List Nat))
  relroot : Option (List Nat)
deriving DecidableEq

/-- The branch taken for an entry of type `fuse.zfs` (lines 478-494);
`poolResolver` stands for `find_root_devices_from_poolname`. -/
def resolveZfs (poolResolver : List Nat → Option (List (List Nat))) (e : mountinfo_entry) :
    RootDevices :=
  let device := cstr e.device
  match strchr device 47 with
  | none =>
    { ret := poolResolver device, relroot := some (bytes "/@" ++ cstr e.enc_root) }
  | some k =>
    let afterSlash := device.drop (k + 1)
    { ret := poolResolver (device.take k),
      relroot :=
        if (strchr afterSlash 64).isSome then some (bytes "/" ++ afterSlash ++ cstr e.enc_root)
        else some (bytes "/" ++ afterSlash ++ bytes "@" ++ cstr e.enc_root) }

/-- The loop `for (i = entry_len - 1; i >= 0; i--)` of lines 472-505; the last
argument is `i + 1`. -/
def resolveScan (poolResolver : List Nat → Option (List (List Nat)))
    (entries : List mountinfo_entry) : Nat → RootDevices
  | 0 => { ret := none, relroot := none }
  | i + 1 =>
    match entries[i]? with
    | none => resolveScan poolResolver entries i
    | some e =>
      if charAt e.device 0 = 0 then resolveScan poolResolver entries i
      else if strcmpZero e.fstype (bytes "fuse.zfs") then resolveZfs poolResolver e
      else { ret := some [cstr e.device], relroot := some (cstr e.enc_root) }

/-- The function `grub_find_root_devices_from_mountinfo`.  `mountinfo` is
`none` when `/proc/self/mountinfo` cannot be opened; `relroot` of the result
is what is stored through the pointer `relroot` when that is not NULL. -/
def grub_find_root_devices_from_mountinfo (mountinfo : Option (List MountLine))
    (poolResolver : List Nat → Option (List (List Nat))) (dir : List Nat) : RootDevices :=
  let dir := if charAt dir 0 = 0 then bytes "/" else dir
  match mountinfo with
  | none => { ret := none, relroot := none }
  | some table =>
    let st := buildMountList dir table
    resolveScan poolResolver st.entries st.entries.length

/-- The line of the root mount of the two-mount scenario. -/
def rootLine : MountLine :=
  { id := 1, parent := 0, major := 8, minor := 1, enc_root := bytes "/",
    enc_path := bytes "/", fstype := bytes "ext4", device := bytes "/dev/sda1" }

/-- The line of the mount on /var of the two-mount scenario. -/
def varLine : MountLine :=
  { id := 2, parent := 1, major := 8, minor := 2, enc_root := bytes "/",
    enc_path := bytes "/var", fstype := bytes "ext4", device := bytes "/dev/sda2" }

/-- The mount table of the two-mount scenario. -/
def scenarioTable : List MountLine := [rootLine, varLine]

/-- The root mount of the scenario with an arbitrary filesystem type. -/
def rootLineOf (fstype : List Nat) : MountLine := { rootLine with fstype := fstype }

/-- The mount on /var of the scenario with an arbitrary filesystem type. -/
def varLineOf (fstype : List Nat) : MountLine := { varLine with fstype := fstype }

/-- The path-prefix relation in the words of the specification: `mp` is a
string prefix of `dir`, and `mp` equals `dir`, or `mp` ends with a slash, or
the byte of `dir` right after the prefix is a slash. -/
def PathPrefixOf (mp dir : List Nat) : Prop :=
  mp <+: dir ∧ (mp = dir ∨ mp.getLast? = some 47 ∨ dir[mp.length]? = some 47)

instance (mp dir : List Nat) : Decidable (PathPrefixOf mp dir) := by
  unfold PathPrefixOf; infer_instance

/-- The resolved entry in the words of the specification: walking the list
from the last entry to the first, the first entry whose device string is not
empty. -/
def resolvedEntry (entries : List mountinfo_entry) : Option mountinfo_entry :=
  entries.reverse.find? (fun e => charAt e.device 0 != 0)

/-- The unescaped mount point of a line of the mount table. -/
def mountPoint (l : MountLine) : List Nat := cstr (unescape l.enc_path)

/-- A valid mount table: the mount point of every mount lies at or below the
mount point of its parent, and the mount IDs are unique. -/
def ValidTable (table : List MountLine) : Prop :=
  (∀ r ∈ table, ∀ p ∈ table, p.id = r.parent → PathPrefixOf (mountPoint p) (mountPoint r)) ∧
    (table.map (fun l => l.id)).Nodup

/-- A working list holding the placeholder of mount 0 and the root mount 1. -/
def orphanList : List mountinfo_entry :=
  [parentEntry 0, entryOfLine rootLine]

/-- A line for a mount on / whose parent, mount 7, is not in `orphanList`. -/
def orphanLine : MountLine :=
  { id := 5, parent := 7, major := 8, minor := 17, enc_root := bytes "/",
    enc_path := bytes "/", fstype := bytes "ext4", device := bytes "/dev/sdb1" }

instance (table : List MountLine) : Decidable (ValidTable table) := by
  unfold ValidTable; infer_instance

/-- The parent linkage of the lines behind a working list: the first line has
parent `pid`, and every further line has the ID of the line before it as its
parent. -/
def ChainFrom : Int → List MountLine → Prop
  | _, [] => True
  | pid, r :: rs => r.parent = pid ∧ ChainFrom r.id rs

/-- The ID stored at position `i` of a working list made of the placeholder of
`pid` and the entries of the lines `rs`. -/
def idAt : Int → List MountLine → Nat → Int
  | pid, _, 0 => pid
  | pid, [], _ + 1 => pid
  | _, r :: rs, i + 1 => idAt r.id rs i

/-- The shape of the working list while the table is read: empty, or the
placeholder of some mount `pid` followed by the entries of lines of the table
that passed the checks of the loop and are linked by their parent IDs. -/
def ListInv (dir : List Nat) (table : List MountLine) (entries : List mountinfo_entry) : Prop :=
  entries = [] ∨
    ∃ pid rs, entries = parentEntry pid :: rs.map entryOfLine ∧ rs ≠ [] ∧
      (∀ r ∈ rs, r ∈ table ∧ charAt r.device 0 ≠ 0 ∧ mountRelevant dir (mountPoint r) = true) ∧
      ChainFrom pid rs

/-! ## `make_device_name` (getroot.c, lines 1814-1841) -/

/-- Decimal digits of `n`, most significant first; the first argument bounds
the number of digits. -/
def natDecimalSteps : Nat → Nat → List Nat
  | 0, _ => []
  | steps + 1, n =>
    if n < 10 then [48 + n] else natDecimalSteps steps (n / 10) ++ [48 + n % 10]

/-- Decimal digits of `n`. -/
def natDecimal (n : Nat) : List Nat := natDecimalSteps (n + 1) n

/-- The text that the conversion `%d` of `printf` produces for an `int`. -/
def fmtInt (i : Int) : List Nat :=
  if i < 0 then 45 :: natDecimal i.natAbs else natDecimal i.natAbs

/-- The value of an `int` expression whose mathematical value is `x`, on a
32-bit two's complement machine. -/
def wrapInt32 (x : Int) : Int := (x + 2147483648) % 4294967296 - 2147483648

/-- The loop of lines 1827-1832: the drive name is copied, a backslash being
put before every comma. -/
def escapeCommas : List Nat → List Nat
  | [] => []
  | c :: rest => if c = 44 then 92 :: c :: escapeCommas rest else c :: escapeCommas rest

/-- The function `make_device_name`.  The buffer has room for twice the drive
name and two fields of 27 bytes, so no `snprintf` truncates. -/
def make_device_name (drive : List Nat) (dos_part bsd_part : Int) : List Nat :=
  let ret := escapeCommas drive
  let ret := if dos_part ≥ 0 then ret ++ 44 :: fmtInt (wrapInt32 (dos_part + 1)) else ret
  if bsd_part ≥ 0 then ret ++ 44 :: fmtInt (wrapInt32 (bsd_part + 1)) else ret

/-- The claimed canonical name, in the words of the specification: the drive
name with a backslash before each comma, then a comma and `dos_part + 1` when
`dos_part` is not -1, then a comma and `bsd_part + 1` when `bsd_part` is not -1. -/
def makeDeviceNameSpec (drive : List Nat) (dos_part bsd_part : Int) : List Nat :=
  drive.flatMap (fun c => if c = 44 then [92, 44] else [c])
    ++ (if dos_part ≠ -1 then 44 :: fmtInt (dos_part + 1) else [])
    ++ (if bsd_part ≠ -1 then 44 :: fmtInt (bsd_part + 1) else [])

/-- The number that a string of decimal digits denotes. -/
def decimalValue (xs : List Nat) : Nat := xs.foldl (fun v c => v * 10 + (c - 48)) 0

/-! ## `convert_system_partition_to_system_disk`, Linux (getroot.c, lines 1411-1673) -/

/-- Result of `strstr (hay, needle)`: the offset of the first occurrence. -/
def strstr (needle : List Nat) : List Nat → Option Nat
  | [] => if needle.isPrefixOf [] then some 0 else none
  | c :: tl =>
    if needle.isPrefixOf (c :: tl) then some 0 else (strstr needle tl).map (fun k => k + 1)

/-- The test `c >= 'a' && c <= 'z'`. -/
def isLowerLetter (c : Nat) : Bool := 97 ≤ c && c ≤ 122

/-- The test `c >= '0' && c <= '9'`. -/
def isDecimalDigit (c : Nat) : Bool := 48 ≤ c && c ≤ 57

/-- What libdevmapper reports about one node of the tree. -/
structure DmNode where
  uuid : Option (List Nat)
  name : Option (List Nat)

/-- The answers of the device-mapper library and of `grub_find_device` that the
device-mapper branch consults: whether `dm_tree_create` and `dm_tree_add_dev`
succeed, the node found for the device number of `st`, its first child, the
major and minor number that `grub_util_get_dm_node_linear_info` reads from the
linear table of a name, and the path `grub_find_device ("/dev", dev)` finds. -/
structure DmEnv where
  tree : Bool
  add_dev : Bool
  node : Option DmNode
  child : Option DmNode
  linear : List Nat → Option (Nat × Nat)
  find_device : Nat → Option (List Nat)

/-- The label `devmapper_out` (lines 1654-1668). -/
def devmapperOut (mapper_name : Option (List Nat)) (node : Option DmNode) :
    Option (List Nat) :=
  let mapper_name :=
    match mapper_name, node with
    | none, some n => n.name
    | m, _ => m
  match mapper_name with
  | some name => some (bytes "/dev/mapper/" ++ name)
  | none => none

/-- The device-mapper branch (lines 1553-1653). -/
def devmapperBranch (env : DmEnv) : Option (List Nat) :=
  if !env.tree then devmapperOut none none
  else if !env.add_dev then devmapperOut none none
  else
    match env.node with
    | none => devmapperOut none none
    | some node =>
      match node.uuid with
      | none => devmapperOut none none
      | some node_uuid =>
        if strncmpZero node_uuid (bytes "LVM-") 4 then devmapperOut none none
        else if strncmpZero node_uuid (bytes "mpath-") 6 then
          devmapperOut node.name (some node)
        else if !strncmpZero node_uuid (bytes "DMRAID-") 7 then
          match node.name with
          | none => devmapperOut none none
          | some node_name =>
            match env.linear node_name with
            | some (major, minor) => env.find_device ((major <<< 8) ||| minor)
            | none => devmapperOut none none
        else
          match env.child with
          | none => devmapperOut none (some node)
          | some child =>
            match child.uuid with
            | none => devmapperOut none (some node)
            | some child_uuid =>
              if !strncmpZero child_uuid (bytes "DMRAID-") 7 then devmapperOut none (some node)
              else
                match child.name with
                | none => devmapperOut none (some node)
                | some child_name => devmapperOut (some child_name) (some node)

/-- The string left in `path` when a NUL is stored at the first `c` at or after
`p` (`p = strchr (p, c); if (p) *p = 0`); `p` starts at offset 5 of `path`. -/
def cutAtChar (path : List Nat) (c : Nat) : List Nat :=
  match strchr (path.drop 5) c with
  | some k => path.take (5 + k)
  | none => path

/-- The string left in `path` when `disc` is copied over the first `part` at or
after offset 5 (`p = strstr (p, "part"); if (p) strcpy (p, "disc")`). -/
def partToDisc (path : List Nat) : List Nat :=
  match strstr (bytes "part") (path.drop 5) with
  | some k => path.take (5 + k) ++ bytes "disc"
  | none => path

/-- The Linux variant of `convert_system_partition_to_system_disk`.
`realpath` is the answer of `realpath (os_dev, path)` (`none` for NULL), `dm`
the device-mapper answers when the program is built with HAVE_DEVICE_MAPPER. -/
def convert_system_partition_to_system_disk (realpath : Option (List Nat))
    (dm : Option DmEnv) (os_dev : List Nat) : Option (List Nat) :=
  match realpath with
  | none => none
  | some path =>
    if strncmpZero (bytes "/dev/") path 5 then
      let p := path.drop 5
      if strncmpZero (bytes "ide/") p 4 then some (partToDisc path)
      else if strncmpZero (bytes "scsi/") p 5 then some (partToDisc path)
      else if strncmpZero (bytes "rd/c") p 4 then some (cutAtChar path 112)
      else if strncmpZero (bytes "rs/c") p 4 then some (cutAtChar path 112)
      else if strncmpZero (bytes "cciss/c") p 7 then some (cutAtChar path 112)
      else if strncmpZero (bytes "ida/c") p 5 then some (cutAtChar path 112)
      else if strncmpZero (bytes "i2o/hd") p 6 then some (path.take (5 + 7))
      else if strncmpZero (bytes "mmcblk") p 6 then some (cutAtChar path 112)
      else if strncmpZero (bytes "md") p 2 && isDecimalDigit (charAt p 2) then
        some (path.take (5 + 2) ++ (p.drop 2).takeWhile isDecimalDigit)
      else if strncmpZero (bytes "vdisk") p 5 && isLowerLetter (charAt p 5) then
        some (path.take (5 + 6))
      else if (strncmpZero (bytes "hd") p 2 || strncmpZero (bytes "vd") p 2
          || strncmpZero (bytes "sd") p 2) && isLowerLetter (charAt p 2) then
        some (path.take (5 + 2) ++ (p.drop 2).takeWhile isLowerLetter)
      else if strncmpZero (bytes "xvd") p 3 && isLowerLetter (charAt p 3) then
        some (path.take (5 + 3) ++ (p.drop 3).takeWhile isLowerLetter)
      else
        match dm with
        | some env =>
          if strncmpZero (bytes "/dev/mapper/") os_dev 12 then devmapperBranch env
          else some path
        | none => some path
    else some path

/-! ## Abstraction classification (getroot.c, lines 942-1083) -/

/-- The C `enum grub_dev_abstraction_types` (GRUB_DEV_ABSTRACTION_NONE, ...). -/
inductive grub_dev_abstraction_types where
  | NONE
  | LVM
  | RAID
  | LUKS
  | GELI
deriving DecidableEq

/-- What the classification asks of the host, for a device path: whether the
program is built with HAVE_DEVICE_MAPPER, the answer of
`grub_util_biosdisk_is_present`, the UUID that `dm_tree_node_get_uuid` gives
for the node opened by `grub_util_open_dm` (`none` when the node cannot be
opened or has no UUID), and the answer of `grub_util_device_is_mapped`. -/
structure ClassifyEnv where
  have_device_mapper : Bool
  biosdisk_is_present : List Nat → Bool
  dm_node_uuid : List Nat → Option (List Nat)
  device_is_mapped : List Nat → Bool

/-- The function `get_dm_uuid`. -/
def get_dm_uuid (env : ClassifyEnv) (os_dev : List Nat) : Option (List Nat) :=
  if !strncmpZero (bytes "/dev/mapper/") os_dev 12 then none
  else if env.have_device_mapper then env.dm_node_uuid os_dev
  else none

/-- The function `grub_util_get_dm_abstraction`. -/
def grub_util_get_dm_abstraction (env : ClassifyEnv) (os_dev : List Nat) :
    grub_dev_abstraction_types :=
  if env.have_device_mapper then
    match get_dm_uuid env os_dev with
    | none => .NONE
    | some uuid =>
      if strncmpZero uuid (bytes "LVM-") 4 then .LVM
      else if strncmpZero uuid (bytes "CRYPT-LUKS1-") 4 then .LUKS
      else .NONE
  else if !strncmpZero (bytes "/dev/mapper/") os_dev 12 then .NONE
  else .LVM

/-- The Linux variant of `grub_util_get_dev_abstraction`. -/
def grub_util_get_dev_abstraction (env : ClassifyEnv) (os_dev : List Nat) :
    grub_dev_abstraction_types :=
  if env.biosdisk_is_present os_dev then .NONE
  else
    let ret := grub_util_get_dm_abstraction env os_dev
    if ret ≠ .NONE then ret
    else if strncmpZero os_dev (bytes "/dev/md") 7 && !env.device_is_mapped os_dev then .RAID
    else .NONE

/-- A host with device-mapper support on which /dev/mapper/swap is a plain
dm-crypt mapping, with the UUID CRYPT-PLAIN-swap. -/
def plainCryptEnv : ClassifyEnv :=
  { have_device_mapper := true
    biosdisk_is_present := fun _ => false
    dm_node_uuid := fun d => if d = bytes "/dev/mapper/swap" then some (bytes "CRYPT-PLAIN-swap")
      else none
    device_is_mapped := fun _ => true }

/-- A device-mapper tree whose node is a multipath disk named mpatha. -/
def multipathEnv : DmEnv :=
  { tree := true, add_dev := true,
    node := some { uuid := some (bytes "mpath-360a98000"), name := some (bytes "mpatha") },
    child := some { uuid := some (bytes "DMRAID-x"), name := some (bytes "other") },
    linear := fun _ => some (8, 0),
    find_device := fun _ => some (bytes "/dev/sda") }

/-! ## `grub_util_pull_device` (getroot.c, lines 1167-1300) -/

/-- The calls by which a run of `grub_util_pull_device` acts on the rest of
the program: a nested call of `grub_util_pull_device` itself (made directly or
at the start of `grub_util_get_grub_dev`), the registration probe
`free (grub_util_biosdisk_get_grub_dev (os_dev))`, the naming switch of
`grub_util_get_grub_dev`, and `grub_cryptodisk_cheat_mount (grdev, os_dev)`. -/
inductive PullEvent where
  | recurse (os_dev : List Nat)
  | probe (os_dev : List Nat)
  | get_grub_dev (os_dev : List Nat)
  | cheat_mount (grdev os_dev : List Nat)
deriving DecidableEq

/-- A finished run: the calls made, in order, and whether the run ended in
`grub_util_error`, which exits the program. -/
structure PullRun where
  events : List PullEvent
  aborted : Bool
deriving DecidableEq

/-- What `grub_util_pull_device` asks of the host and of the functions it
calls: the platform (`__linux__`, FreeBSD, HAVE_DEVICE_MAPPER), the answer of
`grub_util_get_dev_abstraction`, the device-mapper children of a node (`none`
when `grub_util_open_dm` fails; per child the path that `grub_find_device`
finds, `none` when the child has no info or no node is found), the members
that `grub_util_raid_getmembers` lists, whether `geom_gettree` succeeds, for
every geom provider named like the device the provider name of its first
consumer (`none` when the geom has no consumer), the outcome of the naming
switch of `grub_util_get_grub_dev` (`none` when it ends in `grub_util_error`),
and whether `grub_cryptodisk_cheat_mount` succeeds. -/
structure PullEnv where
  linux : Bool
  freebsd : Bool
  have_device_mapper : Bool
  abstraction : List Nat → grub_dev_abstraction_types
  dm_children : List Nat → Option (List (Option (List Nat)))
  raid_members : List Nat → List (List Nat)
  geom_tree : Bool
  geli_consumers : List Nat → List (Option (List Nat))
  grub_dev_name : List Nat → Option (Option (List Nat))
  cheat_mount_ok : List Nat → List Nat → Bool

/-- One run after another: nothing follows a run that ended in
`grub_util_error`; `none` is a run that has not finished. -/
def seqRun (a b : Option PullRun) : Option PullRun :=
  match a with
  | none => none
  | some ra =>
    if ra.aborted then some ra
    else
      match b with
      | none => none
      | some rb => some { events := ra.events ++ rb.events, aborted := rb.aborted }

/-- A nested call `grub_util_pull_device (d)`. -/
def nestedPull (pull : List Nat → Option PullRun) (d : List Nat) : Option PullRun :=
  seqRun (some { events := [.recurse d], aborted := false }) (pull d)

/-- The nested calls on the devices of a list, in order. -/
def pullEach (pull : List Nat → Option PullRun) : List (List Nat) → Option PullRun
  | [] => some { events := [], aborted := false }
  | d :: ds => seqRun (nestedPull pull d) (pullEach pull ds)

/-- The call `grub_util_get_grub_dev (sub)` followed by the crypto mount of
lines 1268-1277 (and 1223-1234): the function first pulls `sub`, then names it. -/
def cryptoMount (env : PullEnv) (pull : List Nat → Option PullRun) (os_dev sub : List Nat) :
    Option PullRun :=
  seqRun (nestedPull pull sub)
    (match env.grub_dev_name sub with
     | none => some { events := [.get_grub_dev sub], aborted := true }
     | some none => some { events := [.get_grub_dev sub], aborted := false }
     | some (some grdev) =>
       some { events := [.get_grub_dev sub, .cheat_mount grdev os_dev],
              aborted := !env.cheat_mount_ok grdev os_dev })

/-- The paths /dev/<consumer> that the GELI loop pulls: the consumers up to
the first geom without one. -/
def geliSubdevices (env : PullEnv) (os_dev : List Nat) : List (List Nat) :=
  ((env.geli_consumers os_dev).takeWhile Option.isSome).filterMap
    (fun c => c.map (fun name => bytes "/dev/" ++ name))

/-- The paths that the device-mapper loop pulls. -/
def dmSubdevices (env : PullEnv) (os_dev : List Nat) : List (List Nat) :=
  match env.dm_children os_dev with
  | none => []
  | some children => children.filterMap id

/-- The function `grub_util_pull_device`; the first argument bounds the depth
of the nested calls, and `none` is a run cut off at that depth. -/
def grub_util_pull_device (env : PullEnv) : Nat → List Nat → Option PullRun
  | 0, _ => none
  | depth + 1, os_dev =>
    let pull := fun d => grub_util_pull_device env depth d
    match env.abstraction os_dev with
    | .GELI =>
      if env.freebsd then
        if !strncmpZero os_dev (bytes "/dev/") 5 then some { events := [], aborted := false }
        else if !env.geom_tree then some { events := [], aborted := true }
        else
          seqRun (pullEach pull (geliSubdevices env os_dev))
            (if (env.geli_consumers os_dev).any Option.isNone then
              some { events := [], aborted := true }
            else
              match (geliSubdevices env os_dev).getLast? with
              | none => some { events := [], aborted := false }
              | some sub => cryptoMount env pull os_dev sub)
      else some { events := [], aborted := false }
    | .LVM =>
      if env.have_device_mapper then pullEach pull (dmSubdevices env os_dev)
      else some { events := [], aborted := false }
    | .LUKS =>
      if env.have_device_mapper then
        seqRun (pullEach pull (dmSubdevices env os_dev))
          (match (dmSubdevices env os_dev).getLast? with
           | none => some { events := [], aborted := false }
           | some sub => cryptoMount env pull os_dev sub)
      else some { events := [], aborted := false }
    | .RAID =>
      if env.linux then pullEach pull (env.raid_members os_dev)
      else some { events := [], aborted := false }
    | .NONE => some { events := [.probe os_dev], aborted := false }

/-- The devices on which one unwinding step of `os_dev` calls
`grub_util_pull_device`: the device-mapper children, the RAID members, or the
geom consumers. -/
def subdevices (env : PullEnv) (os_dev : List Nat) : List (List Nat) :=
  match env.abstraction os_dev with
  | .GELI =>
    if env.freebsd && strncmpZero os_dev (bytes "/dev/") 5 && env.geom_tree then
      geliSubdevices env os_dev
    else []
  | .LVM => if env.have_device_mapper then dmSubdevices env os_dev else []
  | .LUKS => if env.have_device_mapper then dmSubdevices env os_dev else []
  | .RAID => if env.linux then env.raid_members os_dev else []
  | .NONE => []

/-- The relation "is pulled by one unwinding step of". -/
def PulledBy (env : PullEnv) (child parent : List Nat) : Prop := child ∈ subdevices env parent

/-- A Linux host where /dev/mapper/root is a LUKS volume on the LVM volume
/dev/mapper/vg-crypt, which lies on the RAID /dev/md0 of /dev/sda1 and
/dev/sdb1. -/
def layeredEnv : PullEnv :=
  { linux := true, freebsd := false, have_device_mapper := true
    abstraction := fun d =>
      if d = bytes "/dev/mapper/root" then .LUKS
      else if d = bytes "/dev/mapper/vg-crypt" then .LVM
      else if d = bytes "/dev/md0" then .RAID
      else .NONE
    dm_children := fun d =>
      if d = bytes "/dev/mapper/root" then some [none, some (bytes "/dev/mapper/vg-crypt")]
      else if d = bytes "/dev/mapper/vg-crypt" then some [some (bytes "/dev/md0")]
      else none
    raid_members := fun d =>
      if d = bytes "/dev/md0" then [bytes "/dev/sda1", bytes "/dev/sdb1"] else []
    geom_tree := false
    geli_consumers := fun _ => []
    grub_dev_name := fun d =>
      if d = bytes "/dev/mapper/vg-crypt" then some (some (bytes "lvm/vg-crypt")) else some none
    cheat_mount_ok := fun _ _ => true }

/-! ## `grub_make_system_path_relative_to_its_root` (getroot.c, lines 2390-2591) -/

/-- How a C function ends: it returns a value, it exits the program through
`grub_util_error`, or, for a loop modelled with a bound on its iterations, the
bound is used up. -/
inductive Outcome (α : Type) where
  | returns (value : α)
  | exits
  | unfinished
deriving DecidableEq

/-- Result of `strrchr (s, c)` for `c` other than NUL: the offset of the last
`c` in `s`, if any. -/
def strrchr : List Nat → Nat → Option Nat
  | [], _ => none
  | x :: xs, c =>
    match strrchr xs c with
    | some k => some (k + 1)
    | none => if x = c then some 0 else none

/-- The end of `grub_find_zpool_from_dir` (lines 2438-2448): the name found by
the platform-specific part (`none` on Linux, which has no such part) is split
at its first slash into pool name and pool filesystem. -/
def grub_find_zpool_from_dir (found : Option (List Nat)) :
    Option (List Nat) × Option (List Nat) :=
  match found with
  | none => (none, none)
  | some poolname =>
    match strchr poolname 47 with
    | some k => (some (poolname.take k), some (poolname.drop (k + 1)))
    | none => (some poolname, some [])

/-- What `grub_make_system_path_relative_to_its_root` asks of the host:
whether the `__linux__` blocks are compiled, the answer of
`canonicalize_file_name`, the `st_dev` that `stat` reports for a path (`none`
when `stat` fails), the name that the platform part of
`grub_find_zpool_from_dir` finds for a directory, and the mount table with the
pool resolver used by `grub_find_root_devices_from_mountinfo`. -/
structure PathEnv where
  linux : Bool
  canonicalize : List Nat → Option (List Nat)
  st_dev : List Nat → Option Nat
  zfs_mount : List Nat → Option (List Nat)
  mountinfo : Option (List MountLine)
  poolResolver : List Nat → Option (List (List Nat))

/-- The string `bind` after
`grub_free (grub_find_root_devices_from_mountinfo (dir, &bind))`. -/
def bindOf (env : PathEnv) (dir : List Nat) : Option (List Nat) :=
  (grub_find_root_devices_from_mountinfo env.mountinfo env.poolResolver dir).relroot

/-- The test `bind && bind[0] && bind[1]`. -/
def bindUsable (bind : Option (List Nat)) : Bool :=
  match bind with
  | none => false
  | some b => charAt b 0 != 0 && charAt b 1 != 0

/-- How the loop of lines 2486-2540 ends: in the case `offset == 0` of a
different filesystem (the path is a mount point), by `break` with the final
`offset`, in `grub_util_error`, or not within the bound. -/
inductive RootLoopExit where
  | mountPoint
  | found (offset : Nat)
  | error
  | unfinished
deriving DecidableEq

/-- The loop of lines 2486-2540 on the current `buf` and `offset`; `num` is the
device of the path, the first argument bounds the iterations. -/
def rootLoop (st_dev : List Nat → Option Nat) (num : Nat) : Nat → List Nat → Nat → RootLoopExit
  | 0, _, _ => .unfinished
  | steps + 1, buf, offset =>
    match strrchr buf 47 with
    | none => .error
    | some i =>
      let buf := if i ≠ 0 then buf.take i else buf.take 1
      let p_minus_buf := if i ≠ 0 then i else 1
      match st_dev buf with
      | none => .error
      | some dev =>
        if dev ≠ num then
          if offset = 0 then .mountPoint else .found offset
        else if p_minus_buf = 1 then .found 0
        else rootLoop st_dev num steps buf p_minus_buf

/-- The loop of lines 2575-2580: trailing slashes are removed. -/
def stripTrailingSlashes (s : List Nat) : List Nat :=
  (s.reverse.dropWhile (fun c => c == 47)).reverse

/-- The label `parsedir` (lines 2573-2590). -/
def parsedir (poolfs : Option (List Nat)) (buf3 : List Nat) : List Nat :=
  match poolfs with
  | some fs => bytes "/" ++ fs ++ bytes "/@" ++ stripTrailingSlashes buf3
  | none => stripTrailingSlashes buf3

/-- The function `grub_make_system_path_relative_to_its_root` (without the
Cygwin block).  The loop runs at most once per byte of the path. -/
def grub_make_system_path_relative_to_its_root (env : PathEnv) (path : List Nat) :
    Outcome (List Nat) :=
  match env.canonicalize path with
  | none => .exits
  | some p =>
    let poolfs := (grub_find_zpool_from_dir (env.zfs_mount p)).2
    match env.st_dev p with
    | none => .exits
    | some num =>
      match rootLoop env.st_dev num (p.length + 1) p 0 with
      | .error => .exits
      | .unfinished => .unfinished
      | .mountPoint =>
        if env.linux && bindUsable (bindOf env p) then
          .returns (parsedir poolfs ((bindOf env p).getD []))
        else
          match poolfs with
          | some fs => .returns (bytes "/" ++ fs ++ bytes "/@")
          | none => .returns []
      | .found offset =>
        let buf3 := p.drop offset
        let buf2 := p.take offset
        let buf3 :=
          if env.linux && bindUsable (bindOf env buf2) then
            (bindOf env buf2).getD [] ++ (if charAt buf3 0 = 47 then [] else bytes "/") ++ buf3
          else buf3
        .returns (parsedir poolfs buf3)

/-- A canonical absolute path, as far as the function depends on it: it
starts with a slash and, unless it is `/`, does not end with one. -/
def CanonicalAbsolute (p : List Nat) : Prop :=
  p.head? = some 47 ∧ (p = [47] ∨ p.getLast? ≠ some 47)

instance (p : List Nat) : Decidable (CanonicalAbsolute p) := by
  unfold CanonicalAbsolute; infer_instance

/-- A Linux machine with one filesystem (device 2049) mounted on /. -/
def singleFsEnv : PathEnv :=
  { linux := true
    canonicalize := fun p => some p
    st_dev := fun _ => some 2049
    zfs_mount := fun _ => none
    mountinfo := some [rootLine]
    poolResolver := fun _ => none }

/-- A Linux machine with / on device 2049 and /boot, with everything below
it, on device 2050. -/
def bootFsEnv : PathEnv :=
  { linux := true
    canonicalize := fun p => some p
    st_dev := fun p => if bytes "/boot" <+: p then some 2050 else some 2049
    zfs_mount := fun _ => none
    mountinfo := some [rootLine,
      { id := 3, parent := 1, major := 8, minor := 2, enc_root := bytes "/",
        enc_path := bytes "/boot", fstype := bytes "ext2", device := bytes "/dev/sda2" }]
    poolResolver := fun _ => none }

/-! ## `find_root_devices_from_poolname` (getroot.c, lines 184-327) -/

/-- The C `isspace` in the C locale. -/
def isSpace (c : Nat) : Bool := c == 32 || (9 ≤ c && c ≤ 13)

/-- One conversion `%s` (or `%256s`, with a width) of `sscanf`: white space is
skipped, then the bytes up to the next white space, at most `width` of them,
are stored; the conversion fails at the end of the input.  The result is the
stored string and the rest of the input. -/
def scanString (width : Option Nat) (s : List Nat) : Option (List Nat × List Nat) :=
  let s := s.dropWhile isSpace
  let run := s.takeWhile (fun c => !isSpace c)
  let stored := match width with
    | some w => run.take w
    | none => run
  if stored = [] then none else some (stored, s.drop stored.length)

/-- The strings stored by a sequence of `%s` conversions, up to the first
conversion that fails. -/
def scanStrings : List (Option Nat) → List Nat → List (List Nat)
  | [], _ => []
  | w :: ws, s =>
    match scanString w s with
    | none => []
    | some (stored, rest) => stored :: scanStrings ws rest

/-- The strings stored by
`sscanf (line, " %s %256s %256s %256s %256s %256s", name, state, ...)`; their
number is the return value where that is not negative. -/
def scanStatusLine (line : List Nat) : List (List Nat) :=
  scanStrings [none, some 256, some 256, some 256, some 256, some 256] (cstr line)

/-- The conversion `%u` at the end of a format: 1 when a decimal number, with or
without sign, is converted, EOF (-1) at the end of the input, 0 otherwise. -/
def scanUnsigned (s : List Nat) : Int :=
  match s.dropWhile isSpace with
  | [] => -1
  | c :: rest =>
    if isDecimalDigit c then 1
    else if c = 43 ∨ c = 45 then
      match rest with
      | d :: _ => if isDecimalDigit d then 1 else 0
      | [] => 0
    else 0

/-- Return value of `sscanf (s, "<lit>%u", &dummy)` for a literal without white
space and without `%`: the literal is matched byte by byte; the input ending
inside the literal is an input failure before the first conversion (EOF, -1),
another byte a matching failure (0). -/
def sscanfLitUnsigned : List Nat → List Nat → Int
  | [], s => scanUnsigned s
  | _ :: _, [] => -1
  | l :: ls, c :: cs => if l = c then sscanfLitUnsigned ls cs else 0

/-- The test of lines 293-298 on a row of the device table. -/
def collectsRow (name state : List Nat) : Bool :=
  !strcmpZero name (bytes "mirror") && sscanfLitUnsigned (bytes "mirror-") name == 0
    && sscanfLitUnsigned (bytes "raidz") name == 0
    && sscanfLitUnsigned (bytes "raidz1") name == 0
    && sscanfLitUnsigned (bytes "raidz2") name == 0
    && sscanfLitUnsigned (bytes "raidz3") name == 0
    && strcmpZero state (bytes "ONLINE")

/-- The variables `st` and `devices` of the loop of lines 269-312. -/
structure PoolScan where
  st : Nat
  devices : List (List Nat)
deriving DecidableEq

/-- The `switch (st)` of lines 278-309 on the strings `name`, `state`,
`readlen`, `writelen`, `cksum` read from a line, entered when at least five
were read. -/
def statusSwitch (poolname : List Nat) (acc : PoolScan) : List (List Nat) → PoolScan
  | name :: state :: readlen :: writelen :: cksum :: _ =>
    match acc.st with
    | 0 =>
      if strcmpZero name (bytes "NAME") && strcmpZero state (bytes "STATE")
          && strcmpZero readlen (bytes "READ") && strcmpZero writelen (bytes "WRITE")
          && strcmpZero cksum (bytes "CKSUM") then
        { acc with st := acc.st + 1 }
      else acc
    | 1 => if strcmpZero name poolname then { acc with st := acc.st + 1 } else acc
    | 2 =>
      if collectsRow name state then
        { acc with devices := acc.devices ++ [bytes "/dev/" ++ name] }
      else acc
    | _ => acc
  | _ => acc

/-- One iteration of the loop of lines 269-312 on a line of the output of
`zpool status`. -/
def poolStep (poolname : List Nat) (acc : PoolScan) (line : List Nat) : PoolScan :=
  statusSwitch poolname acc (scanStatusLine line)

/-- A node of the vdev tree of a pool configuration: its `path` string and its
`children` array, where it has them. -/
inductive Vdev where
  | node (path : Option (List Nat)) (children : Option (List Vdev))

/-- The `path` string of a node. -/
def Vdev.path : Vdev → Option (List Nat)
  | .node p _ => p

/-- The loop of lines 214-216: as long as the first element of the current
array has children, these become the current array; an empty array fails the
assertion. -/
def vdevLeafRow : Vdev → List Vdev → Outcome (List Vdev)
  | .node _ (some (c :: cs)), _ => vdevLeafRow c (c :: cs)
  | .node _ (some []), _ => .exits
  | .node _ none, row => .returns row

/-- What the library strategy asks of the host: whether a libzfs handle is
available, the `vdev_tree` of the configuration of the pool, whether `stat`
succeeds on a path, and whether the program is built for `__sun__`. -/
structure ZfsEnv where
  libzfs_handle : Bool
  vdev_tree : Option Vdev
  stat_ok : List Nat → Bool
  sun : Bool

/-- The device string stored for a leaf path (lines 226-238). -/
def zfsDeviceString (sun : Bool) (device : List Nat) : List Nat :=
  if sun && (bytes "/dev/dsk/").isPrefixOf device then
    bytes "/dev/rdsk/" ++ device.drop 9
  else if sun && (bytes "/devices").isPrefixOf device
      && !(bytes ",raw").isSuffixOf device then
    device ++ bytes ",raw"
  else device

/-- The loop of lines 218-249 over the leaf row. -/
def zfsCollect (env : ZfsEnv) : List Vdev → Outcome (List (List Nat))
  | [] => .returns []
  | v :: vs =>
    match v.path with
    | none => .exits
    | some device =>
      match zfsCollect env vs with
      | .returns rest =>
        if env.stat_ok device then .returns (zfsDeviceString env.sun device :: rest)
        else .returns rest
      | .exits => .exits
      | .unfinished => .unfinished

/-- The two strategies between which the build chooses: the pool library
(HAVE_LIBZFS and HAVE_LIBNVPAIR) or the output of `zpool status <poolname>`,
line by line. -/
inductive PoolSource where
  | library (env : ZfsEnv)
  | status (output : List (List Nat))

/-- The function `find_root_devices_from_poolname`; the value returned is NULL
(`none`) when no device was stored. -/
def find_root_devices_from_poolname (src : PoolSource) (poolname : List Nat) :
    Outcome (Option (List (List Nat))) :=
  match src with
  | .library env =>
    if !env.libzfs_handle then .returns none
    else
      match env.vdev_tree with
      | none => .exits
      | some (.node _ none) => .exits
      | some (.node _ (some [])) => .exits
      | some (.node _ (some (c :: cs))) =>
        match vdevLeafRow c (c :: cs) with
        | .returns row =>
          match zfsCollect env row with
          | .returns devices => .returns (if devices = [] then none else some devices)
          | .exits => .exits
          | .unfinished => .unfinished
        | .exits => .exits
        | .unfinished => .unfinished
  | .status output =>
    let final := output.foldl (poolStep poolname) { st := 0, devices := [] }
    .returns (if final.devices = [] then none else some final.devices)

/-- The output of `zpool status tank` for a pool made of one mirror of sda1
and sdb1, all online. -/
def mirrorStatus : List (List Nat) :=
  [ bytes "  pool: tank\n",
    bytes " state: ONLINE\n",
    bytes "  scan: none requested\n",
    bytes "config:\n",
    bytes "\n",
    bytes "\tNAME        STATE     READ WRITE CKSUM\n",
    bytes "\ttank        ONLINE       0     0     0\n",
    bytes "\t  mirror-0  ONLINE       0     0     0\n",
    bytes "\t    sda1    ONLINE       0     0     0\n",
    bytes "\t    sdb1    ONLINE       0     0     0\n",
    bytes "\n",
    bytes "errors: No known data errors\n" ]

/-- The vdev tree mirror(sda1, sdb1) with the leaf paths `p1` and `p2`. -/
def mirrorTree (p1 p2 : List Nat) : Vdev :=
  .node none (some [.node none (some [.node (some p1) none, .node (some p2) none])])

/-- The output of `zpool status tank` for a pool on the single device whose
name is `raid`. -/
def raidNameStatus : List (List Nat) :=
  [ bytes "\tNAME        STATE     READ WRITE CKSUM\n",
    bytes "\ttank        ONLINE       0     0     0\n",
    bytes "\t  raid      ONLINE       0     0     0\n" ]


/-! ### The device table as the specification words it -/

/-- The rows of the table: the lines on which at least five columns are read,
as their columns. -/
def statusRows (output : List (List Nat)) : List (List (List Nat)) :=
  (output.map scanStatusLine).filter (fun r => decide (5 ≤ r.length))

/-- The name column of a row. -/
def rowName (r : List (List Nat)) : List Nat := r.headD []

/-- The state column of a row. -/
def rowState (r : List (List Nat)) : List Nat := (r.drop 1).headD []

/-- The header row NAME STATE READ WRITE CKSUM. -/
def isHeaderRowSpec (r : List (List Nat)) : Bool :=
  r.take 5 == [bytes "NAME", bytes "STATE", bytes "READ", bytes "WRITE", bytes "CKSUM"]

/-- The rows that come after the header row and after the row naming the
pool. -/
def rowsAfterPoolSpec (poolname : List Nat) (rows : List (List (List Nat))) :
    List (List (List Nat)) :=
  (((rows.dropWhile (fun r => !isHeaderRowSpec r)).drop 1).dropWhile
    (fun r => !(rowName r == poolname))).drop 1

/-- The string begins with a number: a decimal digit, or a sign and a decimal
digit. -/
def startsWithNumber : List Nat → Bool
  | [] => false
  | c :: rest =>
    isDecimalDigit c || ((c == 43 || c == 45) &&
      match rest with
      | d :: _ => isDecimalDigit d
      | [] => false)

/-- The group labels: `mirror`, `mirror-N` and `raidzN`, a label going on past
the number as in `raidz1-0`. -/
def isGroupLabelSpec (name : List Nat) : Bool :=
  name == bytes "mirror"
    || ((bytes "mirror-").isPrefixOf name && startsWithNumber (name.drop 7))
    || ((bytes "raidz").isPrefixOf name && startsWithNumber (name.drop 5))

/-- The devices of the specification: of the rows after the header row and the
row of the pool, those whose state is ONLINE and whose name is no group label,
as `/dev/<name>`. -/
def collectedDevicesSpec (poolname : List Nat) (output : List (List Nat)) :
    List (List Nat) :=
  ((rowsAfterPoolSpec poolname (statusRows output)).filter
    (fun r => rowState r == bytes "ONLINE" && !isGroupLabelSpec (rowName r))).map
    (fun r => bytes "/dev/" ++ rowName r)

/-- The name ends inside the text `mirror-` or `raidz` without being `mirror`:
one of m, mi, mir, mirr, mirro, mirror-, r, ra, rai, raid, raidz. -/
def endsInsideLabel (name : List Nat) : Bool :=
  (name.isPrefixOf (bytes "mirror-") && name != bytes "mirror")
    || name.isPrefixOf (bytes "raidz")

/-- The devices that the loop stores while `st` is 2, from rows given as their
columns. -/
def collectedRows (rows : List (List (List Nat))) : List (List Nat) :=
  (rows.filter (fun r => collectsRow (rowName r) (rowState r))).map
    (fun r => bytes "/dev/" ++ rowName r)

/-! ## `strip_extra_slashes` (getroot.c, lines 145-166) -/

/-- The loop of `strip_extra_slashes` from the position `p` on: the list is the
string from `p`, and `atStart` says whether `p == dir`.  Bytes other than a
slash are stepped over by `strchr`.  At a slash followed by a slash the
`memmove` deletes the first of the two and `p` stays; at a slash followed by
the end of the string the slash is overwritten with NUL if `p > dir`, and the
loop ends; at any other slash `p` moves on by one. -/
def stripSlashesFrom (atStart : Bool) : List Nat → List Nat
  | [] => []
  | c :: tl =>
    if c = 47 then
      match tl with
      | [] => if atStart then [c] else []
      | d :: _ => if d = 47 then stripSlashesFrom atStart tl else c :: stripSlashesFrom false tl
    else c :: stripSlashesFrom false tl

/-- The string left in `dir` by `strip_extra_slashes (dir)`. -/
def strip_extra_slashes (dir : List Nat) : List Nat := stripSlashesFrom true dir

/-- No two neighbouring bytes of the string are both slashes. -/
def NoDoubleSlash (s : List Nat) : Prop := List.Chain' (fun a b => ¬ (a = 47 ∧ b = 47)) s

/-! ## `unescape` on the buffer itself (getroot.c, lines 347-366) -/

/-- The variables of the loop of `unescape`: the buffer `str` with its
terminating NUL, the offsets of `iptr` and of `optr` in it, and, as a counter
that the source does not have, the number of escape sequences decoded so
far. -/
structure UnescapeState where
  buf : List Nat
  iptr : Nat
  optr : Nat
  decoded : Nat
deriving DecidableEq

/-- The state at the start of the loop: `iptr = optr = str`. -/
def unescapeStart (str : List Nat) : UnescapeState :=
  { buf := str ++ [0], iptr := 0, optr := 0, decoded := 0 }

/-- The body of the loop of `unescape` followed by `optr++`. -/
def unescapeStep (s : UnescapeState) : UnescapeState :=
  if charAt s.buf s.iptr == 92 && isOctalDigit (charAt s.buf (s.iptr + 1))
      && isOctalDigit (charAt s.buf (s.iptr + 2))
      && isOctalDigit (charAt s.buf (s.iptr + 3)) then
    { buf := s.buf.set s.optr
        ((((charAt s.buf (s.iptr + 1) - 48) <<< 6) ||| ((charAt s.buf (s.iptr + 2) - 48) <<< 3)
          ||| (charAt s.buf (s.iptr + 3) - 48)) % 256),
      iptr := s.iptr + 4, optr := s.optr + 1, decoded := s.decoded + 1 }
  else
    { buf := s.buf.set s.optr (charAt s.buf s.iptr),
      iptr := s.iptr + 1, optr := s.optr + 1, decoded := s.decoded }

/-- The loop `for (...; *iptr; optr++)`, at most the given number of
iterations. -/
def unescapeLoop : Nat → UnescapeState → UnescapeState
  | 0, s => s
  | n + 1, s => if charAt s.buf s.iptr = 0 then s else unescapeLoop n (unescapeStep s)

/-- The state when `unescape (str)` returns: the loop, which takes at most
`strlen (str)` iterations, and the store `*optr = 0`. -/
def unescapeInPlace (str : List Nat) : UnescapeState :=
  let s := unescapeLoop str.length (unescapeStart str)
  { s with buf := s.buf.set s.optr 0 }

/-! ## The stores into `entries` (getroot.c, lines 433-468) -/

/-- The indices of `entries` that the loop of lines 448-467 stores to; the last
argument is `i + 1`.  The append case stores to `i + 1`; the prepend case
moves the old elements to the indices 1 to `entry_len` (the value before the
increment) and stores to 0 and 1. -/
def insertScanWrites (entries : List mountinfo_entry) (parent_entry entry : mountinfo_entry) :
    Nat → List Nat
  | 0 => []
  | i + 1 =>
    match entries[i]? with
    | none => insertScanWrites entries parent_entry entry i
    | some ei =>
      if ei.id = parent_entry.id then [i + 1]
      else if i = 0 ∧ ei.id = entry.id then
        (List.range entries.length).map (fun k => k + 1) ++ [0, 1]
      else insertScanWrites entries parent_entry entry i

/-- The indices of `entries` that lines 439-468 store to. -/
def insertWrites (entries : List mountinfo_entry) (parent_entry entry : mountinfo_entry) :
    List Nat :=
  if entries.length = 0 then [0, 1]
  else insertScanWrites entries parent_entry entry entries.length

/-- The indices of `entries` stored to in one iteration of the `getline` loop:
none when the line is skipped. -/
def lineWrites (dir : List Nat) (st : MountList) (l : MountLine) : List Nat :=
  if charAt l.enc_root 0 = 0 ∨ charAt l.enc_path 0 = 0 then []
  else
    let entry := entryOfLine l
    if !mountRelevant dir entry.enc_path then []
    else if charAt l.fstype 0 = 0 ∨ charAt l.device 0 = 0 then []
    else insertWrites st.entries (parentEntry l.parent) entry

/-! ### The part of a path after `/dev/` under the lexical rules -/

/-- The part after `/dev/` of the path that `partToDisc` leaves, `p` being the
part after `/dev/` of its argument. -/
def discTail (p : List Nat) : List Nat :=
  match strstr (bytes "part") p with
  | some k => p.take k ++ bytes "disc"
  | none => p

/-- The part after `/dev/` of the path that `cutAtChar` leaves, `p` being the
part after `/dev/` of its argument. -/
def cutTail (p : List Nat) (c : Nat) : List Nat :=
  match strchr p c with
  | some k => p.take k
  | none => p

/-! ## `grub_util_get_grub_dev`, Linux (getroot.c, lines 2114-2307) -/

/-- How a call of `grub_util_get_grub_dev` ends: it returns `grub_dev` (NULL is
`none`), it ends in `grub_util_error`, or it reads a string outside its bytes,
where the C code has no defined behaviour. -/
inductive NameResult where
  | name (grub_dev : Option (List Nat))
  | error
  | outside
deriving DecidableEq

/-- What the naming switch asks of the host and of the functions it calls: the
answers behind `grub_util_get_dev_abstraction`, whether
`grub_util_pull_device` returns, the macro LVM_DEV_MAPPER_STRING, the name
that `get_mdadm_uuid` extracts from the output of `mdadm --detail --export`
(`none` for NULL), and the outcome of `grub_util_biosdisk_get_grub_dev`. -/
structure NameEnv where
  classify : ClassifyEnv
  pull_returns : List Nat → Bool
  lvm_dev_mapper_string : List Nat
  mdadm_uuid : List Nat → Option (List Nat)
  biosdisk_get_grub_dev : List Nat → NameResult

/-- The string `p` after `q = strchr (p, 'p'); if (q) *q = ','`. -/
def commaAtFirstP (p : List Nat) : List Nat :=
  match strchr p 112 with
  | some k => p.set k 44
  | none => p

/-- The name built by lines 2196-2281 (`none` where the code calls
`grub_util_error`). -/
def raidName (os_dev : List Nat) : Option (List Nat) :=
  if charAt os_dev 7 = 95 ∧ charAt os_dev 8 = 100 then
    some (bytes "md" ++ commaAtFirstP (os_dev.drop 9))
  else if charAt os_dev 7 = 47 ∧ charAt os_dev 8 = 100 then
    some (bytes "md" ++ commaAtFirstP (os_dev.drop 9))
  else if isDecimalDigit (charAt os_dev 7) then
    some (bytes "md" ++ commaAtFirstP (os_dev.drop 7))
  else if charAt os_dev 7 = 47 ∧ isDecimalDigit (charAt os_dev 8) then
    some (bytes "md" ++ commaAtFirstP (os_dev.drop 8))
  else if charAt os_dev 7 = 47 then
    some (bytes "md/" ++ commaAtFirstP (os_dev.drop 8))
  else none

/-- The digits at the end of `os_dev` when the byte before them is `p`: the
loop `for (q = os_dev + strlen (os_dev) - 1; q >= os_dev && grub_isdigit (*q); q--)`
and the test `q >= os_dev && *q == 'p'` of lines 2291-2294. -/
def trailingPartition (os_dev : List Nat) : Option (List Nat) :=
  let digits := (os_dev.reverse.takeWhile isDecimalDigit).reverse
  if (os_dev.reverse.drop digits.length).head? = some 112 then some digits else none

/-- The RAID case of the switch (lines 2194-2303). -/
def raidGrubDev (env : NameEnv) (os_dev : List Nat) : NameResult :=
  match raidName os_dev with
  | none => .error
  | some grub_dev =>
    match env.mdadm_uuid os_dev with
    | none => .name (some grub_dev)
    | some mdadm_name =>
      match trailingPartition os_dev with
      | some digits => .name (some (bytes "mduuid/" ++ mdadm_name ++ bytes "," ++ digits))
      | none => .name (some (bytes "mduuid/" ++ mdadm_name))

/-- The LUKS case of the switch (lines 2140-2153): the name is taken from
`uuid + sizeof ("CRYPT-LUKS1-") - 1`, which lies in the string only if the UUID
has at least 12 bytes. -/
def luksGrubDev (env : NameEnv) (os_dev : List Nat) : NameResult :=
  match get_dm_uuid env.classify os_dev with
  | none => .name none
  | some uuid =>
    if uuid.length < 12 then .outside
    else .name (some (bytes "cryptouuid/" ++ (uuid.drop 12).takeWhile (fun c => c != 45)))

/-- The LVM case of the switch (lines 2123-2135); `len` is an `unsigned short`,
and `len` bytes are copied from `os_dev + offset`, the terminating NUL being
the last of them when nothing wraps. -/
def lvmGrubDev (env : NameEnv) (os_dev : List Nat) : NameResult :=
  let offset := env.lvm_dev_mapper_string.length
  let len := ((os_dev.length : Int) - offset + 1) % 65536
  if offset ≤ os_dev.length ∧ len = (os_dev.length : Int) - offset + 1 then
    .name (some (bytes "lvm/" ++ os_dev.drop offset))
  else .outside

/-- The Linux variant of `grub_util_get_grub_dev`. -/
def grub_util_get_grub_dev (env : NameEnv) (os_dev : List Nat) : NameResult :=
  if !env.pull_returns os_dev then .error
  else
    match grub_util_get_dev_abstraction env.classify os_dev with
    | .LVM => lvmGrubDev env os_dev
    | .LUKS => luksGrubDev env os_dev
    | .RAID => raidGrubDev env os_dev
    | _ => env.biosdisk_get_grub_dev os_dev

/-- A Linux host with device-mapper support on which the devices under /dev/md
are software RAID arrays that `mdadm` cannot describe, and on which the
device-mapper node /dev/mapper/tmp has the UUID `CRYPT-TMP`. -/
def raidHost : NameEnv :=
  { classify :=
      { have_device_mapper := true
        biosdisk_is_present := fun _ => false
        dm_node_uuid := fun d => if d = bytes "/dev/mapper/tmp" then some (bytes "CRYPT-TMP")
          else none
        device_is_mapped := fun _ => false }
    pull_returns := fun _ => true
    lvm_dev_mapper_string := bytes "/dev/mapper/"
    mdadm_uuid := fun _ => none
    biosdisk_get_grub_dev := fun _ => .name none }

/-! ## `grub_functional_test` (tests/lib/functional_test.c, lines 43-70) -/

/-- What a call of `grub_functional_test` has done when it returns: the value
of `status`, the calls of `grub_test_run` made, in order, each with the name
passed and the value returned, and the state of the tests afterwards. -/
structure FunctionalRun (σ : Type) where
  status : Int
  runs : List (List Nat × Int)
  world : σ

/-- The loop of lines 53-58 from the argument `args[i]` on.  `find` is
`grub_named_list_find (GRUB_AS_NAMED_LIST (grub_test_list), name)`, giving the
`name` field of the test found (`none` for NULL, which the code dereferences),
and `grub_test_run` runs the test of a name on the state of the tests and
returns its status.  The result is `none` when a NULL test is dereferenced. -/
def functionalLoop {σ : Type} (find : List Nat → Option (List Nat))
    (grub_test_run : List Nat → σ → Int × σ) :
    List (List Nat) → FunctionalRun σ → Option (FunctionalRun σ)
  | [], acc => some acc
  | arg :: rest, acc =>
    match find arg with
    | none => none
    | some name =>
      let r := grub_test_run name acc.world
      functionalLoop find grub_test_run rest
        { status := if r.1 ≠ 0 then r.1 else acc.status,
          runs := acc.runs ++ [(name, r.1)],
          world := r.2 }

/-- The function `grub_functional_test` on the arguments `args`, started in
the state `w` of the tests. -/
def grub_functional_test {σ : Type} (find : List Nat → Option (List Nat))
    (grub_test_run : List Nat → σ → Int × σ) (args : List (List Nat)) (w : σ) :
    Option (FunctionalRun σ) :=
  functionalLoop find grub_test_run args { status := 0, runs := [], world := w }

/-- The name and the summary under which GRUB_MOD_INIT registers the command
(lines 67-69). -/
def functional_test_registration : List Nat × List Nat :=
  (bytes "functional_test", bytes "Run all functional tests.")

/-- The statuses that the tests of the names `args` return when run one after
the other from the state `w`. -/
def statusesInOrder {σ : Type} (grub_test_run : List Nat → σ → Int × σ) :
    List (List Nat) → σ → List Int
  | [], _ => []
  | a :: rest, w =>
    (grub_test_run a w).1 :: statusesInOrder grub_test_run rest (grub_test_run a w).2

/-! ## `grub_find_device`, Linux (getroot.c, lines 546-679) -/

/-- The file types that the loop tells apart in `st_mode`. -/
inductive FileKind where
  | lnk
  | dir
  | blk
  | chr
  | other
deriving DecidableEq

/-- The fields of `struct stat` that the loop reads. -/
structure FileStat where
  kind : FileKind
  rdev : Nat
deriving DecidableEq

/-- The file system as the calls of `grub_find_device` see it.  A directory is
a value of the type `δ`; the current directory of the process is the state that the calls
pass on.  `opendir cwd dir` gives the names that `readdir` then yields, in
order (`none` when `opendir (dir)` fails in the current directory `cwd`),
`chdir cwd dir` the directory that is current after `chdir (dir)` (`none` when
it fails), `getcwd` the string that `xgetcwd` returns in a directory, `lstat`
and `stat` the answers for a name in a current directory (`none` when the call
fails). -/
structure FsEnv (δ : Type) where
  opendir : δ → List Nat → Option (List (List Nat))
  chdir : δ → List Nat → Option δ
  getcwd : δ → List Nat
  lstat : δ → List Nat → Option FileStat
  stat : δ → List Nat → Option FileStat

/-- The end of a call that has entered the directory: `chdir (saved_cwd)`, then
`grub_util_error` if that fails, else `return res`.  The value returned is
paired with the directory that is current afterwards. -/
def findRestore {δ : Type} (env : FsEnv δ) (cur : δ) (saved_cwd : List Nat)
    (res : Option (List Nat)) : Outcome (Option (List Nat) × δ) :=
  match env.chdir cur saved_cwd with
  | none => .exits
  | some d => .returns (res, d)

/-- The `struct stat` with which the loop goes on for an entry (lines 585-602):
that of `lstat`, or, for a symbolic link in a directory opened under the name
`mapper` or `/dev/mapper`, that of `stat`; `none` when the entry is skipped. -/
def entryStat {δ : Type} (env : FsEnv δ) (dir : List Nat) (cur : δ) (d_name : List Nat) :
    Option FileStat :=
  match env.lstat cur d_name with
  | none => none
  | some st =>
    if st.kind = .lnk then
      if strcmpZero dir (bytes "mapper") || strcmpZero dir (bytes "/dev/mapper") then
        env.stat cur d_name
      else none
    else some st

/-- The test of lines 629-634 for a short alias such as `dm-0`. -/
def isDmAlias (d_name : List Nat) : Bool :=
  charAt d_name 0 == 100 && charAt d_name 1 == 109 && charAt d_name 2 == 45
    && isDecimalDigit (charAt d_name 3)

/-- The loop `while ((ent = readdir (dp)) != 0)` of lines 575-671 and the end
of the function after it.  `recurse cur d_name` is the nested call
`grub_find_device (ent->d_name, dev)` made in the current directory `cur`;
`cur` is the current directory at the start of the iteration, the list holds
the names still to be read. -/
def findLoop {δ : Type} (env : FsEnv δ) (dev : Nat)
    (recurse : δ → List Nat → Outcome (Option (List Nat) × δ))
    (dir saved_cwd : List Nat) : δ → List (List Nat) → Outcome (Option (List Nat) × δ)
  | cur, [] => findRestore env cur saved_cwd none
  | cur, d_name :: rest =>
    if charAt d_name 0 = 46 then findLoop env dev recurse dir saved_cwd cur rest
    else
      match entryStat env dir cur d_name with
      | none => findLoop env dev recurse dir saved_cwd cur rest
      | some st =>
        if st.kind = .dir then
          match recurse cur d_name with
          | .returns (some res, cur') => findRestore env cur' saved_cwd (some res)
          | .returns (none, cur') => findLoop env dev recurse dir saved_cwd cur' rest
          | .exits => .exits
          | .unfinished => .unfinished
        else if st.kind = .blk ∧ st.rdev = dev then
          if isDmAlias d_name then findLoop env dev recurse dir saved_cwd cur rest
          else if strip_extra_slashes (env.getcwd cur ++ bytes "/" ++ d_name) = bytes "/dev/root"
          then findLoop env dev recurse dir saved_cwd cur rest
          else
            findRestore env cur saved_cwd
              (some (strip_extra_slashes (env.getcwd cur ++ bytes "/" ++ d_name)))
        else findLoop env dev recurse dir saved_cwd cur rest

/-- The Linux variant of `grub_find_device (dir, dev)`, called in the current
directory `cwd`; `dir` is `none` for NULL.  The first argument bounds the depth
of the nested calls, and `unfinished` is a call cut off at that depth.  The
value returned is paired with the current directory after the call. -/
def grub_find_device {δ : Type} (env : FsEnv δ) (dev : Nat) :
    Nat → δ → Option (List Nat) → Outcome (Option (List Nat) × δ)
  | 0, _, _ => .unfinished
  | depth + 1, cwd, dir =>
    match env.opendir cwd (dir.getD (bytes "/dev")) with
    | none => .returns (none, cwd)
    | some names =>
      match env.chdir cwd (dir.getD (bytes "/dev")) with
      | none => .returns (none, cwd)
      | some here =>
        findLoop env dev (fun c d_name => grub_find_device env dev depth c (some d_name))
          (dir.getD (bytes "/dev")) (env.getcwd cwd) here names

/-- The nodes that a search started by `grub_find_device (dir, dev)` in the
current directory `cwd` may answer with, in the words of the specification:
`res` is the path of an entry of the directory entered, or of a directory
reached from it through entries that are directories, every name on the way
and the last one not beginning with a dot; the entry is a block device with
the device number `dev`, its name is not of the form `dm-<digit>...`, and the
path is not `/dev/root`. -/
inductive Reaches {δ : Type} (env : FsEnv δ) (dev : Nat) : δ → List Nat → List Nat → Prop where
  | entry (cwd : δ) (dir : List Nat) (names : List (List Nat)) (entered : δ)
      (d_name : List Nat) (st : FileStat) :
      env.opendir cwd dir = some names → env.chdir cwd dir = some entered →
      d_name ∈ names → charAt d_name 0 ≠ 46 →
      entryStat env dir entered d_name = some st → st.kind = .blk → st.rdev = dev →
      isDmAlias d_name = false →
      strip_extra_slashes (env.getcwd entered ++ bytes "/" ++ d_name) ≠ bytes "/dev/root" →
      Reaches env dev cwd dir (strip_extra_slashes (env.getcwd entered ++ bytes "/" ++ d_name))
  | deeper (cwd : δ) (dir : List Nat) (names : List (List Nat)) (entered : δ)
      (d_name : List Nat) (st : FileStat) (res : List Nat) :
      env.opendir cwd dir = some names → env.chdir cwd dir = some entered →
      d_name ∈ names → charAt d_name 0 ≠ 46 →
      entryStat env dir entered d_name = some st → st.kind = .dir →
      Reaches env dev entered d_name res →
      Reaches env dev cwd dir res

/-- A host with three directories, 0 for `/`, 1 for `/dev` and 2 for `/dev/mapper`: `/dev`
holds the disk sda (device number 2048), the alias dm-0 and the alias root of
the volume with the device number 64512, and the directory mapper, in which
vg-root is a symbolic link to that volume. -/
def devHost : FsEnv (Fin 3) :=
  { opendir := fun cwd dir =>
      if dir = bytes "/dev" then
        some [bytes ".", bytes "..", bytes "sda", bytes "dm-0", bytes "root", bytes "mapper"]
      else if cwd = 1 ∧ dir = bytes "mapper" then
        some [bytes ".", bytes "..", bytes "control", bytes "vg-root"]
      else none
    chdir := fun cwd dir =>
      if dir = bytes "/" then some 0
      else if dir = bytes "/dev" then some 1
      else if dir = bytes "/dev/mapper" then some 2
      else if cwd = 1 ∧ dir = bytes "mapper" then some 2
      else none
    getcwd := fun d =>
      if d = 0 then bytes "/" else if d = 1 then bytes "/dev"
      else bytes "/dev/mapper"
    lstat := fun cwd d_name =>
      if cwd = 1 ∧ d_name = bytes "sda" then some { kind := .blk, rdev := 2048 }
      else if cwd = 1 ∧ d_name = bytes "dm-0" then some { kind := .blk, rdev := 64512 }
      else if cwd = 1 ∧ d_name = bytes "root" then some { kind := .blk, rdev := 64512 }
      else if cwd = 1 ∧ d_name = bytes "mapper" then some { kind := .dir, rdev := 0 }
      else if cwd = 2 ∧ d_name = bytes "control" then some { kind := .chr, rdev := 2748 }
      else if cwd = 2 ∧ d_name = bytes "vg-root" then some { kind := .lnk, rdev := 0 }
      else none
    stat := fun cwd d_name =>
      if cwd = 2 ∧ d_name = bytes "vg-root" then some { kind := .blk, rdev := 64512 }
      else none }

/-- The nesting depth of the directories of `devHost` below each directory. -/
def devHostHeight (d : Fin 3) : Nat := if d = 0 then 2 else if d = 1 then 1 else 0

end Getroot

namespace Getroot

/-! ## Lemmas on C strings -/

theorem charAt_append_length (a t : List Nat) : charAt (a ++ t) a.length = t.headD 0 := by
  cases t with
  | nil => simp [charAt]
  | cons x xs =>
    simp [charAt, List.getD_eq_getElem?_getD, List.getElem?_append_right (le_refl a.length)]

theorem strncmpZero_length_iff (mp : List Nat) :
    ∀ dir : List Nat, strncmpZero dir mp mp.length = true ↔ mp <+: dir := by
  induction mp with
  | nil => intro dir; simp [strncmpZero]
  | cons b bs ih =>
    intro dir
    cases dir with
    | nil => simp [strncmpZero]
    | cons a as =>
      simp only [List.length_cons, strncmpZero, Bool.and_eq_true, beq_iff_eq, ih as,
        List.cons_prefix_cons]
      constructor
      · rintro ⟨h1, h2⟩; exact ⟨h1.symm, h2⟩
      · rintro ⟨h1, h2⟩; exact ⟨h1.symm, h2⟩

theorem octal_value (a b c : Nat) (ha : a < 8) (hb : b < 8) (hc : c < 8) :
    (a <<< 6) ||| (b <<< 3) ||| c = 64 * a + 8 * b + c := by
  interval_cases a <;> interval_cases b <;> interval_cases c <;> rfl


theorem unescapeFrom_three (d1 d2 d3 : Nat) (rest : List Nat) :
    unescapeFrom 3 (d1 :: d2 :: d3 :: rest) = unescapeFrom 0 rest := by
  cases rest <;> simp [unescapeFrom]

theorem isOctalDigit_iff (d : Nat) : isOctalDigit d = true ↔ 48 ≤ d ∧ d ≤ 55 := by
  simp [isOctalDigit]; omega

theorem unescapeFrom_short (c : Nat) (tl : List Nat) (h : tl.length < 3) :
    unescapeFrom 0 (c :: tl) = c :: unescapeFrom 0 tl := by
  have h2 : charAt tl 2 = 0 := by
    rcases tl with _ | ⟨d1, _ | ⟨d2, _ | ⟨d3, rest⟩⟩⟩
    · simp [charAt]
    · simp [charAt]
    · simp [charAt]
    · simp at h
      omega
  rw [unescapeFrom]
  simp [h2, isOctalDigit]

theorem unescapeSpecSteps_short (n c : Nat) (tl : List Nat) (h : tl.length < 3) :
    unescapeSpecSteps (n + 1) (c :: tl) = c :: unescapeSpecSteps n tl := by
  rcases tl with _ | ⟨d1, _ | ⟨d2, _ | ⟨d3, rest⟩⟩⟩
  · simp [unescapeSpecSteps]
  · simp [unescapeSpecSteps]
  · simp [unescapeSpecSteps]
  · simp at h
    omega

theorem unescapeFrom_eq_spec (n : Nat) :
    ∀ s : List Nat, s.length ≤ n → (∀ c ∈ s, c < 256) →
      unescapeFrom 0 s = (unescapeSpecSteps n s).map (fun v => v % 256) := by
  induction n with
  | zero =>
    intro s hs _
    have : s = [] := List.eq_nil_of_length_eq_zero (Nat.le_zero.mp hs)
    subst this
    simp [unescapeFrom, unescapeSpecSteps]
  | succ n ih =>
    intro s hs hb
    match s, hs, hb with
    | [], _, _ => simp [unescapeFrom, unescapeSpecSteps]
    | [c], hs, hb =>
      have hc : c < 256 := hb c (by simp)
      have ht := ih [] (by simp) (by simp)
      rw [unescapeFrom_short c [] (by simp), unescapeSpecSteps_short n c [] (by simp), ht]
      simp [Nat.mod_eq_of_lt hc]
    | [c, d1], hs, hb =>
      have hc : c < 256 := hb c (by simp)
      have ht := ih [d1] (by simpa using hs) (fun x hx => hb x (List.mem_cons_of_mem _ hx))
      rw [unescapeFrom_short c [d1] (by simp), unescapeSpecSteps_short n c [d1] (by simp), ht]
      simp [Nat.mod_eq_of_lt hc]
    | [c, d1, d2], hs, hb =>
      have hc : c < 256 := hb c (by simp)
      have ht := ih [d1, d2] (by simpa using hs) (fun x hx => hb x (List.mem_cons_of_mem _ hx))
      rw [unescapeFrom_short c [d1, d2] (by simp), unescapeSpecSteps_short n c [d1, d2] (by simp),
        ht]
      simp [Nat.mod_eq_of_lt hc]
    | c :: d1 :: d2 :: d3 :: rest, hs, hb =>
      have hc : c < 256 := hb c (by simp)
      have ht := ih (d1 :: d2 :: d3 :: rest) (by simpa using hs)
        (fun x hx => hb x (List.mem_cons_of_mem _ hx))
      have hr := ih rest (by simp at hs ⊢; omega)
        (fun x hx => hb x (by simp at hx ⊢; tauto))
      by_cases hcond : c = 92 ∧ (48 ≤ d1 ∧ d1 ≤ 55) ∧ (48 ≤ d2 ∧ d2 ≤ 55) ∧ (48 ≤ d3 ∧ d3 ≤ 55)
      · obtain ⟨h0, h1, h2, h3⟩ := hcond
        have hv := octal_value (d1 - 48) (d2 - 48) (d3 - 48) (by omega) (by omega) (by omega)
        have hcode : (c == 92 && isOctalDigit (charAt (d1 :: d2 :: d3 :: rest) 0)
            && isOctalDigit (charAt (d1 :: d2 :: d3 :: rest) 1)
            && isOctalDigit (charAt (d1 :: d2 :: d3 :: rest) 2)) = true := by
          simp [charAt, isOctalDigit_iff, h0, h1, h2, h3]
        rw [unescapeFrom, if_pos hcode, unescapeFrom_three, hr]
        simp only [unescapeSpecSteps, if_pos (And.intro h0 (And.intro h1 (And.intro h2 h3))),
          List.map_cons]
        simp only [charAt, List.getD_cons_zero, List.getD_cons_succ, hv]
      · have hcode : ¬ (c == 92 && isOctalDigit (charAt (d1 :: d2 :: d3 :: rest) 0)
            && isOctalDigit (charAt (d1 :: d2 :: d3 :: rest) 1)
            && isOctalDigit (charAt (d1 :: d2 :: d3 :: rest) 2)) = true := by
          simp only [charAt, List.getD_cons_zero, List.getD_cons_succ, Bool.and_eq_true,
            beq_iff_eq, isOctalDigit_iff]
          tauto
        rw [unescapeFrom, if_neg hcode, ht]
        simp only [unescapeSpecSteps, if_neg hcond, List.map_cons, Nat.mod_eq_of_lt hc]


theorem mountRelevant_eq (dir mp : List Nat) :
    mountRelevant dir mp = true ↔
      mp <+: dir ∧ (mp.length = 0 ∨ charAt dir (mp.length - 1) = 47 ∨
        charAt dir mp.length = 0 ∨ charAt dir mp.length = 47) := by
  simp only [mountRelevant, Bool.not_eq_true', Bool.or_eq_false_iff, Bool.not_eq_false',
    strncmpZero_length_iff, Bool.and_eq_false_iff, bne_eq_false_iff_eq, bne_iff_ne, ne_eq,
    Bool.and_eq_true, not_and, Decidable.not_not]
  constructor
  · rintro ⟨hp, h⟩
    refine ⟨hp, ?_⟩
    tauto
  · rintro ⟨hp, h⟩
    refine ⟨hp, ?_⟩
    tauto

/-! ## Lemmas on the mount loop -/

theorem processLine_keep (dir : List Nat) (st : MountList) (l : MountLine)
    (h1 : charAt l.enc_root 0 ≠ 0) (h2 : charAt l.enc_path 0 ≠ 0)
    (h3 : mountRelevant dir (mountPoint l) = true)
    (h4 : charAt l.fstype 0 ≠ 0) (h5 : charAt l.device 0 ≠ 0) :
    (processLine dir st l).entries
      = insertEntry st.entries (parentEntry l.parent) (entryOfLine l) := by
  unfold processLine
  rw [if_neg (by tauto)]
  simp only
  have h3' : ¬ ((!mountRelevant dir (entryOfLine l).enc_path) = true) := by
    have : (entryOfLine l).enc_path = mountPoint l := rfl
    rw [this, h3]; simp
  rw [if_neg h3', if_neg (by tauto)]

theorem processLine_irrelevant (dir : List Nat) (st : MountList) (l : MountLine)
    (h : mountRelevant dir (mountPoint l) = false) : processLine dir st l = st := by
  unfold processLine
  by_cases h1 : charAt l.enc_root 0 = 0 ∨ charAt l.enc_path 0 = 0
  · rw [if_pos h1]
  · rw [if_neg h1]
    simp only
    have : (entryOfLine l).enc_path = mountPoint l := rfl
    rw [this, h]
    simp

theorem resolveScan_take (r : List Nat → Option (List (List Nat)))
    (L : List mountinfo_entry) :
    ∀ k, k ≤ L.length →
      resolveScan r L k =
        match resolvedEntry (L.take k) with
        | none => { ret := none, relroot := none }
        | some e =>
          if strcmpZero e.fstype (bytes "fuse.zfs") then resolveZfs r e
          else { ret := some [cstr e.device], relroot := some (cstr e.enc_root) } := by
  intro k
  induction k with
  | zero => intro _; simp [resolveScan, resolvedEntry]
  | succ k ih =>
    intro hk
    have hkL : k < L.length := by omega
    have hy : L[k]? = some L[k] := List.getElem?_eq_getElem hkL
    have htake : L.take (k + 1) = L.take k ++ [L[k]] := by
      rw [List.take_succ, hy]; rfl
    have hr : resolvedEntry (L.take (k + 1)) =
        if charAt L[k].device 0 = 0 then resolvedEntry (L.take k) else some L[k] := by
      unfold resolvedEntry
      rw [htake, List.reverse_append, List.reverse_singleton, List.singleton_append,
        List.find?_cons]
      by_cases hd : charAt L[k].device 0 = 0
      · rw [if_pos hd]
        have : (charAt L[k].device 0 != 0) = false := by rw [hd]; rfl
        rw [this]
      · rw [if_neg hd]
        have : (charAt L[k].device 0 != 0) = true := bne_iff_ne.mpr hd
        rw [this]
    rw [resolveScan, hr]
    simp only [hy]
    by_cases hd : charAt L[k].device 0 = 0
    · rw [if_pos hd, if_pos hd, ih (by omega)]
    · rw [if_neg hd, if_neg hd]

theorem resolveScan_eq (r : List Nat → Option (List (List Nat)))
    (L : List mountinfo_entry) :
    resolveScan r L L.length =
      match resolvedEntry L with
      | none => { ret := none, relroot := none }
      | some e =>
        if strcmpZero e.fstype (bytes "fuse.zfs") then resolveZfs r e
        else { ret := some [cstr e.device], relroot := some (cstr e.enc_root) } := by
  have h := resolveScan_take r L L.length (le_refl _)
  rwa [List.take_length] at h

theorem resolvedEntry_none_iff (L : List mountinfo_entry) :
    resolvedEntry L = none ↔ ∀ e ∈ L, charAt e.device 0 = 0 := by
  simp [resolvedEntry]

/-! ## Claims on the mount resolver and on `unescape` -/

/-- C1: with the mount table (1, 0, /, /, /dev/sda1), (2, 1, /, /var, /dev/sda2), both
lines having a filesystem type other than the pool type fuse.zfs, the query
/var/log returns the one-element list [/dev/sda2] and the query /etc the
one-element list [/dev/sda1]. -/
theorem scenario_var_log_and_etc (poolResolver : List Nat → Option (List (List Nat)))
    (fs1 fs2 : List Nat) (h1 : charAt fs1 0 ≠ 0) (h2 : charAt fs2 0 ≠ 0)
    (z1 : fs1 ≠ bytes "fuse.zfs") (z2 : fs2 ≠ bytes "fuse.zfs") :
    (grub_find_root_devices_from_mountinfo (some [rootLineOf fs1, varLineOf fs2]) poolResolver
        (bytes "/var/log")).ret = some [bytes "/dev/sda2"] ∧
    (grub_find_root_devices_from_mountinfo (some [rootLineOf fs1, varLineOf fs2]) poolResolver
        (bytes "/etc")).ret = some [bytes "/dev/sda1"] := by
  have k1 : ∀ dir st, mountRelevant dir (bytes "/") = true →
      (processLine dir st (rootLineOf fs1)).entries =
        insertEntry st.entries (parentEntry 0) (entryOfLine (rootLineOf fs1)) := fun dir st h =>
    processLine_keep dir st (rootLineOf fs1)
      (show charAt (bytes "/") 0 ≠ 0 by decide) (show charAt (bytes "/") 0 ≠ 0 by decide)
      h h1 (show charAt (bytes "/dev/sda1") 0 ≠ 0 by decide)
  have k2 : ∀ st, (processLine (bytes "/var/log") st (varLineOf fs2)).entries =
        insertEntry st.entries (parentEntry 1) (entryOfLine (varLineOf fs2)) := fun st =>
    processLine_keep (bytes "/var/log") st (varLineOf fs2)
      (show charAt (bytes "/") 0 ≠ 0 by decide) (show charAt (bytes "/var") 0 ≠ 0 by decide)
      (show mountRelevant (bytes "/var/log") (cstr (unescape (bytes "/var"))) = true by decide)
      h2 (show charAt (bytes "/dev/sda2") 0 ≠ 0 by decide)
  have k3 : ∀ st, processLine (bytes "/etc") st (varLineOf fs2) = st := fun st =>
    processLine_irrelevant (bytes "/etc") st (varLineOf fs2)
      (show mountRelevant (bytes "/etc") (cstr (unescape (bytes "/var"))) = false by decide)
  constructor
  · have hfun : grub_find_root_devices_from_mountinfo (some [rootLineOf fs1, varLineOf fs2])
        poolResolver (bytes "/var/log") =
        resolveScan poolResolver
          (processLine (bytes "/var/log") (processLine (bytes "/var/log")
            { entries := [], entry_max := 4 } (rootLineOf fs1)) (varLineOf fs2)).entries
          (processLine (bytes "/var/log") (processLine (bytes "/var/log")
            { entries := [], entry_max := 4 } (rootLineOf fs1)) (varLineOf fs2)).entries.length :=
      rfl
    rw [hfun, k2, k1 _ _ (by decide), resolveScan_eq]
    have hres : resolvedEntry (insertEntry (insertEntry [] (parentEntry 0)
        (entryOfLine (rootLineOf fs1))) (parentEntry 1) (entryOfLine (varLineOf fs2)))
        = some (entryOfLine (varLineOf fs2)) := rfl
    rw [hres]
    have hz : strcmpZero (entryOfLine (varLineOf fs2)).fstype (bytes "fuse.zfs") = false := by
      show (fs2 == bytes "fuse.zfs") = false
      simpa using z2
    simp only [hz]
    rfl
  · have hfun : grub_find_root_devices_from_mountinfo (some [rootLineOf fs1, varLineOf fs2])
        poolResolver (bytes "/etc") =
        resolveScan poolResolver
          (processLine (bytes "/etc") (processLine (bytes "/etc")
            { entries := [], entry_max := 4 } (rootLineOf fs1)) (varLineOf fs2)).entries
          (processLine (bytes "/etc") (processLine (bytes "/etc")
            { entries := [], entry_max := 4 } (rootLineOf fs1)) (varLineOf fs2)).entries.length :=
      rfl
    rw [hfun, k3, k1 _ _ (by decide), resolveScan_eq]
    have hres : resolvedEntry (insertEntry [] (parentEntry 0) (entryOfLine (rootLineOf fs1)))
        = some (entryOfLine (rootLineOf fs1)) := rfl
    rw [hres]
    have hz : strcmpZero (entryOfLine (rootLineOf fs1)).fstype (bytes "fuse.zfs") = false := by
      show (fs1 == bytes "fuse.zfs") = false
      simpa using z1
    simp only [hz]
    rfl

/-- Witness of C1: both mounts of type ext4. -/
theorem scenario_var_log_and_etc_witness :
    charAt (bytes "ext4") 0 ≠ 0 ∧ bytes "ext4" ≠ bytes "fuse.zfs" ∧
    (grub_find_root_devices_from_mountinfo (some scenarioTable) (fun _ => none)
        (bytes "/var/log")).ret = some [bytes "/dev/sda2"] ∧
    (grub_find_root_devices_from_mountinfo (some scenarioTable) (fun _ => none)
        (bytes "/etc")).ret = some [bytes "/dev/sda1"] :=
  ⟨by decide, by decide,
    scenario_var_log_and_etc (fun _ => none) (bytes "ext4") (bytes "ext4") (by decide)
      (by decide) (by decide) (by decide)⟩

/-- The corner outside the mount points that the table holds: an empty
unescaped mount point, which only a field beginning with an escape for NUL
(`\000`, `\400`) gives, is let through by the test `enc_path_len && ...` also for the relative
query directory `a`, of which the empty string is no path-prefix. -/
theorem relevant_empty_mount_point :
    mountRelevant (bytes "a") [] = true ∧ ¬ PathPrefixOf [] (bytes "a") := by
  decide

/-- The test of lines 411-413 on every pair of strings: for a query directory
`dir` (a C string, so without NUL) and an unescaped mount point `mp`, the entry
is kept if and only if `mp` is empty or `mp` is a path-prefix of `dir`; and the
mount point /var is not relevant to the directory /variable. -/
theorem mountRelevant_iff_pathPrefix (dir mp : List Nat) (hdir : ∀ c ∈ dir, c ≠ 0) :
    (mountRelevant dir mp = true ↔ (mp = [] ∨ PathPrefixOf mp dir)) ∧
    mountRelevant (bytes "/variable") (bytes "/var") = false := by
  refine ⟨?_, by decide⟩
  rw [mountRelevant_eq]
  unfold PathPrefixOf
  constructor
  · rintro ⟨⟨t, rfl⟩, h⟩
    by_cases hmp : mp = []
    · exact Or.inl hmp
    · refine Or.inr ⟨List.prefix_append mp t, ?_⟩
      have hlen : mp.length ≠ 0 := fun h0 => hmp (List.eq_nil_of_length_eq_zero h0)
      rcases h with h | h | h | h
      · exact absurd h hlen
      · right; left
        have hlt : mp.length - 1 < mp.length := by omega
        have h1 : charAt (mp ++ t) (mp.length - 1) = mp[mp.length - 1] := by
          simp [charAt, List.getD_eq_getElem?_getD, List.getElem?_append_left hlt,
            List.getElem?_eq_getElem hlt]
        rw [List.getLast?_eq_getElem?, List.getElem?_eq_getElem hlt, ← h1, h]
      · left
        rw [charAt_append_length] at h
        cases t with
        | nil => simp
        | cons x xs =>
          simp at h
          exact absurd h (hdir x (by simp))
      · right; right
        rw [charAt_append_length] at h
        cases t with
        | nil => simp at h
        | cons x xs =>
          simp at h
          simp [List.getElem?_append_right (le_refl mp.length), h]
  · rintro (hmp | ⟨⟨t, rfl⟩, h⟩)
    · subst hmp
      exact ⟨List.nil_prefix, Or.inl rfl⟩
    · refine ⟨List.prefix_append mp t, ?_⟩
      by_cases hmp : mp = []
      · left; simp [hmp]
      · have hlen : mp.length ≠ 0 := fun h0 => hmp (List.eq_nil_of_length_eq_zero h0)
        rcases h with h | h | h
        · right; right; left
          have ht : t = [] := by
            have := congrArg List.length h
            simpa using this
          subst ht
          simp [charAt]
        · right; left
          have hlt : mp.length - 1 < mp.length := by omega
          have h1 : charAt (mp ++ t) (mp.length - 1) = mp[mp.length - 1] := by
            simp [charAt, List.getD_eq_getElem?_getD, List.getElem?_append_left hlt,
            List.getElem?_eq_getElem hlt]
          rw [List.getLast?_eq_getElem?, List.getElem?_eq_getElem hlt] at h
          rw [h1]
          exact Option.some.inj h
        · right; right; right
          rw [charAt_append_length]
          rw [List.getElem?_append_right (le_refl mp.length)] at h
          cases t with
          | nil => simp at h
          | cons x xs => simpa using h

/-- The test of lines 411-413 at the directory /var/log and the mount point
/var. -/
theorem mountRelevant_iff_pathPrefix_witness :
    (∀ c ∈ bytes "/var/log", c ≠ 0) ∧ mountRelevant (bytes "/var/log") (bytes "/var") = true ∧
      PathPrefixOf (bytes "/var") (bytes "/var/log") :=
  ⟨by decide, by decide,
    ((mountRelevant_iff_pathPrefix (bytes "/var/log") (bytes "/var") (by decide)).1.mp
      (by decide)).resolve_left (by decide)⟩

/-- C3: for every query directory `dir` (a C string, so without NUL) and every
unescaped mount point `mp` that is not empty, as is every mount point that the
`%s` of `sscanf` reads and that does not begin with an escape for NUL, the
entry is kept if and only if `mp` is a path-prefix of `dir`: `mp` is a string
prefix of `dir`, and `mp` equals `dir`, or `mp` ends with a slash, or the byte
of `dir` right after the prefix is a slash.  The same holds for an empty mount
point when `dir` is empty or absolute.  The mount point /var is not relevant
to the directory /variable. -/
theorem mount_filter_path_prefix (dir mp : List Nat) (hdir : ∀ c ∈ dir, c ≠ 0)
    (hdom : mp ≠ [] ∨ dir = [] ∨ dir.head? = some 47) :
    (mountRelevant dir mp = true ↔ PathPrefixOf mp dir) ∧
    mountRelevant (bytes "/variable") (bytes "/var") = false ∧
    ¬ PathPrefixOf (bytes "/var") (bytes "/variable") := by
  refine ⟨?_, by decide, by decide⟩
  rw [(mountRelevant_iff_pathPrefix dir mp hdir).1]
  constructor
  · rintro (hmp | h)
    · subst hmp
      refine ⟨List.nil_prefix, ?_⟩
      rcases hdom with h | h | h
      · exact absurd rfl h
      · exact Or.inl h.symm
      · right; right
        cases dir with
        | nil => simp at h
        | cons x xs => simpa using h
    · exact h
  · intro h
    exact Or.inr h

theorem mount_filter_path_prefix_witness :
    (∀ c ∈ bytes "/var/log", c ≠ 0) ∧ bytes "/var" ≠ [] ∧
      ((mountRelevant (bytes "/var/log") (bytes "/var") = true
          ↔ PathPrefixOf (bytes "/var") (bytes "/var/log")) ∧
        mountRelevant (bytes "/variable") (bytes "/var") = false ∧
        ¬ PathPrefixOf (bytes "/var") (bytes "/variable")) ∧
      mountRelevant (bytes "/var/log") (bytes "/var") = true :=
  ⟨by decide, by decide,
    mount_filter_path_prefix (bytes "/var/log") (bytes "/var") (by decide) (Or.inl (by decide)),
    by decide⟩

/-- A field of the mount table that begins with a byte other than NUL and
backslash, as does every absolute mount point, gives a mount point that is not
empty. -/
theorem mountPoint_nonempty (l : MountLine) (h0 : charAt l.enc_path 0 ≠ 0)
    (h92 : charAt l.enc_path 0 ≠ 92) : mountPoint l ≠ [] := by
  unfold mountPoint
  cases hp : l.enc_path with
  | nil => rw [hp] at h0; simp [charAt] at h0
  | cons c tl =>
    rw [hp] at h0 h92
    have hc0 : charAt (c :: tl) 0 = c := by simp [charAt]
    rw [hc0] at h0 h92
    have hcond : ¬ (c == 92 && isOctalDigit (charAt tl 0) && isOctalDigit (charAt tl 1)
        && isOctalDigit (charAt tl 2)) = true := by
      simp [h92]
    unfold unescape
    rw [unescapeFrom, if_neg hcond]
    simp [cstr, List.takeWhile_cons, h0]

/-- C4, as stated, fails: the escape `\400` has the octal value 256, which is
no byte; `unescape` stores the byte 0. -/
theorem unescape_400 :
    unescape (bytes "\\400") = [0] ∧ unescapeSpec (bytes "\\400") = [256] ∧
      unescape (bytes "\\400") ≠ unescapeSpec (bytes "\\400") := by
  decide

/-- C4, amended: for every string `s` of bytes, `unescape` replaces, scanning
left to right, each backslash followed by three octal digits d1 d2 d3 by the
byte (64*d1 + 8*d2 + d3) mod 256 and copies every other byte unchanged and in
order; where every decoded number is below 256 (each d1 at most 3) the bytes
are the octal numbers themselves. -/
theorem unescape_eq_spec_mod (s : List Nat) (hs : ∀ c ∈ s, c < 256) :
    unescape s = (unescapeSpec s).map (fun v => v % 256) ∧
    ((∀ v ∈ unescapeSpec s, v < 256) → unescape s = unescapeSpec s) := by
  have h := unescapeFrom_eq_spec s.length s (le_refl _) hs
  refine ⟨h, fun hv => ?_⟩
  unfold unescape unescapeSpec at *
  rw [h]
  conv_rhs => rw [← List.map_id (unescapeSpecSteps s.length s)]
  exact List.map_congr_left (fun v hmem => Nat.mod_eq_of_lt (hv v hmem))

/-- Witness of C4: the string `a\040b\134` decodes to `a b\`. -/
theorem unescape_eq_spec_mod_witness :
    (∀ c ∈ bytes "a\\040b\\134", c < 256) ∧
      unescape (bytes "a\\040b\\134") = bytes "a b\\" :=
  ⟨by decide,
    ((unescape_eq_spec_mod (bytes "a\\040b\\134") (by decide)).2 (by decide)).trans (by decide)⟩


/-! ## The insertion step and the resolution step -/

theorem insertAtStart_cons (h : mountinfo_entry) (rest : List mountinfo_entry)
    (p e : mountinfo_entry) : insertAtStart (h :: rest) p e = p :: e :: rest := by
  simp [insertAtStart]

theorem insertScan_found (L : List mountinfo_entry) (p e : mountinfo_entry) (i : Nat)
    (x : mountinfo_entry) (hx : L[i]? = some x) (hid : x.id = p.id) :
    ∀ k, i < k → k ≤ L.length →
      (∀ j y, i < j → j < k → L[j]? = some y → y.id ≠ p.id) →
      insertScan L p e k = L.take (i + 1) ++ [e] := by
  intro k
  induction k with
  | zero => intro h; omega
  | succ k ih =>
    intro hik hk hno
    by_cases hki : k = i
    · subst hki
      simp [insertScan, hx, hid]
    · have hlt : i < k := by omega
      have hkL : k < L.length := by omega
      have hy : L[k]? = some L[k] := List.getElem?_eq_getElem hkL
      have hne : L[k].id ≠ p.id := hno k L[k] hlt (by omega) hy
      have hk0 : k ≠ 0 := by omega
      simp only [insertScan, hy, if_neg hne, hk0, false_and, if_false]
      exact ih hlt (by omega) (fun j y h1 h2 h3 => hno j y h1 (by omega) h3)

theorem insertScan_absent (L : List mountinfo_entry) (p e : mountinfo_entry)
    (h : mountinfo_entry) (rest : List mountinfo_entry) (hL : L = h :: rest)
    (hno : ∀ x ∈ L, x.id ≠ p.id) :
    ∀ k, k < L.length →
      insertScan L p e (k + 1) = if h.id = e.id then p :: e :: rest else L := by
  intro k
  induction k with
  | zero =>
    intro _
    subst hL
    have hne : h.id ≠ p.id := hno h (by simp)
    rw [insertScan]
    simp only [List.getElem?_cons_zero, if_neg hne, true_and, insertAtStart_cons, insertScan]
  | succ k ih =>
    intro hk
    have hy : L[k + 1]? = some L[k + 1] := List.getElem?_eq_getElem hk
    have hne : L[k + 1].id ≠ p.id := hno _ (List.getElem_mem hk)
    rw [insertScan]
    simp only [hy, if_neg hne, Nat.succ_ne_zero, false_and, if_false]
    exact ih (by omega)


/-- C5, as stated, fails in its last sentence: after the root mount (1, 0, /)
has been recorded for the query /, the relevant record (id 5, parent 7, /) has
no entry with ID 7 in the list and the head's ID is not 5; the scan ends
without a match and the record is not inserted. -/
theorem orphan_record_not_inserted :
    (buildMountList (bytes "/") [rootLine]).entries = orphanList ∧
    mountRelevant (bytes "/") (mountPoint orphanLine) = true ∧
    insertEntry orphanList (parentEntry orphanLine.parent) (entryOfLine orphanLine)
      = orphanList ∧
    entryOfLine orphanLine ∉
      insertEntry orphanList (parentEntry orphanLine.parent) (entryOfLine orphanLine) ∧
    (processLine (bytes "/") { entries := orphanList, entry_max := 4 } orphanLine).entries
      = orphanList := by
  decide

/-- C5, amended: when a relevant record `e` with parent placeholder `p` is
processed against a non-empty working list `L`, then (a) if the tail of `L`
has the parent's ID the new list is `L` followed by the record; (b) if no
entry of `L` has the parent's ID and the head of `L` has the record's own ID,
the new list is the parent placeholder, the record, and `L` without its head;
(c) if the last entry of `L` with the parent's ID is at position `i`, the new
list is `L[0..i]` followed by the record; (d) a record that falls into none of
these cases (no entry with the parent's ID, head's ID different from the
record's ID) leaves the list unchanged. -/
theorem insertEntry_cases (L : List mountinfo_entry) (p e : mountinfo_entry) (hL : L ≠ []) :
    (∀ t, L.getLast? = some t → t.id = p.id → insertEntry L p e = L ++ [e]) ∧
    (∀ h, L.head? = some h → (∀ x ∈ L, x.id ≠ p.id) → h.id = e.id →
      insertEntry L p e = p :: e :: L.tail) ∧
    (∀ i x, L[i]? = some x → x.id = p.id →
      (∀ j y, i < j → L[j]? = some y → y.id ≠ p.id) →
      insertEntry L p e = L.take (i + 1) ++ [e]) ∧
    (∀ h, L.head? = some h → (∀ x ∈ L, x.id ≠ p.id) → h.id ≠ e.id →
      insertEntry L p e = L) := by
  have hlen : L.length ≠ 0 := fun h0 => hL (List.eq_nil_of_length_eq_zero h0)
  have hpos : 0 < L.length := Nat.pos_of_ne_zero hlen
  have hscan : insertEntry L p e = insertScan L p e L.length := by
    simp [insertEntry, hlen]
  have hc : ∀ i x, L[i]? = some x → x.id = p.id →
      (∀ j y, i < j → L[j]? = some y → y.id ≠ p.id) →
      insertEntry L p e = L.take (i + 1) ++ [e] := by
    intro i x hx hid hno
    have hi : i < L.length := (List.getElem?_eq_some_iff.mp hx).1
    rw [hscan]
    exact insertScan_found L p e i x hx hid L.length hi (le_refl _)
      (fun j y h1 _ h3 => hno j y h1 h3)
  refine ⟨?_, ?_, hc, ?_⟩
  · intro t ht hid
    rw [List.getLast?_eq_getElem?] at ht
    have := hc (L.length - 1) t ht hid (fun j y h1 h2 => by
      have hj : j < L.length := (List.getElem?_eq_some_iff.mp h2).1
      omega)
    rw [this, show L.length - 1 + 1 = L.length by omega, List.take_length]
  · intro h hh hno he
    obtain ⟨h', rest, rfl⟩ := List.exists_cons_of_ne_nil hL
    simp only [List.head?_cons, Option.some.injEq] at hh
    subst hh
    rw [hscan, show (h' :: rest).length = rest.length + 1 by simp,
      insertScan_absent (h' :: rest) p e h' rest rfl hno rest.length (by simp), if_pos he]
    rfl
  · intro h hh hno he
    obtain ⟨h', rest, rfl⟩ := List.exists_cons_of_ne_nil hL
    simp only [List.head?_cons, Option.some.injEq] at hh
    subst hh
    rw [hscan, show (h' :: rest).length = rest.length + 1 by simp,
      insertScan_absent (h' :: rest) p e h' rest rfl hno rest.length (by simp), if_neg he]

/-- Witness of C5: the record of /var (id 2, parent 1) processed against the
list holding the placeholder of mount 0 and mount 1 is appended. -/
theorem insertEntry_cases_witness :
    orphanList ≠ [] ∧
      insertEntry orphanList (parentEntry 1) (entryOfLine varLine)
        = orphanList ++ [entryOfLine varLine] :=
  ⟨by decide,
    (insertEntry_cases orphanList (parentEntry 1) (entryOfLine varLine) (by decide)).1
      (entryOfLine rootLine) (by decide) (by decide)⟩


/-- C6: the function scans the final list from the last entry to the first and
resolves to the first entry it meets whose device string is non-empty
(`resolvedEntry`); when the type of that entry is not fuse.zfs the result is
the one-element list holding that entry's device string, and the relative root
is the entry's unescaped mount root; when no entry has a non-empty device the
result is no list. -/
theorem resolution_step (mountinfo : List MountLine)
    (poolResolver : List Nat → Option (List (List Nat))) (dir : List Nat)
    (entries : List mountinfo_entry) :
    grub_find_root_devices_from_mountinfo (some mountinfo) poolResolver dir =
      resolveScan poolResolver
        (buildMountList (if charAt dir 0 = 0 then bytes "/" else dir) mountinfo).entries
        (buildMountList (if charAt dir 0 = 0 then bytes "/" else dir) mountinfo).entries.length ∧
    (∀ e, resolvedEntry entries = some e → e.fstype ≠ bytes "fuse.zfs" →
      resolveScan poolResolver entries entries.length =
        { ret := some [cstr e.device], relroot := some (cstr e.enc_root) }) ∧
    (∀ e, resolvedEntry entries = some e →
      charAt e.device 0 ≠ 0 ∧
      ∃ before after, entries = before ++ e :: after ∧ ∀ x ∈ after, charAt x.device 0 = 0) ∧
    ((∀ e ∈ entries, charAt e.device 0 = 0) →
      resolveScan poolResolver entries entries.length = { ret := none, relroot := none }) := by
  refine ⟨rfl, ?_, ?_, ?_⟩
  · intro e he hz
    rw [resolveScan_eq, he]
    simp [strcmpZero, hz]
  · intro e he
    unfold resolvedEntry at he
    have hp := List.find?_some he
    obtain ⟨_, as, bs, hsplit, hbefore⟩ := List.find?_eq_some.mp he
    refine ⟨by simpa using hp, bs.reverse, as.reverse, ?_, ?_⟩
    · have := congrArg List.reverse hsplit
      simpa using this
    · intro x hx
      have := hbefore x (List.mem_reverse.mp hx)
      simpa using this
  · intro h
    rw [resolveScan_eq, (resolvedEntry_none_iff entries).mpr h]


/-- Witness of C6: in the final list of the two-mount scenario for /var/log the
scan stops at the entry of /var. -/
theorem resolution_step_witness :
    resolvedEntry (orphanList ++ [entryOfLine varLine]) = some (entryOfLine varLine) ∧
      resolveScan (fun _ => none) (orphanList ++ [entryOfLine varLine])
          (orphanList ++ [entryOfLine varLine]).length =
        { ret := some [bytes "/dev/sda2"], relroot := some (bytes "/") } :=
  ⟨by decide,
    ((resolution_step scenarioTable (fun _ => none) (bytes "/var/log")
      (orphanList ++ [entryOfLine varLine])).2.1 (entryOfLine varLine) (by decide)
      (by decide)).trans (by decide)⟩

/-! ## The parent chain of the working list and the longest mount point -/

theorem insertScan_shape (L : List mountinfo_entry) (p e : mountinfo_entry) :
    ∀ k, insertScan L p e k = L ∨
      (∃ h rest, L = h :: rest ∧ h.id = e.id ∧ insertScan L p e k = p :: e :: rest) ∨
      (∃ i x, L[i]? = some x ∧ x.id = p.id ∧ insertScan L p e k = L.take (i + 1) ++ [e]) := by
  intro k
  induction k with
  | zero => left; rfl
  | succ k ih =>
    rw [insertScan]
    cases hk : L[k]? with
    | none => simpa using ih
    | some ek =>
      simp only
      by_cases h1 : ek.id = p.id
      · right; right
        exact ⟨k, ek, hk, h1, by rw [if_pos h1]⟩
      · rw [if_neg h1]
        by_cases h2 : k = 0 ∧ ek.id = e.id
        · rw [if_pos h2]
          right; left
          obtain ⟨h0, he⟩ := h2
          subst h0
          cases L with
          | nil => simp at hk
          | cons h rest =>
            simp only [List.getElem?_cons_zero, Option.some.injEq] at hk
            subst hk
            exact ⟨h, rest, rfl, he, insertAtStart_cons h rest p e⟩
        · rw [if_neg h2]
          exact ih

theorem idAt_getElem (rs : List MountLine) :
    ∀ (pid : Int) (i : Nat) (x : mountinfo_entry),
      (parentEntry pid :: rs.map entryOfLine)[i]? = some x → x.id = idAt pid rs i := by
  induction rs with
  | nil =>
    intro pid i x hx
    cases i with
    | zero => simp at hx; subst hx; rfl
    | succ i => simp at hx
  | cons r rs ih =>
    intro pid i x hx
    cases i with
    | zero => simp at hx; subst hx; rfl
    | succ i =>
      simp only [List.map_cons, List.getElem?_cons_succ] at hx
      cases i with
      | zero =>
        simp at hx
        subst hx
        cases rs <;> rfl
      | succ j =>
        have := ih r.id (j + 1) x (by simpa using hx)
        simpa [idAt] using this

theorem chainFrom_take_append (rs : List MountLine) (l : MountLine) :
    ∀ (pid : Int) (i : Nat), ChainFrom pid rs → i ≤ rs.length → l.parent = idAt pid rs i →
      ChainFrom pid (rs.take i ++ [l]) := by
  induction rs with
  | nil =>
    intro pid i _ hi hp
    have : i = 0 := by simpa using hi
    subst this
    simpa [ChainFrom, idAt] using hp
  | cons r rs ih =>
    intro pid i hc hi hp
    cases i with
    | zero => simpa [ChainFrom, idAt] using hp
    | succ i =>
      obtain ⟨h1, h2⟩ := hc
      simp only [List.take_succ_cons, List.cons_append, ChainFrom]
      exact ⟨h1, ih r.id i h2 (by simpa using hi) (by simpa [idAt] using hp)⟩


theorem insertEntry_inv (dir : List Nat) (table : List MountLine)
    (L : List mountinfo_entry) (l : MountLine) (hinv : ListInv dir table L)
    (hl : l ∈ table) (hdev : charAt l.device 0 ≠ 0)
    (hrel : mountRelevant dir (mountPoint l) = true) :
    ListInv dir table (insertEntry L (parentEntry l.parent) (entryOfLine l)) := by
  rcases hinv with hnil | ⟨pid, rs, hL, hrs, hmem, hchain⟩
  · subst hnil
    right
    refine ⟨l.parent, [l], by simp [insertEntry], by simp, ?_, ?_⟩
    · intro r hr
      have : r = l := by simpa using hr
      subst this
      exact ⟨hl, hdev, hrel⟩
    · exact ⟨rfl, trivial⟩
  · have hlen : L.length ≠ 0 := by rw [hL]; simp
    have hscan : insertEntry L (parentEntry l.parent) (entryOfLine l) =
        insertScan L (parentEntry l.parent) (entryOfLine l) L.length := by
      simp [insertEntry, hlen]
    rw [hscan]
    rcases insertScan_shape L (parentEntry l.parent) (entryOfLine l) L.length with
      h | ⟨h, rest, hcons, hid, hres⟩ | ⟨i, x, hx, hid, hres⟩
    · rw [h]
      exact Or.inr ⟨pid, rs, hL, hrs, hmem, hchain⟩
    · rw [hres]
      rw [hL] at hcons
      simp only [List.cons.injEq] at hcons
      obtain ⟨hh, hrest⟩ := hcons
      right
      refine ⟨l.parent, l :: rs, by simp [hrest], by simp, ?_, ?_⟩
      · intro r hr
        rcases List.mem_cons.mp hr with rfl | hr
        · exact ⟨hl, hdev, hrel⟩
        · exact hmem r hr
      · refine ⟨rfl, ?_⟩
        have : pid = l.id := by
          have h1 : h.id = pid := by rw [← hh]; rfl
          have h2 : (entryOfLine l).id = l.id := rfl
          rw [← h1, hid, h2]
        rw [← this]
        exact hchain
    · rw [hres]
      have hi : i < L.length := (List.getElem?_eq_some_iff.mp hx).1
      have hi2 : i ≤ rs.length := by
        rw [hL] at hi
        simp at hi
        omega
      have hxid : x.id = idAt pid rs i := idAt_getElem rs pid i x (by rw [← hL]; exact hx)
      have hpar : l.parent = idAt pid rs i := by
        rw [← hxid, hid]; rfl
      right
      refine ⟨pid, rs.take i ++ [l], ?_, by simp, ?_, chainFrom_take_append rs l pid i hchain hi2 hpar⟩
      · rw [hL]
        simp [List.take_succ_cons, List.map_take]
      · intro r hr
        rcases List.mem_append.mp hr with hr | hr
        · exact hmem r (List.mem_of_mem_take hr)
        · have : r = l := by simpa using hr
          subst this
          exact ⟨hl, hdev, hrel⟩

theorem processLine_inv (dir : List Nat) (table : List MountLine) (st : MountList)
    (l : MountLine) (hinv : ListInv dir table st.entries) (hl : l ∈ table) :
    ListInv dir table (processLine dir st l).entries := by
  unfold processLine
  by_cases h1 : charAt l.enc_root 0 = 0 ∨ charAt l.enc_path 0 = 0
  · rw [if_pos h1]; exact hinv
  · rw [if_neg h1]
    simp only
    by_cases h2 : (!mountRelevant dir (entryOfLine l).enc_path) = true
    · rw [if_pos h2]; exact hinv
    · rw [if_neg h2]
      by_cases h3 : charAt l.fstype 0 = 0 ∨ charAt l.device 0 = 0
      · rw [if_pos h3]; exact hinv
      · rw [if_neg h3]
        have hrel : mountRelevant dir (mountPoint l) = true := by
          simpa [entryOfLine, mountPoint] using h2
        exact insertEntry_inv dir table st.entries l hinv hl (fun h => h3 (Or.inr h)) hrel

theorem foldl_processLine_inv (dir : List Nat) (table : List MountLine) :
    ∀ (lines : List MountLine) (st : MountList), (∀ l ∈ lines, l ∈ table) →
      ListInv dir table st.entries →
      ListInv dir table (lines.foldl (processLine dir) st).entries := by
  intro lines
  induction lines with
  | nil => intro st _ h; exact h
  | cons l ls ih =>
    intro st hsub hinv
    rw [List.foldl_cons]
    exact ih _ (fun x hx => hsub x (List.mem_cons_of_mem _ hx))
      (processLine_inv dir table st l hinv (hsub l (List.mem_cons_self _ _)))

theorem buildMountList_inv (dir : List Nat) (table : List MountLine) :
    ListInv dir table (buildMountList dir table).entries :=
  foldl_processLine_inv dir table table _ (fun _ h => h) (Or.inl rfl)


theorem pathPrefixOf_length_le (a b : List Nat) (h : PathPrefixOf a b) : a.length ≤ b.length :=
  h.1.length_le

theorem chain_length_le (table : List MountLine)
    (hvalid : ∀ r ∈ table, ∀ p ∈ table, p.id = r.parent →
      PathPrefixOf (mountPoint p) (mountPoint r)) :
    ∀ (rs : List MountLine) (pid : Int), ChainFrom pid rs → (∀ r ∈ rs, r ∈ table) →
      ∀ (hne : rs ≠ []), ∀ r ∈ rs,
        (mountPoint r).length ≤ (mountPoint (rs.getLast hne)).length := by
  intro rs
  induction rs with
  | nil => intro _ _ _ hne; exact absurd rfl hne
  | cons r0 rs ih =>
    intro pid hc hmem _ r hr
    cases rs with
    | nil =>
      have : r = r0 := by simpa using hr
      subst this
      simp
    | cons r1 rs2 =>
      obtain ⟨_, hc2⟩ := hc
      have hc3 : r1.parent = r0.id := hc2.1
      have ih2 := ih r0.id hc2 (fun x hx => hmem x (List.mem_cons_of_mem _ hx))
        (List.cons_ne_nil r1 rs2)
      rw [List.getLast_cons (List.cons_ne_nil r1 rs2)]
      rcases List.mem_cons.mp hr with rfl | hr
      · have h01 : (mountPoint r).length ≤ (mountPoint r1).length :=
          pathPrefixOf_length_le _ _
            (hvalid r1 (hmem r1 (by simp)) r (hmem r (by simp)) hc3.symm)
        exact le_trans h01 (ih2 r1 (by simp))
      · exact ih2 r hr

theorem resolvedEntry_append_last (xs : List mountinfo_entry) (x : mountinfo_entry)
    (hx : charAt x.device 0 ≠ 0) : resolvedEntry (xs ++ [x]) = some x := by
  unfold resolvedEntry
  rw [List.reverse_append, List.reverse_singleton, List.singleton_append, List.find?_cons]
  have : (charAt x.device 0 != 0) = true := bne_iff_ne.mpr hx
  rw [this]

/-- C2: for every valid mount table and every query for which the function
returns a list, the final loop resolves to an entry of the final list whose
mount point passed the filter for the query, and no entry of the final list
has a strictly longer mount point that is a path-prefix of the query. -/
theorem resolved_entry_longest (table : List MountLine)
    (poolResolver : List Nat → Option (List (List Nat))) (dir : List Nat)
    (devs : List (List Nat)) (hvalid : ValidTable table)
    (hret : (grub_find_root_devices_from_mountinfo (some table) poolResolver dir).ret
      = some devs) :
    ∃ e, resolvedEntry
        (buildMountList (if charAt dir 0 = 0 then bytes "/" else dir) table).entries = some e ∧
      mountRelevant (if charAt dir 0 = 0 then bytes "/" else dir) e.enc_path = true ∧
      ∀ e' ∈ (buildMountList (if charAt dir 0 = 0 then bytes "/" else dir) table).entries,
        ¬ (e.enc_path.length < e'.enc_path.length ∧ PathPrefixOf e'.enc_path dir) := by
  have hinv := buildMountList_inv (if charAt dir 0 = 0 then bytes "/" else dir) table
  have hfun : grub_find_root_devices_from_mountinfo (some table) poolResolver dir =
      resolveScan poolResolver
        (buildMountList (if charAt dir 0 = 0 then bytes "/" else dir) table).entries
        (buildMountList (if charAt dir 0 = 0 then bytes "/" else dir) table).entries.length :=
    rfl
  rw [hfun, resolveScan_eq] at hret
  generalize (buildMountList (if charAt dir 0 = 0 then bytes "/" else dir) table).entries = L
    at hinv hret ⊢
  rcases hinv with hnil | ⟨pid, rs, hL, hrs, hmem, hchain⟩
  · subst hnil
    simp [resolvedEntry] at hret
  · have hlast : rs = rs.dropLast ++ [rs.getLast hrs] := (List.dropLast_append_getLast hrs).symm
    have hLs : L = (parentEntry pid :: rs.dropLast.map entryOfLine) ++
        [entryOfLine (rs.getLast hrs)] := by
      rw [hL]
      conv_lhs => rw [hlast]
      simp
    have hdev : charAt (entryOfLine (rs.getLast hrs)).device 0 ≠ 0 :=
      (hmem _ (List.getLast_mem hrs)).2.1
    refine ⟨entryOfLine (rs.getLast hrs), ?_, (hmem _ (List.getLast_mem hrs)).2.2, ?_⟩
    · rw [hLs]
      exact resolvedEntry_append_last _ _ hdev
    · intro e' he' hcon
      have hlt := hcon.1
      rw [hL] at he'
      rcases List.mem_cons.mp he' with rfl | he'
      · simp [parentEntry] at hlt
      · obtain ⟨r, hr, rfl⟩ := List.mem_map.mp he'
        have hle := chain_length_le table hvalid.1 rs pid hchain (fun x hx => (hmem x hx).1)
          hrs r hr
        have h1 : (entryOfLine r).enc_path = mountPoint r := rfl
        have h2 : (entryOfLine (rs.getLast hrs)).enc_path = mountPoint (rs.getLast hrs) := rfl
        rw [h1, h2] at hlt
        omega

/-- Witness of C2: the two-mount scenario queried for /var/log. -/
theorem resolved_entry_longest_witness :
    ValidTable scenarioTable ∧
      ∃ e, resolvedEntry (buildMountList (bytes "/var/log") scenarioTable).entries = some e ∧
        mountRelevant (bytes "/var/log") e.enc_path = true ∧
        ∀ e' ∈ (buildMountList (bytes "/var/log") scenarioTable).entries,
          ¬ (e.enc_path.length < e'.enc_path.length ∧
            PathPrefixOf e'.enc_path (bytes "/var/log")) :=
  ⟨by decide,
    resolved_entry_longest scenarioTable (fun _ => none) (bytes "/var/log")
      [bytes "/dev/sda2"] (by decide) (by decide)⟩


/-! ## `make_device_name`: format and recovery of its arguments -/

theorem natDecimalSteps_digits (steps : Nat) :
    ∀ n, ∀ c ∈ natDecimalSteps steps n, 48 ≤ c ∧ c ≤ 57 := by
  induction steps with
  | zero => intro n c hc; simp [natDecimalSteps] at hc
  | succ steps ih =>
    intro n c hc
    rw [natDecimalSteps] at hc
    by_cases h : n < 10
    · rw [if_pos h] at hc
      have : c = 48 + n := by simpa using hc
      omega
    · rw [if_neg h] at hc
      rcases List.mem_append.mp hc with hc | hc
      · exact ih _ c hc
      · have : c = 48 + n % 10 := by simpa using hc
        omega

theorem decimalValue_append_singleton (xs : List Nat) (d : Nat) :
    decimalValue (xs ++ [d]) = decimalValue xs * 10 + (d - 48) := by
  simp [decimalValue, List.foldl_append]

theorem decimalValue_natDecimalSteps (steps : Nat) :
    ∀ n, n < steps → decimalValue (natDecimalSteps steps n) = n := by
  induction steps with
  | zero => intro n h; omega
  | succ steps ih =>
    intro n hn
    rw [natDecimalSteps]
    by_cases h : n < 10
    · rw [if_pos h]
      simp [decimalValue]
    · rw [if_neg h, decimalValue_append_singleton, ih (n / 10) (by omega)]
      omega

theorem decimalValue_natDecimal (n : Nat) : decimalValue (natDecimal n) = n :=
  decimalValue_natDecimalSteps (n + 1) n (Nat.lt_succ_self n)

theorem natDecimal_injective (a b : Nat) (h : natDecimal a = natDecimal b) : a = b := by
  rw [← decimalValue_natDecimal a, ← decimalValue_natDecimal b, h]

theorem natDecimal_no_comma (n : Nat) : 44 ∉ natDecimal n := by
  intro h
  have := natDecimalSteps_digits (n + 1) n 44 h
  omega

theorem escapeCommas_eq_flatMap (drive : List Nat) :
    escapeCommas drive = drive.flatMap (fun c => if c = 44 then [92, 44] else [c]) := by
  induction drive with
  | nil => rfl
  | cons c rest ih =>
    rw [escapeCommas, List.flatMap_cons, ← ih]
    by_cases h : c = 44
    · simp [h]
    · simp [h]

theorem fmtInt_wrap_succ (n : Int) (h0 : 0 ≤ n) (h1 : n + 1 < 2147483648) :
    fmtInt (wrapInt32 (n + 1)) = natDecimal (n + 1).toNat := by
  have hw : wrapInt32 (n + 1) = n + 1 := by
    unfold wrapInt32
    omega
  rw [hw, fmtInt, if_neg (by omega)]
  congr 1
  omega

/-- The text appended for one partition index. -/
theorem partField (n : Int) (h1 : n + 1 < 2147483648) :
    (if n ≥ 0 then 44 :: fmtInt (wrapInt32 (n + 1)) else []) =
      if 0 ≤ n then 44 :: natDecimal (n + 1).toNat else [] := by
  by_cases h : 0 ≤ n
  · simp only [ge_iff_le, h, if_true, fmtInt_wrap_succ n h h1]
  · simp only [ge_iff_le, h, if_false]

theorem make_device_name_eq (drive : List Nat) (dos_part bsd_part : Int)
    (hdos : dos_part + 1 < 2147483648) (hbsd : bsd_part + 1 < 2147483648) :
    make_device_name drive dos_part bsd_part =
      escapeCommas drive
        ++ (if 0 ≤ dos_part then 44 :: natDecimal (dos_part + 1).toNat else [])
        ++ (if 0 ≤ bsd_part then 44 :: natDecimal (bsd_part + 1).toNat else []) := by
  rw [← partField dos_part hdos, ← partField bsd_part hbsd]
  unfold make_device_name
  by_cases h1 : dos_part ≥ 0 <;> by_cases h2 : bsd_part ≥ 0 <;> simp [h1, h2]

/-- C7, as stated, fails: for the index -2, which is not -1, the code omits the
field (it tests `dos_part >= 0`), where the claim has the field `,-1`. -/
theorem make_device_name_minus_two :
    make_device_name (bytes "hd0") (-2) (-1) = bytes "hd0" ∧
    makeDeviceNameSpec (bytes "hd0") (-2) (-1) = bytes "hd0,-1" ∧
    make_device_name (bytes "hd0") (-2) (-1) ≠ makeDeviceNameSpec (bytes "hd0") (-2) (-1) := by
  decide

/-- C7, amended: for every drive name and every pair of `int` indices below
INT_MAX, `make_device_name` returns the drive name with a backslash inserted
before each comma, followed by a comma and the decimal of `dos_part + 1` when
`dos_part` is not negative, followed by a comma and the decimal of
`bsd_part + 1` when `bsd_part` is not negative; `fd,0` with indices 0, -1
gives `fd\,0,1`, and `hd0` with -1, -1 gives `hd0`. -/
theorem make_device_name_format (drive : List Nat) (dos_part bsd_part : Int)
    (hdos : dos_part + 1 < 2147483648) (hbsd : bsd_part + 1 < 2147483648) :
    make_device_name drive dos_part bsd_part =
      drive.flatMap (fun c => if c = 44 then [92, 44] else [c])
        ++ (if 0 ≤ dos_part then 44 :: natDecimal (dos_part + 1).toNat else [])
        ++ (if 0 ≤ bsd_part then 44 :: natDecimal (bsd_part + 1).toNat else []) ∧
    make_device_name (bytes "fd,0") 0 (-1) = bytes "fd\\,0,1" ∧
    make_device_name (bytes "hd0") (-1) (-1) = bytes "hd0" := by
  refine ⟨?_, by decide, by decide⟩
  rw [make_device_name_eq drive dos_part bsd_part hdos hbsd, escapeCommas_eq_flatMap]

/-- Witness of C7: drive `hd0`, DOS partition 122, BSD partition 4. -/
theorem make_device_name_format_witness :
    (122 : Int) + 1 < 2147483648 ∧ (4 : Int) + 1 < 2147483648 ∧
      make_device_name (bytes "hd0") 122 4 = bytes "hd0,123,5" :=
  ⟨by decide, by decide,
    ((make_device_name_format (bytes "hd0") 122 4 (by decide) (by decide)).1).trans
      (by decide)⟩


theorem getLast?_tail_ne (c : Nat) (r : List Nat) (h : (c :: r).getLast? ≠ some 92) :
    r.getLast? ≠ some 92 := by
  cases r with
  | nil => simp
  | cons x xs => simpa [List.getLast?_cons_cons] using h

theorem escapeCommas_head_ne_comma (d s : List Nat) (hd : d ≠ []) :
    (escapeCommas d ++ s).head? ≠ some 44 := by
  cases d with
  | nil => exact absurd rfl hd
  | cons c r =>
    rw [escapeCommas]
    by_cases h : c = 44
    · simp [h]
    · simp [h]

theorem escapeCommas_append_inj :
    ∀ (d1 d2 s1 s2 : List Nat), d1.getLast? ≠ some 92 → d2.getLast? ≠ some 92 →
      (s1 = [] ∨ s1.head? = some 44) → (s2 = [] ∨ s2.head? = some 44) →
      escapeCommas d1 ++ s1 = escapeCommas d2 ++ s2 → d1 = d2 ∧ s1 = s2 := by
  intro d1
  induction d1 with
  | nil =>
    intro d2 s1 s2 _ _ hs1 _ h
    cases d2 with
    | nil => exact ⟨rfl, by simpa [escapeCommas] using h⟩
    | cons c r =>
      exfalso
      have hne := escapeCommas_head_ne_comma (c :: r) s2 (by simp)
      rw [← h] at hne
      simp only [escapeCommas, List.nil_append] at hne
      rcases hs1 with hs1 | hs1
      · rw [hs1] at h
        have := congrArg List.length h
        rw [escapeCommas] at this
        by_cases hc : c = 44 <;> simp [hc, escapeCommas] at this
      · exact hne hs1
  | cons c1 r1 ih =>
    intro d2 s1 s2 h1 h2 hs1 hs2 h
    cases d2 with
    | nil =>
      exfalso
      have hne := escapeCommas_head_ne_comma (c1 :: r1) s1 (by simp)
      rw [h] at hne
      simp only [escapeCommas, List.nil_append] at hne
      rcases hs2 with hs2 | hs2
      · rw [hs2] at h
        have := congrArg List.length h
        rw [escapeCommas] at this
        by_cases hc : c1 = 44 <;> simp [hc, escapeCommas] at this
      · exact hne hs2
    | cons c2 r2 =>
      have t1 := getLast?_tail_ne c1 r1 h1
      have t2 := getLast?_tail_ne c2 r2 h2
      by_cases e1 : c1 = 44 <;> by_cases e2 : c2 = 44
      · simp only [escapeCommas, if_pos e1, if_pos e2, List.cons_append, List.cons.injEq,
          true_and] at h
        obtain ⟨hr, hs⟩ := ih r2 s1 s2 t1 t2 hs1 hs2 h.2
        exact ⟨by rw [e1, e2, hr], hs⟩
      · exfalso
        simp only [escapeCommas, if_pos e1, if_neg e2, List.cons_append, List.cons.injEq] at h
        obtain ⟨h92, hrest⟩ := h
        cases r2 with
        | nil =>
          apply h2
          simp [← h92]
        | cons c3 r3 =>
          have hne := escapeCommas_head_ne_comma (c3 :: r3) s2 (by simp)
          rw [← hrest] at hne
          simp [e1] at hne
      · exfalso
        simp only [escapeCommas, if_neg e1, if_pos e2, List.cons_append, List.cons.injEq] at h
        obtain ⟨h92, hrest⟩ := h
        cases r1 with
        | nil =>
          apply h1
          simp [h92]
        | cons c3 r3 =>
          have hne := escapeCommas_head_ne_comma (c3 :: r3) s1 (by simp)
          rw [hrest] at hne
          simp [e2] at hne
      · simp only [escapeCommas, if_neg e1, if_neg e2, List.cons_append, List.cons.injEq] at h
        obtain ⟨hr, hs⟩ := ih r2 s1 s2 t1 t2 hs1 hs2 h.2
        exact ⟨by rw [h.1, hr], hs⟩

theorem append_comma_inj :
    ∀ (a a' b b' : List Nat), 44 ∉ a → 44 ∉ a' → a ++ 44 :: b = a' ++ 44 :: b' →
      a = a' ∧ b = b' := by
  intro a
  induction a with
  | nil =>
    intro a' b b' _ ha' h
    cases a' with
    | nil => exact ⟨rfl, by simpa using h⟩
    | cons x xs =>
      exfalso
      simp only [List.nil_append, List.cons_append, List.cons.injEq] at h
      exact ha' (by simp [← h.1])
  | cons y ys ih =>
    intro a' b b' ha ha' h
    cases a' with
    | nil =>
      exfalso
      simp only [List.nil_append, List.cons_append, List.cons.injEq] at h
      exact ha (by simp [h.1])
    | cons x xs =>
      simp only [List.cons_append, List.cons.injEq] at h
      obtain ⟨hr, hb⟩ := ih xs b b' (fun hm => ha (List.mem_cons_of_mem _ hm))
        (fun hm => ha' (List.mem_cons_of_mem _ hm)) h.2
      exact ⟨by rw [h.1, hr], hb⟩


theorem partIndex_of_decimal (n1 n2 : Int) (h1 : 0 ≤ n1) (h2 : 0 ≤ n2)
    (h : natDecimal (n1 + 1).toNat = natDecimal (n2 + 1).toNat) : n1 = n2 := by
  have := natDecimal_injective _ _ h
  omega

theorem partFields_inj (n1 m1 n2 m2 : Int)
    (hn1 : -1 ≤ n1) (hm1 : -1 ≤ m1) (hn2 : -1 ≤ n2) (hm2 : -1 ≤ m2)
    (hb1 : n1 = -1 → m1 = -1) (hb2 : n2 = -1 → m2 = -1)
    (h : (if 0 ≤ n1 then 44 :: natDecimal (n1 + 1).toNat else [])
          ++ (if 0 ≤ m1 then 44 :: natDecimal (m1 + 1).toNat else []) =
        (if 0 ≤ n2 then 44 :: natDecimal (n2 + 1).toNat else [])
          ++ (if 0 ≤ m2 then 44 :: natDecimal (m2 + 1).toNat else [])) :
    n1 = n2 ∧ m1 = m2 := by
  by_cases a1 : 0 ≤ n1
  · by_cases a2 : 0 ≤ n2
    · rw [if_pos a1, if_pos a2] at h
      simp only [List.cons_append, List.cons.injEq, true_and] at h
      by_cases b1 : 0 ≤ m1
      · by_cases b2 : 0 ≤ m2
        · rw [if_pos b1, if_pos b2] at h
          obtain ⟨h1, h2⟩ := append_comma_inj _ _ _ _ (natDecimal_no_comma _)
            (natDecimal_no_comma _) h
          exact ⟨partIndex_of_decimal n1 n2 a1 a2 h1, partIndex_of_decimal m1 m2 b1 b2 h2⟩
        · exfalso
          rw [if_pos b1, if_neg b2, List.append_nil] at h
          apply natDecimal_no_comma (n2 + 1).toNat
          rw [← h]
          simp
      · by_cases b2 : 0 ≤ m2
        · exfalso
          rw [if_neg b1, if_pos b2, List.append_nil] at h
          apply natDecimal_no_comma (n1 + 1).toNat
          rw [h]
          simp
        · rw [if_neg b1, if_neg b2, List.append_nil, List.append_nil] at h
          exact ⟨partIndex_of_decimal n1 n2 a1 a2 h, by omega⟩
    · exfalso
      have hn : n2 = -1 := by omega
      have hm : ¬ 0 ≤ m2 := by have := hb2 hn; omega
      rw [if_pos a1, if_neg a2, if_neg hm] at h
      simp at h
  · have hn : n1 = -1 := by omega
    have hm : ¬ 0 ≤ m1 := by have := hb1 hn; omega
    by_cases a2 : 0 ≤ n2
    · exfalso
      rw [if_neg a1, if_neg hm, if_pos a2] at h
      simp at h
    · have hn2 : n2 = -1 := by omega
      have := hb1 hn
      have := hb2 hn2
      exact ⟨by omega, by omega⟩

/-- C8, as stated, fails: a lone BSD index gives the same name as a lone DOS
index (`hd0,1` for both (0, -1) and (-1, 0)), and a backslash that ends a
drive name is taken for an escape (`a\,1` for both the drive `a\` with DOS
index 0 and the drive `a,1` without indices). -/
theorem make_device_name_collisions :
    make_device_name (bytes "hd0") 0 (-1) = make_device_name (bytes "hd0") (-1) 0 ∧
    ((0 : Int), (-1 : Int)) ≠ ((-1 : Int), (0 : Int)) ∧
    make_device_name (bytes "a\\") 0 (-1) = make_device_name (bytes "a,1") (-1) (-1) ∧
    bytes "a\\" ≠ bytes "a,1" := by
  decide

/-- C8, amended: for all drive names d1, d2 that do not end in a backslash
(names containing commas included) and all indices n1, m1, n2, m2 that are
each -1 or non-negative and below INT_MAX, a BSD index being given only
together with a DOS index, `make_device_name (d1, n1, m1) =
make_device_name (d2, n2, m2)` implies d1 = d2, n1 = n2 and m1 = m2. -/
theorem make_device_name_injective (d1 d2 : List Nat) (n1 m1 n2 m2 : Int)
    (hd1 : d1.getLast? ≠ some 92) (hd2 : d2.getLast? ≠ some 92)
    (hn1 : -1 ≤ n1 ∧ n1 + 1 < 2147483648) (hm1 : -1 ≤ m1 ∧ m1 + 1 < 2147483648)
    (hn2 : -1 ≤ n2 ∧ n2 + 1 < 2147483648) (hm2 : -1 ≤ m2 ∧ m2 + 1 < 2147483648)
    (hb1 : n1 = -1 → m1 = -1) (hb2 : n2 = -1 → m2 = -1)
    (h : make_device_name d1 n1 m1 = make_device_name d2 n2 m2) :
    d1 = d2 ∧ n1 = n2 ∧ m1 = m2 := by
  rw [make_device_name_eq d1 n1 m1 hn1.2 hm1.2, make_device_name_eq d2 n2 m2 hn2.2 hm2.2,
    List.append_assoc, List.append_assoc] at h
  have key : ∀ (n m : Int), -1 ≤ n → (n = -1 → m = -1) →
      ((if 0 ≤ n then 44 :: natDecimal (n + 1).toNat else [])
          ++ (if 0 ≤ m then 44 :: natDecimal (m + 1).toNat else []) = [] ∨
        ((if 0 ≤ n then 44 :: natDecimal (n + 1).toNat else [])
          ++ (if 0 ≤ m then 44 :: natDecimal (m + 1).toNat else [])).head? = some 44) := by
    intro n m hn hb
    by_cases a : 0 ≤ n
    · right
      rw [if_pos a]
      simp
    · left
      have hn1 : n = -1 := by omega
      have hm : ¬ 0 ≤ m := by have := hb hn1; omega
      rw [if_neg a, if_neg hm]
      rfl
  obtain ⟨hd, hs⟩ := escapeCommas_append_inj d1 d2 _ _ hd1 hd2 (key n1 m1 hn1.1 hb1)
    (key n2 m2 hn2.1 hb2) h
  exact ⟨hd, partFields_inj n1 m1 n2 m2 hn1.1 hm1.1 hn2.1 hm2.1 hb1 hb2 hs⟩

/-- Witness of C8: the drive `fd,0` with DOS index 0, compared with itself. -/
theorem make_device_name_injective_witness :
    (bytes "fd,0").getLast? ≠ some 92 ∧
      make_device_name (bytes "fd,0") 0 (-1) = make_device_name (bytes "fd,0") 0 (-1) ∧
      (bytes "fd,0" = bytes "fd,0" ∧ (0 : Int) = 0 ∧ (-1 : Int) = -1) :=
  ⟨by decide, rfl,
    make_device_name_injective (bytes "fd,0") (bytes "fd,0") 0 (-1) 0 (-1) (by decide)
      (by decide) (by decide) (by decide) (by decide) (by decide) (by decide) (by decide) rfl⟩


/-! ## The partition normalizer on the hd, sd, vd and xvd families -/

theorem takeWhile_letters (letters digits : List Nat)
    (hl : ∀ c ∈ letters, isLowerLetter c = true) (hd : ∀ c ∈ digits, isDecimalDigit c = true) :
    (letters ++ digits).takeWhile isLowerLetter = letters := by
  induction letters with
  | nil =>
    cases digits with
    | nil => rfl
    | cons d ds =>
      have h := hd d (by simp)
      have : isLowerLetter d = false := by
        simp only [isDecimalDigit, isLowerLetter, Bool.and_eq_true, decide_eq_true_eq,
          Bool.and_eq_false_iff, decide_eq_false_iff_not] at h ⊢
        omega
      simp [List.takeWhile, this]
  | cons l ls ih =>
    have h := hl l (by simp)
    rw [List.cons_append, List.takeWhile_cons, h]
    simp only [if_true]
    rw [ih (fun c hc => hl c (List.mem_cons_of_mem _ hc))]

theorem lit_dev : bytes "/dev/" = [47, 100, 101, 118, 47] := by decide
theorem lit_ide : bytes "ide/" = [105, 100, 101, 47] := by decide
theorem lit_scsi : bytes "scsi/" = [115, 99, 115, 105, 47] := by decide
theorem lit_rd : bytes "rd/c" = [114, 100, 47, 99] := by decide
theorem lit_rs : bytes "rs/c" = [114, 115, 47, 99] := by decide
theorem lit_cciss : bytes "cciss/c" = [99, 99, 105, 115, 115, 47, 99] := by decide
theorem lit_ida : bytes "ida/c" = [105, 100, 97, 47, 99] := by decide
theorem lit_i2o : bytes "i2o/hd" = [105, 50, 111, 47, 104, 100] := by decide
theorem lit_mmcblk : bytes "mmcblk" = [109, 109, 99, 98, 108, 107] := by decide
theorem lit_md : bytes "md" = [109, 100] := by decide
theorem lit_vdisk : bytes "vdisk" = [118, 100, 105, 115, 107] := by decide
theorem lit_hd : bytes "hd" = [104, 100] := by decide
theorem lit_vd : bytes "vd" = [118, 100] := by decide
theorem lit_sd : bytes "sd" = [115, 100] := by decide
theorem lit_xvd : bytes "xvd" = [120, 118, 100] := by decide

theorem charAt_cons_succ (x : Nat) (xs : List Nat) (n : Nat) :
    charAt (x :: xs) (n + 1) = charAt xs n := by
  simp [charAt]

theorem charAt_cons_zero (x : Nat) (xs : List Nat) : charAt (x :: xs) 0 = x := by
  simp [charAt]

theorem charAt_digits_not_letter (digits : List Nat)
    (hd : ∀ c ∈ digits, isDecimalDigit c = true) (i : Nat) :
    isLowerLetter (charAt digits i) = false := by
  unfold charAt
  rw [List.getD_eq_getElem?_getD]
  cases h : digits[i]? with
  | none => simp [isLowerLetter]
  | some d =>
    have hm : d ∈ digits := List.getElem?_mem h
    have h2 := hd d hm
    simp only [isDecimalDigit, isLowerLetter, Bool.and_eq_true, decide_eq_true_eq,
      Bool.and_eq_false_iff, decide_eq_false_iff_not, Option.getD_some] at h2 ⊢
    omega

theorem conv_hd (dm : Option DmEnv) (os_dev : List Nat) (l : Nat) (ls digits : List Nat)
    (hl : ∀ c ∈ l :: ls, isLowerLetter c = true) (hd : ∀ c ∈ digits, isDecimalDigit c = true) :
    convert_system_partition_to_system_disk
      (some (bytes "/dev/" ++ bytes "hd" ++ (l :: ls) ++ digits)) dm os_dev
      = some (bytes "/dev/" ++ bytes "hd" ++ (l :: ls)) := by
  have h0 := hl l (by simp)
  have ht := takeWhile_letters ls digits (fun x hx => hl x (List.mem_cons_of_mem _ hx)) hd
  simp [convert_system_partition_to_system_disk, lit_dev, lit_ide, lit_scsi, lit_rd, lit_rs,
    lit_cciss, lit_ida, lit_i2o, lit_mmcblk, lit_md, lit_vdisk, lit_hd, lit_vd, lit_sd, lit_xvd,
    strncmpZero, charAt_cons_succ, charAt_cons_zero, h0, ht]

theorem conv_sd (dm : Option DmEnv) (os_dev : List Nat) (l : Nat) (ls digits : List Nat)
    (hl : ∀ c ∈ l :: ls, isLowerLetter c = true) (hd : ∀ c ∈ digits, isDecimalDigit c = true) :
    convert_system_partition_to_system_disk
      (some (bytes "/dev/" ++ bytes "sd" ++ (l :: ls) ++ digits)) dm os_dev
      = some (bytes "/dev/" ++ bytes "sd" ++ (l :: ls)) := by
  have h0 := hl l (by simp)
  have ht := takeWhile_letters ls digits (fun x hx => hl x (List.mem_cons_of_mem _ hx)) hd
  simp [convert_system_partition_to_system_disk, lit_dev, lit_ide, lit_scsi, lit_rd, lit_rs,
    lit_cciss, lit_ida, lit_i2o, lit_mmcblk, lit_md, lit_vdisk, lit_hd, lit_vd, lit_sd, lit_xvd,
    strncmpZero, charAt_cons_succ, charAt_cons_zero, h0, ht]

theorem conv_xvd (dm : Option DmEnv) (os_dev : List Nat) (l : Nat) (ls digits : List Nat)
    (hl : ∀ c ∈ l :: ls, isLowerLetter c = true) (hd : ∀ c ∈ digits, isDecimalDigit c = true) :
    convert_system_partition_to_system_disk
      (some (bytes "/dev/" ++ bytes "xvd" ++ (l :: ls) ++ digits)) dm os_dev
      = some (bytes "/dev/" ++ bytes "xvd" ++ (l :: ls)) := by
  have h0 := hl l (by simp)
  have ht := takeWhile_letters ls digits (fun x hx => hl x (List.mem_cons_of_mem _ hx)) hd
  simp [convert_system_partition_to_system_disk, lit_dev, lit_ide, lit_scsi, lit_rd, lit_rs,
    lit_cciss, lit_ida, lit_i2o, lit_mmcblk, lit_md, lit_vdisk, lit_hd, lit_vd, lit_sd, lit_xvd,
    strncmpZero, charAt_cons_succ, charAt_cons_zero, h0, ht]

theorem conv_vd (dm : Option DmEnv) (os_dev : List Nat) (l : Nat) (ls digits : List Nat)
    (hl : ∀ c ∈ l :: ls, isLowerLetter c = true) (hd : ∀ c ∈ digits, isDecimalDigit c = true)
    (hv : bytes "isk" <+: l :: ls → (l :: ls).length ≤ 4) :
    convert_system_partition_to_system_disk
      (some (bytes "/dev/" ++ bytes "vd" ++ (l :: ls) ++ digits)) dm os_dev
      = some (bytes "/dev/" ++ bytes "vd" ++ (l :: ls)) := by
  have h0 := hl l (by simp)
  have hdig := takeWhile_letters [] digits (by simp) hd
  simp only [List.nil_append] at hdig
  have lit_isk : bytes "isk" = [105, 115, 107] := by decide
  rw [lit_isk] at hv
  rcases ls with _ | ⟨a, _ | ⟨b, _ | ⟨c, ls'⟩⟩⟩
  · simp [convert_system_partition_to_system_disk, lit_dev, lit_ide, lit_scsi, lit_rd, lit_rs,
    lit_cciss, lit_ida, lit_i2o, lit_mmcblk, lit_md, lit_vdisk, lit_hd, lit_vd, lit_sd, lit_xvd,
    strncmpZero, charAt_cons_succ, charAt_cons_zero, h0, hdig, charAt_digits_not_letter digits hd]
  · have ha := hl a (by simp)
    simp [convert_system_partition_to_system_disk, lit_dev, lit_ide, lit_scsi, lit_rd, lit_rs,
    lit_cciss, lit_ida, lit_i2o, lit_mmcblk, lit_md, lit_vdisk, lit_hd, lit_vd, lit_sd, lit_xvd,
    strncmpZero, charAt_cons_succ, charAt_cons_zero, h0, ha, hdig, charAt_digits_not_letter digits hd]
  · have ha := hl a (by simp)
    have hb := hl b (by simp)
    simp [convert_system_partition_to_system_disk, lit_dev, lit_ide, lit_scsi, lit_rd, lit_rs,
    lit_cciss, lit_ida, lit_i2o, lit_mmcblk, lit_md, lit_vdisk, lit_hd, lit_vd, lit_sd, lit_xvd,
    strncmpZero, charAt_cons_succ, charAt_cons_zero, h0, ha, hb, hdig, charAt_digits_not_letter digits hd]
  · have ha := hl a (by simp)
    have hb := hl b (by simp)
    have hc := hl c (by simp)
    have ht := takeWhile_letters ls' digits (fun x hx => hl x (by simp [hx])) hd
    simp [convert_system_partition_to_system_disk, lit_dev, lit_ide, lit_scsi, lit_rd, lit_rs,
    lit_cciss, lit_ida, lit_i2o, lit_mmcblk, lit_md, lit_vdisk, lit_hd, lit_vd, lit_sd, lit_xvd,
    strncmpZero, charAt_cons_succ, charAt_cons_zero, h0, ha, hb, hc, ht]
    intro e1 e2 e3
    subst e1 e2 e3
    have h4 := hv ⟨c :: ls', rfl⟩
    simp at h4
    exact h4

theorem conv_vdisk (dm : Option DmEnv) (os_dev : List Nat) (c : Nat) (rest : List Nat)
    (hc : isLowerLetter c = true) :
    convert_system_partition_to_system_disk
      (some (bytes "/dev/" ++ bytes "vdisk" ++ c :: rest)) dm os_dev
      = some (bytes "/dev/" ++ bytes "vdisk" ++ [c]) := by
  simp [convert_system_partition_to_system_disk, lit_dev, lit_ide, lit_scsi, lit_rd, lit_rs,
    lit_cciss, lit_ida, lit_i2o, lit_mmcblk, lit_md, lit_vdisk, lit_hd, lit_vd, lit_sd, lit_xvd,
    strncmpZero, charAt_cons_succ, charAt_cons_zero, hc]

/-- C9: under the Linux rules, for a path that `realpath` returns unchanged,
/dev/sda3 is converted to /dev/sda and /dev/mmcblk0p2 to /dev/mmcblk0, and the
whole disks /dev/sda and /dev/mmcblk0 are returned unchanged, whether or not
device-mapper support is built in. -/
theorem convert_scenario (dm : Option DmEnv) :
    convert_system_partition_to_system_disk (some (bytes "/dev/sda3")) dm (bytes "/dev/sda3")
      = some (bytes "/dev/sda") ∧
    convert_system_partition_to_system_disk (some (bytes "/dev/mmcblk0p2")) dm
        (bytes "/dev/mmcblk0p2") = some (bytes "/dev/mmcblk0") ∧
    convert_system_partition_to_system_disk (some (bytes "/dev/sda")) dm (bytes "/dev/sda")
      = some (bytes "/dev/sda") ∧
    convert_system_partition_to_system_disk (some (bytes "/dev/mmcblk0")) dm
        (bytes "/dev/mmcblk0") = some (bytes "/dev/mmcblk0") := by
  refine ⟨rfl, rfl, rfl, rfl⟩

/-- C10, as stated, fails: /dev/vdiskab is /dev/ + vd + the letters iskab + no
digits, but the rule /dev/vdisk[a-z][0-9]*, tried before the rule for hd, sd
and vd, cuts it after the first letter that follows vdisk. -/
theorem convert_vdiskab :
    (∀ c ∈ bytes "iskab", isLowerLetter c = true) ∧
    convert_system_partition_to_system_disk
      (some (bytes "/dev/" ++ bytes "vd" ++ bytes "iskab" ++ [])) none
      (bytes "/dev/" ++ bytes "vd" ++ bytes "iskab" ++ []) = some (bytes "/dev/vdiska") ∧
    some (bytes "/dev/vdiska") ≠ some (bytes "/dev/" ++ bytes "vd" ++ bytes "iskab") := by
  decide

/-- C10, amended: for every path of the form /dev/ + one of hd, sd, vd, xvd +
one or more lowercase letters + a (possibly empty) run of decimal digits that
`realpath` returns, other than a path beginning /dev/vdisk followed by two or
more lowercase letters, the function returns the path with the trailing digits
removed and everything else kept; a path beginning /dev/vdisk followed by a
lowercase letter is cut right after that letter. -/
theorem convert_strips_digits (dm : Option DmEnv) (os_dev pre letters digits : List Nat)
    (hpre : pre = bytes "hd" ∨ pre = bytes "sd" ∨ pre = bytes "vd" ∨ pre = bytes "xvd")
    (hne : letters ≠ [])
    (hl : ∀ c ∈ letters, isLowerLetter c = true) (hd : ∀ c ∈ digits, isDecimalDigit c = true)
    (hv : pre = bytes "vd" → bytes "isk" <+: letters → letters.length ≤ 4) :
    convert_system_partition_to_system_disk (some (bytes "/dev/" ++ pre ++ letters ++ digits))
        dm os_dev = some (bytes "/dev/" ++ pre ++ letters) ∧
    (∀ c rest, isLowerLetter c = true →
      convert_system_partition_to_system_disk (some (bytes "/dev/" ++ bytes "vdisk" ++ c :: rest))
        dm os_dev = some (bytes "/dev/" ++ bytes "vdisk" ++ [c])) := by
  refine ⟨?_, fun c rest hc => conv_vdisk dm os_dev c rest hc⟩
  obtain ⟨l, ls, rfl⟩ := List.exists_cons_of_ne_nil hne
  rcases hpre with rfl | rfl | rfl | rfl
  · exact conv_hd dm os_dev l ls digits hl hd
  · exact conv_sd dm os_dev l ls digits hl hd
  · exact conv_vd dm os_dev l ls digits hl hd (hv rfl)
  · exact conv_xvd dm os_dev l ls digits hl hd

/-- Witness of C10: the path /dev/xvda12. -/
theorem convert_strips_digits_witness :
    (∀ c ∈ bytes "a", isLowerLetter c = true) ∧ (∀ c ∈ bytes "12", isDecimalDigit c = true) ∧
      convert_system_partition_to_system_disk (some (bytes "/dev/xvda12")) none
        (bytes "/dev/xvda12") = some (bytes "/dev/xvda") :=
  ⟨by decide, by decide,
    (convert_strips_digits none (bytes "/dev/xvda12") (bytes "xvd") (bytes "a") (bytes "12")
      (by decide) (by decide) (by decide) (by decide) (by decide)).1⟩


/-! ## NVMe names and multipath nodes in the partition normalizer -/

theorem lit_mapper : bytes "/dev/mapper/" = [47, 100, 101, 118, 47, 109, 97, 112, 112, 101, 114, 47] := by
  decide

theorem lit_nvme : bytes "/dev/nvme" = [47, 100, 101, 118, 47, 110, 118, 109, 101] := by
  decide

/-- C11, as stated, fails: /dev/nvme0n1p1 is returned unchanged, not as
/dev/nvme0n1. -/
theorem convert_nvme0n1p1 :
    convert_system_partition_to_system_disk (some (bytes "/dev/nvme0n1p1")) none
      (bytes "/dev/nvme0n1p1") = some (bytes "/dev/nvme0n1p1") ∧
    some (bytes "/dev/nvme0n1p1") ≠ some (bytes "/dev/nvme0n1") := by
  decide

/-- C11, amended: the Linux partition normalizer has no rule for NVMe-like
names; every canonical path /dev/nvme<C>n<N>p<K> is returned unchanged, with
or without device-mapper support. -/
theorem convert_nvme_unchanged (dm : Option DmEnv) (c n k : List Nat) :
    convert_system_partition_to_system_disk
        (some (bytes "/dev/nvme" ++ c ++ bytes "n" ++ n ++ bytes "p" ++ k)) dm
        (bytes "/dev/nvme" ++ c ++ bytes "n" ++ n ++ bytes "p" ++ k)
      = some (bytes "/dev/nvme" ++ c ++ bytes "n" ++ n ++ bytes "p" ++ k) := by
  cases dm <;>
  simp [convert_system_partition_to_system_disk, lit_dev, lit_ide, lit_scsi, lit_rd, lit_rs,
    lit_cciss, lit_ida, lit_i2o, lit_mmcblk, lit_md, lit_vdisk, lit_hd, lit_vd, lit_sd, lit_xvd,
    lit_mapper, lit_nvme, strncmpZero, charAt_cons_succ, charAt_cons_zero]


theorem lit_mpath : bytes "mpath-" = [109, 112, 97, 116, 104, 45] := by decide
theorem lit_lvm : bytes "LVM-" = [76, 86, 77, 45] := by decide
theorem lit_dm : bytes "/dev/dm-" = [47, 100, 101, 118, 47, 100, 109, 45] := by decide

theorem devmapperBranch_mpath (env : DmEnv) (node : DmNode) (uuid : List Nat)
    (htree : env.tree = true) (hadd : env.add_dev = true) (hnode : env.node = some node)
    (huuid : node.uuid = some uuid) (hmp : bytes "mpath-" <+: uuid) :
    devmapperBranch env = node.name.map (fun name => bytes "/dev/mapper/" ++ name) := by
  obtain ⟨t, rfl⟩ := hmp
  cases hn : node.name <;>
  simp [devmapperBranch, devmapperOut, htree, hadd, hnode, huuid, hn, lit_mpath, lit_lvm,
    strncmpZero]

/-- C12: in the device-mapper branch, a node whose UUID begins with mpath-
gives /dev/mapper/ followed by the node's own device-mapper name (NULL when
the library reports no name); the result does not depend on the node's
children, on the linear table or on `grub_find_device`; the branch is the one
reached by a path under /dev/mapper/ that is canonical or resolves to a
/dev/dm-N node. -/
theorem multipath_stop (env : DmEnv) (node : DmNode) (uuid name : List Nat)
    (htree : env.tree = true) (hadd : env.add_dev = true) (hnode : env.node = some node)
    (huuid : node.uuid = some uuid) (hmp : bytes "mpath-" <+: uuid)
    (hname : node.name = some name) :
    devmapperBranch env = some (bytes "/dev/mapper/" ++ name) ∧
    (∀ child linear find_device,
      devmapperBranch { env with child := child, linear := linear, find_device := find_device }
        = some (bytes "/dev/mapper/" ++ name)) ∧
    (∀ x, convert_system_partition_to_system_disk (some (bytes "/dev/mapper/" ++ x)) (some env)
        (bytes "/dev/mapper/" ++ x) = some (bytes "/dev/mapper/" ++ name)) ∧
    (∀ x y, convert_system_partition_to_system_disk (some (bytes "/dev/dm-" ++ y)) (some env)
        (bytes "/dev/mapper/" ++ x) = some (bytes "/dev/mapper/" ++ name)) := by
  have h1 : devmapperBranch env = some (bytes "/dev/mapper/" ++ name) := by
    rw [devmapperBranch_mpath env node uuid htree hadd hnode huuid hmp, hname]
    rfl
  refine ⟨h1, ?_, ?_, ?_⟩
  · intro child linear find_device
    have h2 := devmapperBranch_mpath
      { env with child := child, linear := linear, find_device := find_device } node uuid
      htree hadd hnode huuid hmp
    rw [h2, hname]
    rfl
  · intro x
    rw [← h1]
    simp [convert_system_partition_to_system_disk, lit_dev, lit_ide, lit_scsi, lit_rd, lit_rs,
      lit_cciss, lit_ida, lit_i2o, lit_mmcblk, lit_md, lit_vdisk, lit_hd, lit_vd, lit_sd,
      lit_xvd, lit_mapper, strncmpZero, charAt_cons_succ, charAt_cons_zero]
  · intro x y
    rw [← h1]
    simp [convert_system_partition_to_system_disk, lit_dev, lit_ide, lit_scsi, lit_rd, lit_rs,
      lit_cciss, lit_ida, lit_i2o, lit_mmcblk, lit_md, lit_vdisk, lit_hd, lit_vd, lit_sd,
      lit_xvd, lit_mapper, lit_dm, strncmpZero, charAt_cons_succ, charAt_cons_zero]

/-- Witness of C12: the multipath disk mpatha behind /dev/mapper/mpatha. -/
theorem multipath_stop_witness :
    bytes "mpath-" <+: bytes "mpath-360a98000" ∧
      convert_system_partition_to_system_disk (some (bytes "/dev/dm-2")) (some multipathEnv)
        (bytes "/dev/mapper/mpatha") = some (bytes "/dev/mapper/mpatha") :=
  ⟨by decide,
    (multipath_stop multipathEnv
      { uuid := some (bytes "mpath-360a98000"), name := some (bytes "mpatha") }
      (bytes "mpath-360a98000") (bytes "mpatha") rfl rfl rfl rfl (by decide) rfl).2.2.2
      (bytes "mpatha") (bytes "2")⟩


/-! ## Abstraction classification -/

theorem dm_abstraction_range (env : ClassifyEnv) (os_dev : List Nat) :
    grub_util_get_dm_abstraction env os_dev = .NONE ∨
      grub_util_get_dm_abstraction env os_dev = .LVM ∨
      grub_util_get_dm_abstraction env os_dev = .LUKS := by
  unfold grub_util_get_dm_abstraction
  split
  · split
    · left; rfl
    · split
      · right; left; rfl
      · split
        · right; right; rfl
        · left; rfl
  · split
    · left; rfl
    · right; left; rfl

theorem lit_dev_md : (bytes "/dev/md").length = 7 := by decide

/-- C13: on Linux `grub_util_get_dev_abstraction` returns NONE whenever
`grub_util_biosdisk_is_present` holds for the path, whatever its device-mapper
identity or name; otherwise it returns the device-mapper classification when
that is LVM or LUKS; otherwise RAID exactly when the path begins with /dev/md
and the device is not device-mapped; otherwise NONE. -/
theorem dev_abstraction_order (env : ClassifyEnv) (os_dev : List Nat) :
    (env.biosdisk_is_present os_dev = true →
      grub_util_get_dev_abstraction env os_dev = .NONE) ∧
    (env.biosdisk_is_present os_dev = false →
      (grub_util_get_dm_abstraction env os_dev = .LVM ∨
        grub_util_get_dm_abstraction env os_dev = .LUKS) →
      grub_util_get_dev_abstraction env os_dev = grub_util_get_dm_abstraction env os_dev) ∧
    (env.biosdisk_is_present os_dev = false →
      grub_util_get_dm_abstraction env os_dev ≠ .LVM →
      grub_util_get_dm_abstraction env os_dev ≠ .LUKS →
      (grub_util_get_dev_abstraction env os_dev = .RAID ↔
        (bytes "/dev/md" <+: os_dev ∧ env.device_is_mapped os_dev = false)) ∧
      (grub_util_get_dev_abstraction env os_dev ≠ .RAID →
        grub_util_get_dev_abstraction env os_dev = .NONE)) := by
  refine ⟨?_, ?_, ?_⟩
  · intro hp
    simp [grub_util_get_dev_abstraction, hp]
  · intro hp hdm
    have hne : grub_util_get_dm_abstraction env os_dev ≠ .NONE := by
      rcases hdm with h | h <;> rw [h] <;> decide
    simp [grub_util_get_dev_abstraction, hp, hne]
  · intro hp h1 h2
    have hnone : grub_util_get_dm_abstraction env os_dev = .NONE := by
      rcases dm_abstraction_range env os_dev with h | h | h
      · exact h
      · exact absurd h h1
      · exact absurd h h2
    have hpre : strncmpZero os_dev (bytes "/dev/md") 7 = true ↔ bytes "/dev/md" <+: os_dev := by
      have := strncmpZero_length_iff (bytes "/dev/md") os_dev
      rwa [lit_dev_md] at this
    by_cases hc : (strncmpZero os_dev (bytes "/dev/md") 7 && !env.device_is_mapped os_dev) = true
    · have hr : grub_util_get_dev_abstraction env os_dev = .RAID := by
        simp only [grub_util_get_dev_abstraction, hp, hnone]
        simp [hc]
      rw [hr]
      simp only [Bool.and_eq_true, Bool.not_eq_true'] at hc
      exact ⟨⟨fun _ => ⟨hpre.mp hc.1, hc.2⟩, fun _ => rfl⟩, fun h => absurd rfl h⟩
    · have hr : grub_util_get_dev_abstraction env os_dev = .NONE := by
        simp only [grub_util_get_dev_abstraction, hp, hnone]
        simp [hc]
      rw [hr]
      refine ⟨⟨fun h => (by cases h), fun h => ?_⟩, fun _ => rfl⟩
      exfalso
      apply hc
      simp only [Bool.and_eq_true, Bool.not_eq_true']
      exact ⟨hpre.mpr h.1, h.2⟩

/-- C14: the code at the failing input.  On a host where /dev/mapper/swap is a
plain dm-crypt mapping with the UUID CRYPT-PLAIN-swap, which does not begin
with CRYPT-LUKS1-, `grub_util_get_dm_abstraction` returns LUKS: the comparison
`strncmp (uuid, "CRYPT-LUKS1-", 4)` looks at four bytes only. -/
theorem dm_abstraction_crypt_plain :
    get_dm_uuid plainCryptEnv (bytes "/dev/mapper/swap") = some (bytes "CRYPT-PLAIN-swap") ∧
    ¬ (bytes "CRYPT-LUKS1-" <+: bytes "CRYPT-PLAIN-swap") ∧
    grub_util_get_dm_abstraction plainCryptEnv (bytes "/dev/mapper/swap") = .LUKS := by
  decide


/-! ## `grub_util_pull_device`: termination and the NONE case -/

theorem seqRun_some (a b : Option PullRun) (ha : ∃ ra, a = some ra) (hb : ∃ rb, b = some rb) :
    ∃ r, seqRun a b = some r := by
  obtain ⟨ra, rfl⟩ := ha
  obtain ⟨rb, rfl⟩ := hb
  unfold seqRun
  by_cases h : ra.aborted = true
  · exact ⟨ra, by simp [h]⟩
  · exact ⟨{ events := ra.events ++ rb.events, aborted := rb.aborted }, by simp [h]⟩

theorem nestedPull_some (pull : List Nat → Option PullRun) (d : List Nat)
    (h : ∃ r, pull d = some r) : ∃ r, nestedPull pull d = some r :=
  seqRun_some _ _ ⟨_, rfl⟩ h

theorem pullEach_some (pull : List Nat → Option PullRun) (ds : List (List Nat))
    (h : ∀ d ∈ ds, ∃ r, pull d = some r) : ∃ r, pullEach pull ds = some r := by
  induction ds with
  | nil => exact ⟨_, rfl⟩
  | cons d ds ih =>
    rw [pullEach]
    exact seqRun_some _ _ (nestedPull_some pull d (h d (List.mem_cons_self _ _)))
      (ih (fun x hx => h x (List.mem_cons_of_mem _ hx)))

theorem cryptoMount_some (env : PullEnv) (pull : List Nat → Option PullRun)
    (os_dev sub : List Nat) (h : ∃ r, pull sub = some r) :
    ∃ r, cryptoMount env pull os_dev sub = some r := by
  unfold cryptoMount
  apply seqRun_some _ _ (nestedPull_some pull sub h)
  rcases env.grub_dev_name sub with _ | _ | grdev
  · exact ⟨_, rfl⟩
  · exact ⟨_, rfl⟩
  · exact ⟨_, rfl⟩

theorem tail_some (env : PullEnv) (pull : List Nat → Option PullRun) (os_dev : List Nat)
    (subs : List (List Nat)) (h : ∀ d ∈ subs, ∃ r, pull d = some r) :
    ∃ r, (match subs.getLast? with
      | none => some { events := [], aborted := false }
      | some sub => cryptoMount env pull os_dev sub) = some r := by
  cases hl : subs.getLast? with
  | none => exact ⟨_, rfl⟩
  | some sub => exact cryptoMount_some env pull os_dev sub (h sub (List.mem_of_getLast?_eq_some hl))

theorem pull_step_some (env : PullEnv) (depth : Nat) (os_dev : List Nat)
    (h : ∀ c ∈ subdevices env os_dev, ∃ r, grub_util_pull_device env depth c = some r) :
    ∃ run, grub_util_pull_device env (depth + 1) os_dev = some run := by
  rw [grub_util_pull_device]
  unfold subdevices at h
  cases hab : env.abstraction os_dev <;> simp only [hab] at h ⊢
  · exact ⟨_, rfl⟩
  · by_cases hdm : env.have_device_mapper = true
    · simp only [hdm, if_true] at h ⊢
      exact pullEach_some _ _ h
    · simp only [hdm] at h ⊢
      exact ⟨_, rfl⟩
  · by_cases hl : env.linux = true
    · simp only [hl, if_true] at h ⊢
      exact pullEach_some _ _ h
    · simp only [hl] at h ⊢
      exact ⟨_, rfl⟩
  · by_cases hdm : env.have_device_mapper = true
    · simp only [hdm, if_true] at h ⊢
      exact seqRun_some _ _ (pullEach_some _ _ h) (tail_some env _ os_dev _ h)
    · simp only [hdm] at h ⊢
      exact ⟨_, rfl⟩
  · by_cases hf : env.freebsd = true
    · simp only [hf, if_true, Bool.true_and] at h ⊢
      by_cases hd : strncmpZero os_dev (bytes "/dev/") 5 = true
      · simp only [hd, Bool.not_true, Bool.false_eq_true, if_false, Bool.true_and] at h ⊢
        by_cases hg : env.geom_tree = true
        · simp only [hg, if_true, Bool.not_true, Bool.false_eq_true, if_false] at h ⊢
          apply seqRun_some _ _ (pullEach_some _ _ h)
          by_cases hany : (env.geli_consumers os_dev).any Option.isNone = true
          · rw [if_pos hany]
            exact ⟨_, rfl⟩
          · rw [if_neg hany]
            exact tail_some env _ os_dev _ h
        · simp only [hg] at h ⊢
          exact ⟨_, rfl⟩
      · simp only [hd] at h ⊢
        exact ⟨_, rfl⟩
    · simp only [hf] at h ⊢
      exact ⟨_, rfl⟩

theorem exists_common_depth {α : Type} (P : α → Nat → Prop) (ds : List α)
    (h : ∀ d ∈ ds, ∃ n, ∀ m, n ≤ m → P d m) : ∃ N, ∀ d ∈ ds, ∀ m, N ≤ m → P d m := by
  induction ds with
  | nil => exact ⟨0, fun d hd => absurd hd (List.not_mem_nil d)⟩
  | cons d ds ih =>
    obtain ⟨N, hN⟩ := ih (fun x hx => h x (List.mem_cons_of_mem _ hx))
    obtain ⟨n, hn⟩ := h d (List.mem_cons_self _ _)
    refine ⟨max N n, fun x hx m hm => ?_⟩
    rcases List.mem_cons.mp hx with rfl | hx
    · exact hn m (le_trans (le_max_right N n) hm)
    · exact hN x hx m (le_trans (le_max_left N n) hm)

theorem pull_terminates_of_acc (env : PullEnv) (os_dev : List Nat)
    (h : Acc (PulledBy env) os_dev) :
    ∃ n, ∀ depth, n ≤ depth → ∃ run, grub_util_pull_device env depth os_dev = some run := by
  induction h with
  | intro d _ ih =>
    obtain ⟨N, hN⟩ := exists_common_depth
      (fun c m => ∃ run, grub_util_pull_device env m c = some run) (subdevices env d)
      (fun c hc => ih c hc)
    refine ⟨N + 1, fun depth hdepth => ?_⟩
    obtain ⟨k, rfl⟩ : ∃ k, depth = k + 1 := ⟨depth - 1, by omega⟩
    exact pull_step_some env k d (fun c hc => hN c hc k (by omega))


theorem seqRun_mem (a b : Option PullRun) (r : PullRun) (e : PullEvent)
    (h : seqRun a b = some r) (he : e ∈ r.events) :
    (∃ ra, a = some ra ∧ e ∈ ra.events) ∨ (∃ rb, b = some rb ∧ e ∈ rb.events) := by
  unfold seqRun at h
  cases a with
  | none => simp at h
  | some ra =>
    simp only at h
    by_cases hab : ra.aborted = true
    · rw [if_pos hab] at h
      have : ra = r := Option.some.inj h
      subst this
      exact Or.inl ⟨_, rfl, he⟩
    · rw [if_neg hab] at h
      cases b with
      | none => simp at h
      | some rb =>
        simp only at h
        have : { events := ra.events ++ rb.events, aborted := rb.aborted } = r :=
          Option.some.inj h
        subst this
        rcases List.mem_append.mp he with he | he
        · exact Or.inl ⟨_, rfl, he⟩
        · exact Or.inr ⟨_, rfl, he⟩

theorem nestedPull_recurse (pull : List Nat → Option PullRun) (c d : List Nat) (r : PullRun)
    (h : nestedPull pull c = some r) (hd : PullEvent.recurse d ∈ r.events) :
    d = c ∨ ∃ rc, pull c = some rc ∧ PullEvent.recurse d ∈ rc.events := by
  rcases seqRun_mem _ _ r _ h hd with ⟨ra, hra, he⟩ | ⟨rb, hrb, he⟩
  · have : ra = { events := [.recurse c], aborted := false } := (Option.some.inj hra).symm
    subst this
    left
    simpa using he
  · exact Or.inr ⟨rb, hrb, he⟩

theorem pullEach_recurse (pull : List Nat → Option PullRun) (d : List Nat) :
    ∀ (ds : List (List Nat)) (r : PullRun), pullEach pull ds = some r →
      PullEvent.recurse d ∈ r.events →
      ∃ c ∈ ds, d = c ∨ ∃ rc, pull c = some rc ∧ PullEvent.recurse d ∈ rc.events := by
  intro ds
  induction ds with
  | nil =>
    intro r h hd
    have : r = { events := [], aborted := false } := (Option.some.inj h).symm
    subst this
    simp at hd
  | cons c cs ih =>
    intro r h hd
    rw [pullEach] at h
    rcases seqRun_mem _ _ r _ h hd with ⟨ra, hra, he⟩ | ⟨rb, hrb, he⟩
    · exact ⟨c, List.mem_cons_self _ _, nestedPull_recurse pull c d ra hra he⟩
    · obtain ⟨x, hx, hx2⟩ := ih rb hrb he
      exact ⟨x, List.mem_cons_of_mem _ hx, hx2⟩

theorem cryptoMount_recurse (env : PullEnv) (pull : List Nat → Option PullRun)
    (os_dev sub d : List Nat) (r : PullRun) (h : cryptoMount env pull os_dev sub = some r)
    (hd : PullEvent.recurse d ∈ r.events) :
    d = sub ∨ ∃ rc, pull sub = some rc ∧ PullEvent.recurse d ∈ rc.events := by
  unfold cryptoMount at h
  rcases seqRun_mem _ _ r _ h hd with ⟨ra, hra, he⟩ | ⟨rb, hrb, he⟩
  · exact nestedPull_recurse pull sub d ra hra he
  · exfalso
    rcases hn : env.grub_dev_name sub with _ | _ | grdev <;> rw [hn] at hrb <;>
      simp only [Option.some.injEq] at hrb <;> subst hrb <;> simp at he

theorem tail_recurse (env : PullEnv) (pull : List Nat → Option PullRun) (os_dev d : List Nat)
    (subs : List (List Nat)) (r : PullRun)
    (h : (match subs.getLast? with
      | none => some { events := [], aborted := false }
      | some sub => cryptoMount env pull os_dev sub) = some r)
    (hd : PullEvent.recurse d ∈ r.events) :
    ∃ c ∈ subs, d = c ∨ ∃ rc, pull c = some rc ∧ PullEvent.recurse d ∈ rc.events := by
  cases hl : subs.getLast? with
  | none =>
    rw [hl] at h
    have : r = { events := [], aborted := false } := (Option.some.inj h).symm
    subst this
    simp at hd
  | some sub =>
    rw [hl] at h
    exact ⟨sub, List.mem_of_getLast?_eq_some hl, cryptoMount_recurse env pull os_dev sub d r h hd⟩

theorem empty_run_no_event (r : PullRun) (e : PullEvent) (b : Bool)
    (h : (some { events := [], aborted := b } : Option PullRun) = some r) : e ∉ r.events := by
  have : r = { events := [], aborted := b } := (Option.some.inj h).symm
  subst this
  simp


theorem pull_step_recurse (env : PullEnv) (depth : Nat) (os_dev d : List Nat) (run : PullRun)
    (h : grub_util_pull_device env (depth + 1) os_dev = some run)
    (hd : PullEvent.recurse d ∈ run.events) :
    ∃ c ∈ subdevices env os_dev,
      d = c ∨ ∃ rc, grub_util_pull_device env depth c = some rc ∧
        PullEvent.recurse d ∈ rc.events := by
  rw [grub_util_pull_device] at h
  unfold subdevices
  cases hab : env.abstraction os_dev <;> simp only [hab] at h ⊢
  · have : run = { events := [.probe os_dev], aborted := false } := (Option.some.inj h).symm
    subst this
    simp at hd
  · by_cases hdm : env.have_device_mapper = true
    · simp only [hdm, if_true] at h ⊢
      exact pullEach_recurse _ d _ run h hd
    · simp only [hdm] at h
      exact absurd hd (empty_run_no_event run _ false h)
  · by_cases hl : env.linux = true
    · simp only [hl, if_true] at h ⊢
      exact pullEach_recurse _ d _ run h hd
    · simp only [hl] at h
      exact absurd hd (empty_run_no_event run _ false h)
  · by_cases hdm : env.have_device_mapper = true
    · simp only [hdm, if_true] at h ⊢
      rcases seqRun_mem _ _ run _ h hd with ⟨ra, hra, he⟩ | ⟨rb, hrb, he⟩
      · exact pullEach_recurse _ d _ ra hra he
      · exact tail_recurse env _ os_dev d _ rb hrb he
    · simp only [hdm] at h
      exact absurd hd (empty_run_no_event run _ false h)
  · by_cases hf : env.freebsd = true
    · simp only [hf, if_true, Bool.true_and] at h ⊢
      by_cases hdev : strncmpZero os_dev (bytes "/dev/") 5 = true
      · simp only [hdev, Bool.not_true, Bool.false_eq_true, if_false, Bool.true_and] at h ⊢
        by_cases hg : env.geom_tree = true
        · simp only [hg, if_true, Bool.not_true, Bool.false_eq_true, if_false] at h ⊢
          rcases seqRun_mem _ _ run _ h hd with ⟨ra, hra, he⟩ | ⟨rb, hrb, he⟩
          · exact pullEach_recurse _ d _ ra hra he
          · by_cases hany : (env.geli_consumers os_dev).any Option.isNone = true
            · rw [if_pos hany] at hrb
              exact absurd he (empty_run_no_event rb _ true hrb)
            · rw [if_neg hany] at hrb
              exact tail_recurse env _ os_dev d _ rb hrb he
        · simp only [hg] at h
          simp only [Bool.not_false, if_true] at h
          exact absurd hd (empty_run_no_event run _ true h)
      · simp only [hdev] at h
        simp only [Bool.not_false, if_true] at h
        exact absurd hd (empty_run_no_event run _ false h)
    · simp only [hf] at h
      exact absurd hd (empty_run_no_event run _ false h)

theorem pull_recurse_on_descendants (env : PullEnv) :
    ∀ (depth : Nat) (os_dev d : List Nat) (run : PullRun),
      grub_util_pull_device env depth os_dev = some run →
      PullEvent.recurse d ∈ run.events → Relation.TransGen (PulledBy env) d os_dev := by
  intro depth
  induction depth with
  | zero => intro os_dev d run h; simp [grub_util_pull_device] at h
  | succ depth ih =>
    intro os_dev d run h hd
    obtain ⟨c, hc, hcase⟩ := pull_step_recurse env depth os_dev d run h hd
    rcases hcase with rfl | ⟨rc, hrc, hin⟩
    · exact Relation.TransGen.single hc
    · exact Relation.TransGen.tail (ih c d rc hrc hin) hc

theorem seqRun_mono (a a' b b' : Option PullRun) (ha : ∀ r, a = some r → a' = some r)
    (hb : ∀ r, b = some r → b' = some r) :
    ∀ r, seqRun a b = some r → seqRun a' b' = some r := by
  intro r h
  cases a with
  | none => simp [seqRun] at h
  | some ra =>
    rw [ha ra rfl]
    unfold seqRun at h ⊢
    simp only at h ⊢
    by_cases hab : ra.aborted = true
    · rw [if_pos hab] at h ⊢
      exact h
    · rw [if_neg hab] at h ⊢
      cases b with
      | none => simp at h
      | some rb =>
        rw [hb rb rfl]
        exact h

theorem nestedPull_mono (f g : List Nat → Option PullRun)
    (hfg : ∀ c r, f c = some r → g c = some r) (d : List Nat) :
    ∀ r, nestedPull f d = some r → nestedPull g d = some r :=
  seqRun_mono _ _ _ _ (fun _ h => h) (hfg d)

theorem pullEach_mono (f g : List Nat → Option PullRun)
    (hfg : ∀ c r, f c = some r → g c = some r) :
    ∀ (ds : List (List Nat)) (r : PullRun), pullEach f ds = some r → pullEach g ds = some r := by
  intro ds
  induction ds with
  | nil => intro r h; exact h
  | cons d ds ih =>
    intro r h
    rw [pullEach] at h ⊢
    exact seqRun_mono _ _ _ _ (nestedPull_mono f g hfg d) ih r h

theorem cryptoMount_mono (env : PullEnv) (f g : List Nat → Option PullRun)
    (hfg : ∀ c r, f c = some r → g c = some r) (os_dev sub : List Nat) :
    ∀ r, cryptoMount env f os_dev sub = some r → cryptoMount env g os_dev sub = some r :=
  seqRun_mono _ _ _ _ (nestedPull_mono f g hfg sub) (fun _ h => h)

theorem tail_mono (env : PullEnv) (f g : List Nat → Option PullRun)
    (hfg : ∀ c r, f c = some r → g c = some r) (os_dev : List Nat) (subs : List (List Nat)) :
    ∀ r, (match subs.getLast? with
        | none => some { events := [], aborted := false }
        | some sub => cryptoMount env f os_dev sub) = some r →
      (match subs.getLast? with
        | none => some { events := [], aborted := false }
        | some sub => cryptoMount env g os_dev sub) = some r := by
  intro r h
  cases hl : subs.getLast? with
  | none => rw [hl] at h; exact h
  | some sub =>
    rw [hl] at h
    exact cryptoMount_mono env f g hfg os_dev sub r h

theorem pull_mono (env : PullEnv) :
    ∀ (depth : Nat) (os_dev : List Nat) (run : PullRun),
      grub_util_pull_device env depth os_dev = some run →
      grub_util_pull_device env (depth + 1) os_dev = some run := by
  intro depth
  induction depth with
  | zero => intro os_dev run h; simp [grub_util_pull_device] at h
  | succ depth ih =>
    intro os_dev run h
    rw [grub_util_pull_device] at h ⊢
    cases hab : env.abstraction os_dev <;> simp only [hab] at h ⊢
    · exact h
    · by_cases hdm : env.have_device_mapper = true
      · simp only [hdm, if_true] at h ⊢
        exact pullEach_mono _ _ ih _ run h
      · simp only [hdm] at h ⊢
        exact h
    · by_cases hl : env.linux = true
      · simp only [hl, if_true] at h ⊢
        exact pullEach_mono _ _ ih _ run h
      · simp only [hl] at h ⊢
        exact h
    · by_cases hdm : env.have_device_mapper = true
      · simp only [hdm, if_true] at h ⊢
        exact seqRun_mono _ _ _ _ (pullEach_mono _ _ ih _) (tail_mono env _ _ ih os_dev _) run h
      · simp only [hdm] at h ⊢
        exact h
    · by_cases hf : env.freebsd = true
      · simp only [hf, if_true] at h ⊢
        by_cases hdev : strncmpZero os_dev (bytes "/dev/") 5 = true
        · simp only [hdev, Bool.not_true, Bool.false_eq_true, if_false] at h ⊢
          by_cases hg : env.geom_tree = true
          · simp only [hg, Bool.not_true, Bool.false_eq_true, if_false] at h ⊢
            refine seqRun_mono _ _ _ _ (pullEach_mono _ _ ih _) ?_ run h
            by_cases hany : (env.geli_consumers os_dev).any Option.isNone = true
            · rw [if_pos hany, if_pos hany]
              exact fun _ h => h
            · rw [if_neg hany, if_neg hany]
              exact tail_mono env _ _ ih os_dev _
          · simp only [hg] at h ⊢
            exact h
        · simp only [hdev] at h ⊢
          exact h
      · simp only [hf] at h ⊢
        exact h

theorem pull_mono_le (env : PullEnv) (os_dev : List Nat) (run : PullRun) (n : Nat)
    (h : grub_util_pull_device env n os_dev = some run) :
    ∀ depth, n ≤ depth → grub_util_pull_device env depth os_dev = some run := by
  intro depth hle
  induction depth, hle using Nat.le_induction with
  | base => exact h
  | succ k _ ihk => exact pull_mono env k os_dev run ihk

/-- C15: `grub_util_pull_device` terminates on every device path whose
layering is well-founded (the path is accessible for the relation "is pulled
by one unwinding step of", whose children are the device-mapper children, the
RAID members and the geom consumers): from some depth on every run finishes,
with one and the same outcome; and every nested call of a finished run is made
on a device below the path in that relation, the direct calls on its children. -/
theorem pull_device_terminates (env : PullEnv) (os_dev : List Nat)
    (hwf : Acc (PulledBy env) os_dev) :
    (∃ n run, ∀ depth, n ≤ depth → grub_util_pull_device env depth os_dev = some run) ∧
    (∀ depth run d, grub_util_pull_device env depth os_dev = some run →
      PullEvent.recurse d ∈ run.events → Relation.TransGen (PulledBy env) d os_dev) := by
  refine ⟨?_, fun depth run d h hd => pull_recurse_on_descendants env depth os_dev d run h hd⟩
  obtain ⟨n, hn⟩ := pull_terminates_of_acc env os_dev hwf
  obtain ⟨run, hrun⟩ := hn n (le_refl n)
  exact ⟨n, run, pull_mono_le env os_dev run n hrun⟩

/-- C16: for every device path that `grub_util_get_dev_abstraction` classifies
as NONE, a run of `grub_util_pull_device` is exactly one registration probe of
that same path: no nested call, no naming call and no crypto mount, and no
fatal error; this holds in particular with the Linux classification. -/
theorem pull_device_none (env : PullEnv) (os_dev : List Nat) (depth : Nat)
    (hnone : env.abstraction os_dev = .NONE) :
    grub_util_pull_device env (depth + 1) os_dev
      = some { events := [.probe os_dev], aborted := false } ∧
    (∀ cenv : ClassifyEnv, grub_util_get_dev_abstraction cenv os_dev = .NONE →
      grub_util_pull_device { env with abstraction := grub_util_get_dev_abstraction cenv }
          (depth + 1) os_dev
        = some { events := [.probe os_dev], aborted := false }) := by
  constructor
  · rw [grub_util_pull_device]
    simp only [hnone]
  · intro cenv hc
    rw [grub_util_pull_device]
    simp only [hc]


/-- Witness of C16: the plain partition /dev/sda1 of the layered host. -/
theorem pull_device_none_witness :
    layeredEnv.abstraction (bytes "/dev/sda1") = .NONE ∧
      grub_util_pull_device layeredEnv 1 (bytes "/dev/sda1")
        = some { events := [.probe (bytes "/dev/sda1")], aborted := false } :=
  ⟨by decide, (pull_device_none layeredEnv (bytes "/dev/sda1") 0 (by decide)).1⟩

theorem layered_acc_of_no_subdevice (d : List Nat) (h : subdevices layeredEnv d = []) :
    Acc (PulledBy layeredEnv) d :=
  Acc.intro d (fun y hy => by
    unfold PulledBy at hy
    rw [h] at hy
    exact absurd hy (List.not_mem_nil y))

theorem layered_acc_md0 : Acc (PulledBy layeredEnv) (bytes "/dev/md0") :=
  Acc.intro _ (fun y hy => by
    have hs : subdevices layeredEnv (bytes "/dev/md0") = [bytes "/dev/sda1", bytes "/dev/sdb1"] := by
      decide
    unfold PulledBy at hy
    rw [hs] at hy
    rcases List.mem_cons.mp hy with rfl | hy
    · exact layered_acc_of_no_subdevice _ (by decide)
    · rcases List.mem_cons.mp hy with rfl | hy
      · exact layered_acc_of_no_subdevice _ (by decide)
      · exact absurd hy (List.not_mem_nil y))

theorem layered_acc_vg : Acc (PulledBy layeredEnv) (bytes "/dev/mapper/vg-crypt") :=
  Acc.intro _ (fun y hy => by
    have hs : subdevices layeredEnv (bytes "/dev/mapper/vg-crypt") = [bytes "/dev/md0"] := by
      decide
    unfold PulledBy at hy
    rw [hs] at hy
    rcases List.mem_cons.mp hy with rfl | hy
    · exact layered_acc_md0
    · exact absurd hy (List.not_mem_nil y))

theorem layered_acc_root : Acc (PulledBy layeredEnv) (bytes "/dev/mapper/root") :=
  Acc.intro _ (fun y hy => by
    have hs : subdevices layeredEnv (bytes "/dev/mapper/root") = [bytes "/dev/mapper/vg-crypt"] := by
      decide
    unfold PulledBy at hy
    rw [hs] at hy
    rcases List.mem_cons.mp hy with rfl | hy
    · exact layered_acc_vg
    · exact absurd hy (List.not_mem_nil y))

/-- Witness of C15: the LUKS volume on LVM on RAID of the layered host. -/
theorem pull_device_terminates_witness :
    Acc (PulledBy layeredEnv) (bytes "/dev/mapper/root") ∧
      (∃ n run, ∀ depth, n ≤ depth →
        grub_util_pull_device layeredEnv depth (bytes "/dev/mapper/root") = some run) ∧
      grub_util_pull_device layeredEnv 3 (bytes "/dev/mapper/root") = none ∧
      (grub_util_pull_device layeredEnv 4 (bytes "/dev/mapper/root")).isSome = true :=
  ⟨layered_acc_root,
    (pull_device_terminates layeredEnv (bytes "/dev/mapper/root") layered_acc_root).1,
    by decide, by decide⟩


/-! ## `grub_make_system_path_relative_to_its_root` -/

theorem strrchr_lt (c : Nat) : ∀ (s : List Nat) (i : Nat), strrchr s c = some i → i < s.length := by
  intro s
  induction s with
  | nil => intro i h; simp [strrchr] at h
  | cons x xs ih =>
    intro i h
    rw [strrchr] at h
    cases hk : strrchr xs c with
    | some k =>
      rw [hk] at h
      simp only [Option.some.injEq] at h
      have := ih k hk
      simp only [List.length_cons]
      omega
    | none =>
      rw [hk] at h
      simp only at h
      by_cases hx : x = c
      · rw [if_pos hx] at h
        simp only [Option.some.injEq] at h
        simp only [List.length_cons]
        omega
      · rw [if_neg hx] at h
        simp at h

theorem strrchr_of_head (c : Nat) (s : List Nat) (h : s.head? = some c) :
    ∃ i, strrchr s c = some i := by
  cases s with
  | nil => simp at h
  | cons x xs =>
    simp only [List.head?_cons, Option.some.injEq] at h
    rw [strrchr]
    cases hk : strrchr xs c with
    | some k => exact ⟨k + 1, rfl⟩
    | none => exact ⟨0, by simp [h]⟩

theorem head_take_of_pos (s : List Nat) (i : Nat) (hi : i ≠ 0) (h : s.head? = some 47) :
    (s.take i).head? = some 47 := by
  cases s with
  | nil => simp at h
  | cons x xs =>
    cases i with
    | zero => exact absurd rfl hi
    | succ j => simpa using h

theorem rootLoop_finishes (st_dev : List Nat → Option Nat) (num : Nat) :
    ∀ (steps : Nat) (buf : List Nat) (offset : Nat), buf.length < steps →
      rootLoop st_dev num steps buf offset ≠ .unfinished := by
  intro steps
  induction steps with
  | zero => intro buf offset h; omega
  | succ steps ih =>
    intro buf offset hlen
    rw [rootLoop]
    cases hs : strrchr buf 47 with
    | none => simp
    | some i =>
      have hi := strrchr_lt 47 buf i hs
      simp only
      by_cases hi0 : i = 0
      · subst hi0
        simp only [ne_eq, not_true_eq_false, if_false]
        cases st_dev (buf.take 1) with
        | none => simp
        | some dev =>
          simp only
          by_cases hd : dev ≠ num
          · rw [if_pos hd]
            by_cases ho : offset = 0 <;> simp [ho]
          · rw [if_neg hd]
            simp
      · simp only [ne_eq, hi0, not_false_eq_true, if_true]
        cases st_dev (buf.take i) with
        | none => simp
        | some dev =>
          simp only
          by_cases hd : dev ≠ num
          · rw [if_pos hd]
            by_cases ho : offset = 0 <;> simp [ho]
          · rw [if_neg hd]
            by_cases h1 : i = 1
            · rw [if_pos h1]
              simp
            · rw [if_neg h1]
              apply ih
              rw [List.length_take]
              omega

theorem rootLoop_single_fs (st_dev : List Nat → Option Nat) (num : Nat)
    (hall : ∀ d, st_dev d = some num) :
    ∀ (steps : Nat) (buf : List Nat) (offset : Nat), buf.head? = some 47 → buf.length < steps →
      rootLoop st_dev num steps buf offset = .found 0 := by
  intro steps
  induction steps with
  | zero => intro buf offset _ h; omega
  | succ steps ih =>
    intro buf offset hhead hlen
    rw [rootLoop]
    obtain ⟨i, hs⟩ := strrchr_of_head 47 buf hhead
    have hi := strrchr_lt 47 buf i hs
    rw [hs]
    simp only [hall]
    by_cases hi0 : i = 0
    · simp [hi0]
    · simp only [ne_eq, hi0, not_false_eq_true, if_true, not_true_eq_false, if_false]
      by_cases h1 : i = 1
      · rw [if_pos h1]
      · rw [if_neg h1]
        apply ih _ _ (head_take_of_pos buf i hi0 hhead)
        rw [List.length_take]
        omega

theorem strip_getLast (s : List Nat) : (stripTrailingSlashes s).getLast? ≠ some 47 := by
  unfold stripTrailingSlashes
  rw [List.getLast?_reverse]
  intro h
  have hmem := List.head?_dropWhile_not (fun c => c == 47) s.reverse
  rw [h] at hmem
  simp at hmem

theorem strip_of_no_trailing (s : List Nat) (h : s.getLast? ≠ some 47) :
    stripTrailingSlashes s = s := by
  unfold stripTrailingSlashes
  have : s.reverse.dropWhile (fun c => c == 47) = s.reverse := by
    cases hr : s.reverse with
    | nil => rfl
    | cons x xs =>
      have hx : s.getLast? = some x := by
        rw [← List.head?_reverse, hr]
        rfl
      have hne : x ≠ 47 := fun e => h (by rw [hx, e])
      simp [List.dropWhile_cons, hne]
  rw [this, List.reverse_reverse]


theorem pool_root_getLast (fs : List Nat) :
    (bytes "/" ++ fs ++ bytes "/@").getLast? ≠ some 47 := by
  have : bytes "/@" = [47] ++ [64] := by decide
  rw [this, ← List.append_assoc, List.getLast?_append]
  simp

theorem parsedir_getLast (poolfs : Option (List Nat)) (b : List Nat) :
    (parsedir poolfs b).getLast? ≠ some 47 := by
  cases poolfs with
  | none => exact strip_getLast b
  | some fs =>
    unfold parsedir
    simp only
    cases hs : stripTrailingSlashes b with
    | nil =>
      rw [List.append_nil]
      exact pool_root_getLast fs
    | cons x xs =>
      rw [← hs, List.getLast?_append]
      have h1 := strip_getLast b
      cases hl : (stripTrailingSlashes b).getLast? with
      | none =>
        rw [hs] at hl
        simp at hl
      | some y =>
        rw [hl] at h1
        simpa using h1

theorem relative_path_cases (env : PathEnv) (path s : List Nat)
    (h : grub_make_system_path_relative_to_its_root env path = .returns s) :
    s = [] ∨ (∃ fs, s = bytes "/" ++ fs ++ bytes "/@") ∨ ∃ poolfs b, s = parsedir poolfs b := by
  unfold grub_make_system_path_relative_to_its_root at h
  cases hc : env.canonicalize path with
  | none => rw [hc] at h; simp at h
  | some p =>
    rw [hc] at h
    simp only at h
    cases hst : env.st_dev p with
    | none => rw [hst] at h; simp at h
    | some num =>
      rw [hst] at h
      simp only at h
      cases hl : rootLoop env.st_dev num (p.length + 1) p 0 with
      | error => rw [hl] at h; simp at h
      | unfinished => rw [hl] at h; simp at h
      | mountPoint =>
        rw [hl] at h
        simp only at h
        by_cases hb : (env.linux && bindUsable (bindOf env p)) = true
        · rw [if_pos hb] at h
          exact Or.inr (Or.inr ⟨_, _, (Outcome.returns.inj h).symm⟩)
        · rw [if_neg hb] at h
          cases hp : (grub_find_zpool_from_dir (env.zfs_mount p)).2 with
          | none =>
            rw [hp] at h
            exact Or.inl (Outcome.returns.inj h).symm
          | some fs =>
            rw [hp] at h
            exact Or.inr (Or.inl ⟨fs, (Outcome.returns.inj h).symm⟩)
      | found offset =>
        rw [hl] at h
        exact Or.inr (Or.inr ⟨_, _, (Outcome.returns.inj h).symm⟩)

theorem rootLoop_total (st_dev : List Nat → Option Nat) (num : Nat)
    (hall : ∀ d, ∃ n, st_dev d = some n) :
    ∀ (steps : Nat) (buf : List Nat) (offset : Nat), buf.head? = some 47 → buf.length < steps →
      rootLoop st_dev num steps buf offset = .mountPoint ∨
        ∃ o, rootLoop st_dev num steps buf offset = .found o := by
  intro steps
  induction steps with
  | zero => intro buf offset _ h; omega
  | succ steps ih =>
    intro buf offset hhead hlen
    rw [rootLoop]
    obtain ⟨i, hs⟩ := strrchr_of_head 47 buf hhead
    have hi := strrchr_lt 47 buf i hs
    rw [hs]
    simp only
    obtain ⟨dev, hdev⟩ := hall (if i ≠ 0 then buf.take i else buf.take 1)
    rw [hdev]
    simp only
    by_cases hd : dev ≠ num
    · rw [if_pos hd]
      by_cases ho : offset = 0
      · left; rw [if_pos ho]
      · right; exact ⟨offset, by rw [if_neg ho]⟩
    · rw [if_neg hd]
      by_cases h1 : (if i ≠ 0 then i else 1) = 1
      · right; exact ⟨0, by rw [if_pos h1]⟩
      · rw [if_neg h1]
        have hi0 : i ≠ 0 := by
          intro h0
          apply h1
          simp [h0]
        simp only [ne_eq, hi0, not_false_eq_true, if_true]
        apply ih _ _ (head_take_of_pos buf i hi0 hhead)
        rw [List.length_take]
        omega


/-- C19: on a single-filesystem machine (`stat` reports the same device for
every directory, the root mount is not a bind of a sub-directory, the path is
on no pool filesystem) the function returns the empty string for `/` and, for
every other canonical absolute path, that path itself. -/
theorem single_filesystem_relative_path (env : PathEnv) (path : List Nat) (dev : Nat)
    (hcanon : env.canonicalize path = some path) (habs : CanonicalAbsolute path)
    (hdev : ∀ d, env.st_dev d = some dev)
    (hbind : (env.linux && bindUsable (bindOf env [])) = false)
    (hpool : env.zfs_mount path = none) :
    (path = bytes "/" →
      grub_make_system_path_relative_to_its_root env path = .returns []) ∧
    (path ≠ bytes "/" →
      grub_make_system_path_relative_to_its_root env path = .returns path) := by
  have hloop : rootLoop env.st_dev dev (path.length + 1) path 0 = .found 0 :=
    rootLoop_single_fs env.st_dev dev hdev _ path 0 habs.1 (Nat.lt_succ_self _)
  have hres : grub_make_system_path_relative_to_its_root env path =
      .returns (stripTrailingSlashes path) := by
    unfold grub_make_system_path_relative_to_its_root
    rw [hcanon]
    simp only [hdev, hloop, hpool, grub_find_zpool_from_dir, List.take_zero, List.drop_zero,
      hbind, parsedir]
    simp
  have hroot : bytes "/" = [47] := by decide
  constructor
  · intro hp
    rw [hres, hp]
    congr 1
  · intro hp
    rw [hres]
    congr 1
    apply strip_of_no_trailing
    rcases habs.2 with h | h
    · exact absurd (h.trans hroot.symm) hp
    · exact h

/-- Witness of C19: /usr/lib on the machine with the single filesystem. -/
theorem single_filesystem_relative_path_witness :
    CanonicalAbsolute (bytes "/usr/lib") ∧
      grub_make_system_path_relative_to_its_root singleFsEnv (bytes "/") = .returns [] ∧
      grub_make_system_path_relative_to_its_root singleFsEnv (bytes "/usr/lib")
        = .returns (bytes "/usr/lib") :=
  ⟨by decide,
    (single_filesystem_relative_path singleFsEnv (bytes "/") 2049 rfl (by decide)
      (fun _ => rfl) (by decide) rfl).1 rfl,
    (single_filesystem_relative_path singleFsEnv (bytes "/usr/lib") 2049 rfl (by decide)
      (fun _ => rfl) (by decide) rfl).2 (by decide)⟩

/-- C20: for every path and every assignment of device numbers to
directories, a string that the function returns never ends with a slash; the
loop always ends within its bound, and the function does return when the
canonical path is absolute and every `stat` succeeds; when the path is itself
a mount root (its parent directory reports another device number, there is no
bind sub-root and no pool filesystem) the result is the empty string. -/
theorem relative_path_no_trailing_slash (env : PathEnv) (path : List Nat) :
    (∀ s, grub_make_system_path_relative_to_its_root env path = .returns s →
      s.getLast? ≠ some 47) ∧
    grub_make_system_path_relative_to_its_root env path ≠ .unfinished ∧
    (∀ p, env.canonicalize path = some p → p.head? = some 47 →
      (∀ d, ∃ n, env.st_dev d = some n) →
      ∃ s, grub_make_system_path_relative_to_its_root env path = .returns s) ∧
    (∀ p i num parentDev, env.canonicalize path = some p → strrchr p 47 = some i →
      env.st_dev p = some num →
      env.st_dev (if i ≠ 0 then p.take i else p.take 1) = some parentDev →
      parentDev ≠ num →
      (env.linux && bindUsable (bindOf env p)) = false →
      env.zfs_mount p = none →
      grub_make_system_path_relative_to_its_root env path = .returns []) := by
  refine ⟨?_, ?_, ?_, ?_⟩
  · intro s h
    rcases relative_path_cases env path s h with rfl | ⟨fs, rfl⟩ | ⟨poolfs, b, rfl⟩
    · simp
    · exact pool_root_getLast fs
    · exact parsedir_getLast poolfs b
  · unfold grub_make_system_path_relative_to_its_root
    cases hc : env.canonicalize path with
    | none => simp
    | some p =>
      simp only
      cases hst : env.st_dev p with
      | none => simp
      | some num =>
        simp only
        have hfin := rootLoop_finishes env.st_dev num (p.length + 1) p 0 (Nat.lt_succ_self _)
        cases hl : rootLoop env.st_dev num (p.length + 1) p 0 with
        | error => simp
        | unfinished => exact absurd hl hfin
        | mountPoint =>
          simp only
          split
          · simp
          · split <;> simp
        | found offset => simp
  · intro p hc hhead hall
    obtain ⟨num, hst⟩ := hall p
    unfold grub_make_system_path_relative_to_its_root
    rw [hc]
    simp only [hst]
    rcases rootLoop_total env.st_dev num hall (p.length + 1) p 0 hhead (Nat.lt_succ_self _)
      with hl | ⟨o, hl⟩
    · rw [hl]
      simp only
      split
      · exact ⟨_, rfl⟩
      · split <;> exact ⟨_, rfl⟩
    · rw [hl]
      exact ⟨_, rfl⟩
  · intro p i num parentDev hc hs hst hparent hne hbind hpool
    have hl : rootLoop env.st_dev num (p.length + 1) p 0 = .mountPoint := by
      rw [rootLoop, hs]
      simp only [hparent, hne, ne_eq, not_false_eq_true, if_true]
    unfold grub_make_system_path_relative_to_its_root
    rw [hc]
    simp only [hst, hl, hbind, hpool, grub_find_zpool_from_dir]
    simp

/-- Witness of C20: /boot is the root of its own filesystem. -/
theorem relative_path_no_trailing_slash_witness :
    strrchr (bytes "/boot") 47 = some 0 ∧
      bootFsEnv.st_dev (bytes "/boot") = some 2050 ∧
      bootFsEnv.st_dev (bytes "/") = some 2049 ∧
      grub_make_system_path_relative_to_its_root bootFsEnv (bytes "/boot") = .returns [] :=
  ⟨by decide, by decide, by decide,
    (relative_path_no_trailing_slash bootFsEnv (bytes "/boot")).2.2.2 (bytes "/boot") 0 2050 2049
      rfl (by decide) (by decide) (by decide) (by decide) (by decide) rfl⟩

/-! ## Pool resolution -/

theorem lit_mirror : bytes "mirror" = [109, 105, 114, 114, 111, 114] := by decide

theorem lit_mirror_dash : bytes "mirror-" = [109, 105, 114, 114, 111, 114, 45] := by decide

theorem lit_raidz : bytes "raidz" = [114, 97, 105, 100, 122] := by decide

theorem lit_raidz1 : bytes "raidz1" = [114, 97, 105, 100, 122] ++ [49] := by decide

theorem lit_raidz2 : bytes "raidz2" = [114, 97, 105, 100, 122] ++ [50] := by decide

theorem lit_raidz3 : bytes "raidz3" = [114, 97, 105, 100, 122] ++ [51] := by decide

theorem scanString_no_space (w : Option Nat) (s stored rest : List Nat)
    (h : scanString w s = some (stored, rest)) :
    stored ≠ [] ∧ ∀ c ∈ stored, isSpace c = false := by
  unfold scanString at h
  simp only at h
  split at h
  · cases h
  · rename_i hne
    simp only [Option.some.injEq, Prod.mk.injEq] at h
    obtain ⟨h1, -⟩ := h
    subst h1
    refine ⟨hne, fun c hc => ?_⟩
    have hrun : c ∈ (s.dropWhile isSpace).takeWhile (fun c => !isSpace c) := by
      cases w with
      | none => exact hc
      | some w => exact List.mem_of_mem_take hc
    have := List.mem_takeWhile_imp hrun
    simpa using this

theorem scanStrings_no_space (ws : List (Option Nat)) (s : List Nat) :
    ∀ f ∈ scanStrings ws s, f ≠ [] ∧ ∀ c ∈ f, isSpace c = false := by
  induction ws generalizing s with
  | nil => intro f hf; simp [scanStrings] at hf
  | cons w ws ih =>
    intro f hf
    unfold scanStrings at hf
    cases hs : scanString w s with
    | none => rw [hs] at hf; simp at hf
    | some pr =>
      obtain ⟨stored, rest⟩ := pr
      rw [hs] at hf
      simp only [List.mem_cons] at hf
      rcases hf with rfl | hf
      · exact scanString_no_space w s _ rest hs
      · exact ih rest f hf

theorem scanUnsigned_eq_zero (s : List Nat) (hs : ∀ c ∈ s, isSpace c = false) :
    scanUnsigned s = 0 ↔ s ≠ [] ∧ startsWithNumber s = false := by
  cases s with
  | nil => simp [scanUnsigned]
  | cons c rest =>
    have hc : isSpace c = false := hs c (List.mem_cons_self _ _)
    unfold scanUnsigned
    rw [List.dropWhile_cons_of_neg (by simp [hc])]
    simp only [startsWithNumber]
    by_cases hd : isDecimalDigit c = true
    · simp [hd]
    · simp only [hd, if_false, Bool.false_or]
      by_cases hsign : c = 43 ∨ c = 45
      · cases rest with
        | nil => simp [hsign]
        | cons d rest2 =>
          by_cases hd2 : isDecimalDigit d = true
          · rcases hsign with h | h <;> simp [h, hd2]
          · rcases hsign with h | h <;> simp [h, hd2]
      · have h1 : ¬ c = 43 := fun h => hsign (Or.inl h)
        have h2 : ¬ c = 45 := fun h => hsign (Or.inr h)
        simp [h1, h2]

theorem sscanf_eq_zero (lit name : List Nat) (hs : ∀ c ∈ name, isSpace c = false) :
    sscanfLitUnsigned lit name = 0 ↔
      name.isPrefixOf lit = false ∧
        (lit.isPrefixOf name && startsWithNumber (name.drop lit.length)) = false := by
  induction lit generalizing name with
  | nil =>
    unfold sscanfLitUnsigned
    rw [scanUnsigned_eq_zero name hs]
    cases name <;> simp [List.isPrefixOf]
  | cons l ls ih =>
    cases name with
    | nil => simp [sscanfLitUnsigned, List.isPrefixOf]
    | cons c cs =>
      unfold sscanfLitUnsigned
      by_cases hlc : l = c
      · subst hlc
        have := ih cs (fun x hx => hs x (List.mem_cons_of_mem _ hx))
        simpa [List.isPrefixOf] using this
      · have hcl : ¬ c = l := fun h => hlc h.symm
        simp [hlc, hcl, List.isPrefixOf]

theorem sscanf_digit_suffix (lit name : List Nat) (d : Nat) (hd : isDecimalDigit d = true)
    (h : sscanfLitUnsigned lit name = 0) : sscanfLitUnsigned (lit ++ [d]) name = 0 := by
  induction lit generalizing name with
  | nil =>
    cases name with
    | nil => simp [sscanfLitUnsigned, scanUnsigned] at h
    | cons c cs =>
      simp only [List.nil_append, sscanfLitUnsigned]
      by_cases hdc : d = c
      · subst hdc
        exfalso
        have hsp : isSpace d = false := by
          simp only [isDecimalDigit, Bool.and_eq_true, decide_eq_true_eq] at hd
          simp only [isSpace, Bool.or_eq_false_iff, Bool.and_eq_false_iff, beq_eq_false_iff_ne,
            decide_eq_false_iff_not]
          omega
        unfold sscanfLitUnsigned scanUnsigned at h
        rw [List.dropWhile_cons_of_neg (by simp [hsp])] at h
        simp [hd] at h
      · simp [hdc]
  | cons l ls ih =>
    cases name with
    | nil => simp [sscanfLitUnsigned] at h
    | cons c cs =>
      simp only [List.cons_append, sscanfLitUnsigned] at h ⊢
      by_cases hlc : l = c
      · simp only [hlc, if_true] at h ⊢
        exact ih cs h
      · simp [hlc]


theorem collectsRow_eq_spec (name state : List Nat) (hs : ∀ c ∈ name, isSpace c = false)
    (hin : endsInsideLabel name = false) :
    collectsRow name state = (state == bytes "ONLINE" && !isGroupLabelSpec name) := by
  have h1 := sscanf_eq_zero (bytes "mirror-") name hs
  have h2 := sscanf_eq_zero (bytes "raidz") name hs
  have hl1 : (bytes "mirror-").length = 7 := by decide
  have hl2 : (bytes "raidz").length = 5 := by decide
  rw [hl1] at h1
  rw [hl2] at h2
  simp only [endsInsideLabel, Bool.or_eq_false_iff, Bool.and_eq_false_iff] at hin
  obtain ⟨hin1, hin2⟩ := hin
  by_cases hm : name = bytes "mirror"
  · subst hm
    simp [collectsRow, strcmpZero, isGroupLabelSpec]
  · have hp1 : name.isPrefixOf (bytes "mirror-") = false := by
      rcases hin1 with h | h
      · exact h
      · simp [hm] at h
    simp only [hp1, hin2, true_and] at h1 h2
    have hmb : (name == bytes "mirror") = false := by simpa using hm
    by_cases hB : sscanfLitUnsigned (bytes "raidz") name = 0
    · have hC1 : sscanfLitUnsigned (bytes "raidz1") name = 0 := by
        rw [lit_raidz1, ← lit_raidz]
        exact sscanf_digit_suffix _ name 49 (by decide) hB
      have hC2 : sscanfLitUnsigned (bytes "raidz2") name = 0 := by
        rw [lit_raidz2, ← lit_raidz]
        exact sscanf_digit_suffix _ name 50 (by decide) hB
      have hC3 : sscanfLitUnsigned (bytes "raidz3") name = 0 := by
        rw [lit_raidz3, ← lit_raidz]
        exact sscanf_digit_suffix _ name 51 (by decide) hB
      have hB2 := h2.mp hB
      by_cases hA : sscanfLitUnsigned (bytes "mirror-") name = 0
      · have hA2 := h1.mp hA
        simp only [collectsRow, strcmpZero, isGroupLabelSpec, hmb, hA, hB, hC1, hC2, hC3, hA2,
          hB2]
        cases (state == bytes "ONLINE") <;> rfl
      · have hA2 : ((bytes "mirror-").isPrefixOf name
            && startsWithNumber (List.drop 7 name)) = true := by
          cases hx : ((bytes "mirror-").isPrefixOf name && startsWithNumber (List.drop 7 name))
          · exact absurd (h1.mpr hx) hA
          · rfl
        have hA3 : (sscanfLitUnsigned (bytes "mirror-") name == 0) = false := by
          simpa using hA
        simp only [collectsRow, strcmpZero, isGroupLabelSpec, hmb, hA3, hA2]
        cases (state == bytes "ONLINE") <;> rfl
    · have hB2 : ((bytes "raidz").isPrefixOf name
          && startsWithNumber (List.drop 5 name)) = true := by
        cases hx : ((bytes "raidz").isPrefixOf name && startsWithNumber (List.drop 5 name))
        · exact absurd (h2.mpr hx) hB
        · rfl
      have hB3 : (sscanfLitUnsigned (bytes "raidz") name == 0) = false := by
        simpa using hB
      simp only [collectsRow, strcmpZero, isGroupLabelSpec, hmb, hB3, hB2]
      cases (state == bytes "ONLINE") <;>
        cases (sscanfLitUnsigned (bytes "mirror-") name == 0) <;>
        cases ((bytes "mirror-").isPrefixOf name && startsWithNumber (List.drop 7 name)) <;> rfl

theorem statusSwitch_short (poolname : List Nat) (acc : PoolScan) (r : List (List Nat))
    (h : ¬ 5 ≤ r.length) : statusSwitch poolname acc r = acc := by
  rcases r with _ | ⟨a, _ | ⟨b, _ | ⟨c, _ | ⟨d, _ | ⟨e, r⟩⟩⟩⟩⟩
  · rfl
  · rfl
  · rfl
  · rfl
  · rfl
  · simp at h

theorem foldl_poolStep_rows (poolname : List Nat) (output : List (List Nat)) (acc : PoolScan) :
    output.foldl (poolStep poolname) acc =
      (statusRows output).foldl (statusSwitch poolname) acc := by
  induction output generalizing acc with
  | nil => rfl
  | cons l ls ih =>
    simp only [List.foldl_cons, statusRows, List.map_cons, List.filter_cons]
    by_cases h : 5 ≤ (scanStatusLine l).length
    · simp only [h, decide_True, if_true, List.foldl_cons]
      rw [ih]
      rfl
    · simp only [h, decide_False, if_false]
      rw [ih, poolStep, statusSwitch_short poolname acc _ h]
      rfl


theorem foldl_switch_two (poolname : List Nat) (rows : List (List (List Nat)))
    (hrows : ∀ r ∈ rows, 5 ≤ r.length) (d : List (List Nat)) :
    rows.foldl (statusSwitch poolname) { st := 2, devices := d } =
      { st := 2, devices := d ++ collectedRows rows } := by
  induction rows generalizing d with
  | nil => simp [collectedRows]
  | cons r rs ih =>
    have hr := hrows r (List.mem_cons_self _ _)
    have hrs : ∀ x ∈ rs, 5 ≤ x.length := fun x hx => hrows x (List.mem_cons_of_mem _ hx)
    rcases r with _ | ⟨a, _ | ⟨b, _ | ⟨c, _ | ⟨e, _ | ⟨f, r⟩⟩⟩⟩⟩
    · simp at hr
    · simp at hr
    · simp at hr
    · simp at hr
    · simp at hr
    · simp only [List.foldl_cons, statusSwitch]
      by_cases hc : collectsRow a b = true
      · simp only [hc, if_true]
        rw [ih hrs]
        simp [collectedRows, List.filter_cons, rowName, rowState, hc]
      · simp only [hc, Bool.false_eq_true, if_false]
        rw [ih hrs]
        simp [collectedRows, List.filter_cons, rowName, rowState, hc]

theorem foldl_switch_one (poolname : List Nat) (rows : List (List (List Nat)))
    (hrows : ∀ r ∈ rows, 5 ≤ r.length) (d : List (List Nat)) :
    (rows.foldl (statusSwitch poolname) { st := 1, devices := d }).devices =
      d ++ collectedRows ((rows.dropWhile (fun r => !(rowName r == poolname))).drop 1) := by
  induction rows generalizing d with
  | nil => simp [collectedRows]
  | cons r rs ih =>
    have hr := hrows r (List.mem_cons_self _ _)
    have hrs : ∀ x ∈ rs, 5 ≤ x.length := fun x hx => hrows x (List.mem_cons_of_mem _ hx)
    rcases r with _ | ⟨a, _ | ⟨b, _ | ⟨c, _ | ⟨e, _ | ⟨f, r⟩⟩⟩⟩⟩
    · simp at hr
    · simp at hr
    · simp at hr
    · simp at hr
    · simp at hr
    · simp only [List.foldl_cons, statusSwitch, strcmpZero]
      by_cases hc : (a == poolname) = true
      · simp only [hc, if_true]
        rw [foldl_switch_two poolname rs hrs d]
        simp [List.dropWhile_cons, rowName, hc]
      · simp only [hc, Bool.false_eq_true, if_false]
        rw [ih hrs]
        simp [List.dropWhile_cons, rowName, hc]

theorem foldl_switch_zero (poolname : List Nat) (rows : List (List (List Nat)))
    (hrows : ∀ r ∈ rows, 5 ≤ r.length) (d : List (List Nat)) :
    (rows.foldl (statusSwitch poolname) { st := 0, devices := d }).devices =
      d ++ collectedRows (rowsAfterPoolSpec poolname rows) := by
  induction rows generalizing d with
  | nil => simp [collectedRows, rowsAfterPoolSpec]
  | cons r rs ih =>
    have hr := hrows r (List.mem_cons_self _ _)
    have hrs : ∀ x ∈ rs, 5 ≤ x.length := fun x hx => hrows x (List.mem_cons_of_mem _ hx)
    rcases r with _ | ⟨a, _ | ⟨b, _ | ⟨c, _ | ⟨e, _ | ⟨f, r⟩⟩⟩⟩⟩
    · simp at hr
    · simp at hr
    · simp at hr
    · simp at hr
    · simp at hr
    · simp only [List.foldl_cons, statusSwitch, strcmpZero]
      by_cases hc : (a == bytes "NAME" && b == bytes "STATE" && c == bytes "READ"
          && e == bytes "WRITE" && f == bytes "CKSUM") = true
      · have hh : isHeaderRowSpec (a :: b :: c :: e :: f :: r) = true := by
          simp only [Bool.and_eq_true, beq_iff_eq] at hc
          obtain ⟨⟨⟨⟨h1, h2⟩, h3⟩, h4⟩, h5⟩ := hc
          simp [isHeaderRowSpec, h1, h2, h3, h4, h5]
        simp only [hc, if_true]
        rw [foldl_switch_one poolname rs hrs d]
        simp [rowsAfterPoolSpec, List.dropWhile_cons, hh]
      · have hh : isHeaderRowSpec (a :: b :: c :: e :: f :: r) = false := by
          cases hx : isHeaderRowSpec (a :: b :: c :: e :: f :: r)
          · rfl
          · exfalso
            apply hc
            simp only [isHeaderRowSpec, List.take, beq_iff_eq, List.cons.injEq, and_true] at hx
            obtain ⟨h1, h2, h3, h4, h5⟩ := hx
            simp [h1, h2, h3, h4, h5]
        simp only [hc, Bool.false_eq_true, if_false]
        rw [ih hrs]
        simp [rowsAfterPoolSpec, List.dropWhile_cons, hh]

theorem statusRows_length (output : List (List Nat)) : ∀ r ∈ statusRows output, 5 ≤ r.length := by
  intro r hr
  simp only [statusRows, List.mem_filter, decide_eq_true_eq] at hr
  exact hr.2

theorem statusRows_no_space (output : List (List Nat)) :
    ∀ r ∈ statusRows output, ∀ c ∈ rowName r, isSpace c = false := by
  intro r hr
  have hlen := statusRows_length output r hr
  simp only [statusRows, List.mem_filter, List.mem_map] at hr
  obtain ⟨⟨l, -, hl⟩, -⟩ := hr
  subst hl
  cases hsl : scanStatusLine l with
  | nil => rw [hsl] at hlen; simp at hlen
  | cons a rest =>
    have := scanStrings_no_space _ (cstr l) a (by
      have : a ∈ scanStatusLine l := by rw [hsl]; exact List.mem_cons_self _ _
      exact this)
    exact this.2

theorem rowsAfterPool_subset (poolname : List Nat) (rows : List (List (List Nat))) :
    ∀ r ∈ rowsAfterPoolSpec poolname rows, r ∈ rows := by
  intro r hr
  unfold rowsAfterPoolSpec at hr
  have h1 := List.mem_of_mem_drop hr
  have h2 := (List.dropWhile_sublist _).subset h1
  have h3 := List.mem_of_mem_drop h2
  exact (List.dropWhile_sublist _).subset h3

/-- The status-command strategy on every output: the devices are those that
the test of lines 293-298 keeps among the rows after the header row and the
row of the pool. -/
theorem pool_status_collected (poolname : List Nat) (output : List (List Nat)) :
    find_root_devices_from_poolname (.status output) poolname =
      .returns (if collectedRows (rowsAfterPoolSpec poolname (statusRows output)) = [] then none
        else some (collectedRows (rowsAfterPoolSpec poolname (statusRows output)))) := by
  have h := foldl_switch_zero poolname (statusRows output) (statusRows_length output) []
  rw [← foldl_poolStep_rows] at h
  simp only [List.nil_append] at h
  simp only [find_root_devices_from_poolname, h]

/-- The status-command strategy agrees with the words of the specification on
every output in which no row after the row of the pool has a name that ends
inside the text `mirror-` or `raidz`. -/
theorem pool_status_agrees_with_spec (poolname : List Nat) (output : List (List Nat))
    (h : ∀ r ∈ rowsAfterPoolSpec poolname (statusRows output),
      endsInsideLabel (rowName r) = false) :
    find_root_devices_from_poolname (.status output) poolname =
      .returns (if collectedDevicesSpec poolname output = [] then none
        else some (collectedDevicesSpec poolname output)) := by
  have hc : collectedRows (rowsAfterPoolSpec poolname (statusRows output)) =
      collectedDevicesSpec poolname output := by
    unfold collectedRows collectedDevicesSpec
    congr 1
    apply List.filter_congr
    intro r hr
    exact collectsRow_eq_spec _ _
      (statusRows_no_space output r (rowsAfterPool_subset poolname _ r hr)) (h r hr)
  rw [pool_status_collected, hc]


/-- C17: on the output of `zpool status tank` whose table has, after the header
row and the row of the pool, the row `raid ONLINE 0 0 0`, the loop stores no
device and the function returns NULL, although the state of the row is ONLINE
and `raid` is no group label, so that the specification collects `/dev/raid`:
`sscanf ("raid", "raidz%u", &dummy)` returns EOF (-1), which `!` turns into 0
as it does a successful conversion. -/
theorem pool_status_raid_name :
    find_root_devices_from_poolname (.status raidNameStatus) (bytes "tank") = .returns none
      ∧ collectedDevicesSpec (bytes "tank") raidNameStatus = [bytes "/dev/raid"]
      ∧ isGroupLabelSpec (bytes "raid") = false
      ∧ sscanfLitUnsigned (bytes "raidz") (bytes "raid") = -1 := by
  decide

/-- C18, the claim as worded fails: for the status output of the pool made of
the mirror of sda1 and sdb1 the result is not the list of the bare names
`sda1`, `sdb1`. -/
theorem pool_scenario_bare_names :
    find_root_devices_from_poolname (.status mirrorStatus) (bytes "tank")
      ≠ .returns (some [bytes "sda1", bytes "sdb1"]) := by
  decide

/-- C18, amended: for a pool whose vdev tree is mirror(sda1, sdb1), all members
ONLINE, the status-command strategy returns `/dev/sda1`, `/dev/sdb1`, each name
of the table after `/dev/`, and the library strategy, outside a `__sun__`
build, returns the path strings recorded for the two leaves when `stat`
succeeds on both; neither has an element for the mirror label. -/
theorem pool_scenario_device_paths (env : ZfsEnv) (p1 p2 poolname : List Nat)
    (hh : env.libzfs_handle = true) (ht : env.vdev_tree = some (mirrorTree p1 p2))
    (h1 : env.stat_ok p1 = true) (h2 : env.stat_ok p2 = true) (hs : env.sun = false) :
    find_root_devices_from_poolname (.status mirrorStatus) (bytes "tank")
        = .returns (some [bytes "/dev/sda1", bytes "/dev/sdb1"])
      ∧ find_root_devices_from_poolname (.library env) poolname
        = .returns (some [p1, p2]) := by
  refine ⟨by decide, ?_⟩
  simp [find_root_devices_from_poolname, hh, ht, mirrorTree, vdevLeafRow, zfsCollect,
    Vdev.path, h1, h2, hs, zfsDeviceString]

theorem pool_scenario_device_paths_witness :
    find_root_devices_from_poolname (.status mirrorStatus) (bytes "tank")
        = .returns (some [bytes "/dev/sda1", bytes "/dev/sdb1"])
      ∧ find_root_devices_from_poolname
          (.library
            { libzfs_handle := true
              vdev_tree := some (mirrorTree (bytes "/dev/sda1") (bytes "/dev/sdb1"))
              stat_ok := fun _ => true
              sun := false })
          (bytes "tank")
        = .returns (some [bytes "/dev/sda1", bytes "/dev/sdb1"]) :=
  pool_scenario_device_paths _ (bytes "/dev/sda1") (bytes "/dev/sdb1") (bytes "tank")
    rfl rfl rfl rfl rfl

/-! ## `strip_extra_slashes` -/

theorem getLast?_cons_of_ne_nil (x : Nat) (l : List Nat) (h : l ≠ []) :
    (x :: l).getLast? = l.getLast? := by
  cases l with
  | nil => exact absurd rfl h
  | cons y ys => simp [List.getLast?_cons_cons]

theorem strip_nil (b : Bool) : stripSlashesFrom b [] = [] := rfl

theorem strip_cons_other (b : Bool) (c : Nat) (tl : List Nat) (hc : c ≠ 47) :
    stripSlashesFrom b (c :: tl) = c :: stripSlashesFrom false tl := by
  simp [stripSlashesFrom, hc]

theorem strip_slash_end (b : Bool) : stripSlashesFrom b [47] = if b then [47] else [] := by
  simp [stripSlashesFrom]

theorem strip_slash_slash (b : Bool) (rest : List Nat) :
    stripSlashesFrom b (47 :: 47 :: rest) = stripSlashesFrom b (47 :: rest) := by
  simp [stripSlashesFrom]

theorem strip_slash_other (b : Bool) (d : Nat) (rest : List Nat) (hd : d ≠ 47) :
    stripSlashesFrom b (47 :: d :: rest) = 47 :: d :: stripSlashesFrom false rest := by
  rw [stripSlashesFrom]
  simp only [if_true, hd, if_false]
  rw [strip_cons_other false d rest hd]

theorem strip_head (b : Bool) (s : List Nat) (x : Nat)
    (h : (stripSlashesFrom b s).head? = some x) : s.head? = some x := by
  induction s with
  | nil => simp [strip_nil] at h
  | cons c tl ih =>
    by_cases hc : c = 47
    · subst hc
      cases tl with
      | nil =>
        rw [strip_slash_end] at h
        cases b <;> simp at h
        simpa using h
      | cons d rest =>
        by_cases hd : d = 47
        · subst hd
          rw [strip_slash_slash] at h
          have := ih h
          simpa using this
        · rw [strip_slash_other b d rest hd] at h
          simpa using h
    · rw [strip_cons_other b c tl hc] at h
      simpa using h

theorem strip_noDouble (b : Bool) (s : List Nat) : NoDoubleSlash (stripSlashesFrom b s) := by
  induction s generalizing b with
  | nil => simp [strip_nil, NoDoubleSlash]
  | cons c tl ih =>
    by_cases hc : c = 47
    · subst hc
      cases tl with
      | nil =>
        rw [strip_slash_end]
        cases b <;> simp [NoDoubleSlash]
      | cons d rest =>
        by_cases hd : d = 47
        · subst hd
          rw [strip_slash_slash]
          exact ih b
        · have h2 := ih false
          rw [strip_cons_other false d rest hd] at h2
          rw [strip_slash_other b d rest hd]
          exact List.Chain'.cons (fun h => hd h.2) h2
    · rw [strip_cons_other b c tl hc]
      exact List.Chain'.cons' (ih false) (fun y _ h => hc h.1)

theorem strip_last (b : Bool) (s : List Nat)
    (h : (stripSlashesFrom b s).getLast? = some 47) :
    b = true ∧ stripSlashesFrom b s = [47] := by
  induction s generalizing b with
  | nil => simp [strip_nil] at h
  | cons c tl ih =>
    by_cases hc : c = 47
    · subst hc
      cases tl with
      | nil =>
        rw [strip_slash_end] at h ⊢
        cases b <;> simp at h ⊢
      | cons d rest =>
        by_cases hd : d = 47
        · subst hd
          rw [strip_slash_slash] at h ⊢
          exact ih b h
        · exfalso
          have h2 : stripSlashesFrom b (47 :: d :: rest) = 47 :: stripSlashesFrom false (d :: rest) := by
            rw [strip_slash_other b d rest hd, strip_cons_other false d rest hd]
          have hne : stripSlashesFrom false (d :: rest) ≠ [] := by
            rw [strip_cons_other false d rest hd]; simp
          rw [h2, getLast?_cons_of_ne_nil _ _ hne] at h
          exact absurd (ih false h).1 (by simp)
    · exfalso
      rw [strip_cons_other b c tl hc] at h
      cases hr : stripSlashesFrom false tl with
      | nil =>
        rw [hr] at h
        simp at h
        exact hc h
      | cons y ys =>
        have h3 : (stripSlashesFrom false tl).getLast? = some 47 := by
          rw [getLast?_cons_of_ne_nil _ _ (by rw [hr]; simp)] at h
          exact h
        exact absurd (ih false h3).1 (by simp)


theorem strip_filter (b : Bool) (s : List Nat) :
    (stripSlashesFrom b s).filter (fun c => c != 47) = s.filter (fun c => c != 47) := by
  induction s generalizing b with
  | nil => simp [strip_nil]
  | cons c tl ih =>
    by_cases hc : c = 47
    · subst hc
      cases tl with
      | nil =>
        rw [strip_slash_end]
        cases b <;> simp
      | cons d rest =>
        by_cases hd : d = 47
        · subst hd
          rw [strip_slash_slash, ih b]
          simp
        · have h2 := ih false
          rw [strip_cons_other false d rest hd] at h2
          rw [strip_slash_other b d rest hd]
          simpa using h2
    · rw [strip_cons_other b c tl hc]
      simp [hc, ih false]

theorem strip_fixed (b : Bool) (r : List Nat) (hn : NoDoubleSlash r)
    (hl : r.getLast? = some 47 → b = true ∧ r = [47]) : stripSlashesFrom b r = r := by
  induction r generalizing b with
  | nil => rfl
  | cons c tl ih =>
    have htl : stripSlashesFrom false tl = tl := by
      apply ih false (List.Chain'.tail hn)
      intro h
      have hne : tl ≠ [] := by
        intro h0
        rw [h0] at h
        simp at h
      rw [← getLast?_cons_of_ne_nil c tl hne] at h
      have := (hl h).2
      simp only [List.cons.injEq] at this
      exact absurd this.2 hne
    by_cases hc : c = 47
    · subst hc
      cases tl with
      | nil =>
        have := (hl (by simp)).1
        rw [strip_slash_end, this]
        rfl
      | cons d rest =>
        have hd : d ≠ 47 := by
          intro h
          have := (List.chain'_cons.mp hn).1
          exact this ⟨rfl, h⟩
        rw [strip_slash_other b d rest hd]
        rw [strip_cons_other false d rest hd] at htl
        rw [htl]
    · rw [strip_cons_other b c tl hc, htl]

/-- C24: for every string, `strip_extra_slashes` leaves a string in which no two
neighbouring bytes are both slashes, which ends with a slash only when it is
the string `/`, whose bytes other than slashes are those of the input in the
same order, and which a second application leaves unchanged. -/
theorem strip_extra_slashes_normal (dir : List Nat) :
    NoDoubleSlash (strip_extra_slashes dir)
      ∧ ((strip_extra_slashes dir).getLast? = some 47 → strip_extra_slashes dir = bytes "/")
      ∧ (strip_extra_slashes dir).filter (fun c => c != 47) = dir.filter (fun c => c != 47)
      ∧ strip_extra_slashes (strip_extra_slashes dir) = strip_extra_slashes dir := by
  refine ⟨strip_noDouble true dir, fun h => (strip_last true dir h).2, strip_filter true dir, ?_⟩
  exact strip_fixed true _ (strip_noDouble true dir) (fun h => strip_last true dir h)

/-! ## `unescape` on the buffer itself -/

theorem unescapeLoop_counter (n : Nat) :
    ∀ s : UnescapeState, s.optr + 3 * s.decoded = s.iptr →
      (unescapeLoop n s).optr + 3 * (unescapeLoop n s).decoded = (unescapeLoop n s).iptr := by
  induction n with
  | zero => intro s h; exact h
  | succ n ih =>
    intro s h
    unfold unescapeLoop
    split
    · exact h
    · apply ih
      unfold unescapeStep
      split <;> simp only <;> omega

theorem charAt_append_zero (suf : List Nat) (j : Nat) : charAt (suf ++ [0]) j = charAt suf j := by
  induction suf generalizing j with
  | nil => cases j <;> simp [charAt]
  | cons c tl ih =>
    cases j with
    | zero => simp [charAt]
    | succ j =>
      have := ih j
      simpa [charAt] using this

theorem charAt_mid (pre suf : List Nat) (j : Nat) :
    charAt (pre ++ suf ++ [0]) (pre.length + j) = charAt suf j := by
  rw [List.append_assoc, ← charAt_append_zero suf j]
  induction pre with
  | nil => simp
  | cons x xs ih =>
    have : (x :: xs).length + j = (xs.length + j) + 1 := by simp; omega
    rw [this]
    simpa [charAt] using ih

theorem set_mid (out mid rest : List Nat) (v : Nat) (h : mid ≠ []) :
    (out ++ mid ++ rest).set out.length v = out ++ [v] ++ mid.tail ++ rest := by
  induction out with
  | nil =>
    cases mid with
    | nil => exact absurd rfl h
    | cons m ms => simp
  | cons x xs ih => simpa using ih

theorem octal_tail (tl : List Nat) (h : isOctalDigit (charAt tl 2) = true) :
    ∃ d1 d2 d3 rest, tl = d1 :: d2 :: d3 :: rest := by
  rcases tl with _ | ⟨d1, _ | ⟨d2, _ | ⟨d3, rest⟩⟩⟩
  · simp [charAt, isOctalDigit] at h
  · simp [charAt, isOctalDigit] at h
  · simp [charAt, isOctalDigit] at h
  · exact ⟨d1, d2, d3, rest, rfl⟩


theorem unescapeLoop_run (n : Nat) :
    ∀ (out gap suf : List Nat) (s : UnescapeState), (∀ c ∈ suf, c ≠ 0) → suf.length ≤ n →
      s.buf = out ++ gap ++ suf ++ [0] → s.iptr = out.length + gap.length →
      s.optr = out.length →
      ∃ gap', (unescapeLoop n s).buf = out ++ unescape suf ++ gap' ++ [0]
        ∧ (unescapeLoop n s).optr = out.length + (unescape suf).length
        ∧ (unescapeLoop n s).iptr = out.length + gap.length + suf.length
        ∧ gap'.length + (unescape suf).length = gap.length + suf.length := by
  induction n with
  | zero =>
    intro out gap suf s _ hlen hbuf hi ho
    have : suf = [] := List.eq_nil_of_length_eq_zero (Nat.le_zero.mp hlen)
    subst this
    exact ⟨gap, by simpa [unescapeLoop, unescape, unescapeFrom] using hbuf,
      by simpa [unescapeLoop, unescape, unescapeFrom] using ho,
      by simpa [unescapeLoop] using hi, by simp [unescape, unescapeFrom]⟩
  | succ n ih =>
    intro out gap suf s h0 hlen hbuf hi ho
    have hch : ∀ j, charAt s.buf (s.iptr + j) = charAt suf j := by
      intro j
      rw [hbuf, hi, ← List.length_append]
      exact charAt_mid (out ++ gap) suf j
    cases suf with
    | nil =>
      have hz : charAt s.buf s.iptr = 0 := by
        have := hch 0
        simpa [charAt] using this
      unfold unescapeLoop
      rw [if_pos hz]
      exact ⟨gap, by simpa [unescape, unescapeFrom] using hbuf,
        by simpa [unescape, unescapeFrom] using ho, by simpa using hi,
        by simp [unescape, unescapeFrom]⟩
    | cons c tl =>
      have hc : c ≠ 0 := h0 c (List.mem_cons_self _ _)
      have htl : ∀ x ∈ tl, x ≠ 0 := fun x hx => h0 x (List.mem_cons_of_mem _ hx)
      have hnz : ¬ charAt s.buf s.iptr = 0 := by
        have := hch 0
        simp only [Nat.add_zero] at this
        rw [this]
        simpa [charAt] using hc
      have h00 : charAt s.buf s.iptr = c := by
        have := hch 0
        simpa [charAt] using this
      have h1 : charAt s.buf (s.iptr + 1) = charAt tl 0 := by
        have := hch 1
        simpa [charAt] using this
      have h2 : charAt s.buf (s.iptr + 2) = charAt tl 1 := by
        have := hch 2
        simpa [charAt] using this
      have h3 : charAt s.buf (s.iptr + 3) = charAt tl 2 := by
        have := hch 3
        simpa [charAt] using this
      unfold unescapeLoop
      rw [if_neg hnz]
      by_cases hcond : (c == 92 && isOctalDigit (charAt tl 0) && isOctalDigit (charAt tl 1)
          && isOctalDigit (charAt tl 2)) = true
      · have hoct : isOctalDigit (charAt tl 2) = true := by
          simp only [Bool.and_eq_true] at hcond
          exact hcond.2
        obtain ⟨d1, d2, d3, rest, hrest⟩ := octal_tail tl hoct
        have hun : unescape (c :: tl) =
            ((((charAt tl 0 - 48) <<< 6) ||| ((charAt tl 1 - 48) <<< 3) ||| (charAt tl 2 - 48))
              % 256) :: unescape rest := by
          unfold unescape
          rw [unescapeFrom, if_pos hcond, hrest, unescapeFrom_three]
        have hstep : unescapeStep s =
            { buf := s.buf.set s.optr
                ((((charAt tl 0 - 48) <<< 6) ||| ((charAt tl 1 - 48) <<< 3) ||| (charAt tl 2 - 48))
                  % 256),
              iptr := s.iptr + 4, optr := s.optr + 1, decoded := s.decoded + 1 } := by
          unfold unescapeStep
          rw [h00, h1, h2, h3, if_pos hcond]
        have hset : ∀ v, s.buf.set s.optr v
            = (out ++ [v]) ++ (gap ++ [c, d1, d2, d3]).tail ++ rest ++ [0] := by
          intro v
          rw [hbuf, ho, hrest]
          have := set_mid out (gap ++ [c, d1, d2, d3]) (rest ++ [0]) v (by simp)
          simpa [List.append_assoc] using this
        have hgl : (gap ++ [c, d1, d2, d3]).tail.length = gap.length + 3 := by simp
        obtain ⟨gap', e1, e2, e3, e4⟩ := ih (out ++ [_]) (gap ++ [c, d1, d2, d3]).tail rest
          (unescapeStep s) (fun x hx => htl x (by rw [hrest]; simp [hx]))
          (by rw [hrest] at hlen; simp at hlen ⊢; omega)
          (by rw [hstep]; exact hset _)
          (by rw [hstep, hgl]; simp [hi]; omega)
          (by rw [hstep]; simp [ho])
        refine ⟨gap', ?_, ?_, ?_, ?_⟩
        · rw [e1, hun]; simp [List.append_assoc]
        · rw [e2, hun]; simp; omega
        · rw [e3, hgl, hrest]; simp; omega
        · rw [hun, hrest]; rw [hgl] at e4; simp at e4 ⊢; omega
      · have hun : unescape (c :: tl) = c :: unescape tl := by
          unfold unescape
          rw [unescapeFrom, if_neg hcond]
        have hstep : unescapeStep s =
            { buf := s.buf.set s.optr c,
              iptr := s.iptr + 1, optr := s.optr + 1, decoded := s.decoded } := by
          unfold unescapeStep
          rw [h00, h1, h2, h3, if_neg hcond]
        have hset : s.buf.set s.optr c = (out ++ [c]) ++ (gap ++ [c]).tail ++ tl ++ [0] := by
          rw [hbuf, ho]
          have := set_mid out (gap ++ [c]) (tl ++ [0]) c (by simp)
          simpa [List.append_assoc] using this
        have hgl : (gap ++ [c]).tail.length = gap.length := by simp
        obtain ⟨gap', e1, e2, e3, e4⟩ := ih (out ++ [c]) (gap ++ [c]).tail tl
          (unescapeStep s) htl (by simp at hlen ⊢; omega)
          (by rw [hstep]; exact hset)
          (by rw [hstep, hgl]; simp [hi]; omega)
          (by rw [hstep]; simp [ho])
        refine ⟨gap', ?_, ?_, ?_, ?_⟩
        · rw [e1, hun]; simp [List.append_assoc]
        · rw [e2, hun]; simp; omega
        · rw [e3, hgl]; simp; omega
        · rw [hun]; rw [hgl] at e4; simp at e4 ⊢; omega


theorem cstr_append_zero (a r : List Nat) :
    (cstr (a ++ 0 :: r)).length ≤ a.length ∧ ((∀ c ∈ a, c ≠ 0) → cstr (a ++ 0 :: r) = a) := by
  induction a with
  | nil => simp [cstr]
  | cons x xs ih =>
    by_cases hx : x = 0
    · subst hx
      simp [cstr]
    · have h1 : cstr (x :: xs ++ 0 :: r) = x :: cstr (xs ++ 0 :: r) := by
        simp [cstr, List.takeWhile_cons, hx]
      rw [h1]
      refine ⟨by simpa using ih.1, fun h => ?_⟩
      rw [ih.2 (fun c hc => h c (List.mem_cons_of_mem _ hc))]

/-- C30, the claim as worded fails: for the input `\000` the decoded C string is
empty, four bytes and not three shorter than the input, although one escape
sequence was decoded. -/
theorem unescape_nul_escape :
    (unescapeInPlace (bytes "\\000")).decoded = 1
      ∧ (cstr (unescapeInPlace (bytes "\\000")).buf).length = 0
      ∧ (cstr (unescapeInPlace (bytes "\\000")).buf).length + 3 * 1
          ≠ (bytes "\\000").length := by
  decide

/-- C30, amended: for every input string, at every iteration of the loop the
write position is at or before the read position (it lags by three bytes per
decoded escape sequence); the loop ends at the terminator of the input within
`strlen` iterations, the bytes written are those of `unescape`, followed by
the NUL, and their number is the length of the input less three per decoded
escape sequence; the decoded C string is never longer than that, and is
exactly that long when no escape sequence decodes to the NUL byte. -/
theorem unescape_in_place (str : List Nat) (h0 : ∀ c ∈ str, c ≠ 0) :
    (∀ n, (unescapeLoop n (unescapeStart str)).optr ≤ (unescapeLoop n (unescapeStart str)).iptr)
      ∧ (unescapeInPlace str).iptr = str.length
      ∧ (unescapeInPlace str).buf.take ((unescapeInPlace str).optr + 1) = unescape str ++ [0]
      ∧ (unescapeInPlace str).optr + 3 * (unescapeInPlace str).decoded = str.length
      ∧ (cstr (unescapeInPlace str).buf).length ≤ (unescapeInPlace str).optr
      ∧ (cstr (unescapeInPlace str).buf).length ≤ str.length
      ∧ ((∀ c ∈ unescape str, c ≠ 0) →
          (cstr (unescapeInPlace str).buf).length + 3 * (unescapeInPlace str).decoded
            = str.length) := by
  have hstart : (unescapeStart str).optr + 3 * (unescapeStart str).decoded
      = (unescapeStart str).iptr := rfl
  have hcount := fun n => unescapeLoop_counter n (unescapeStart str) hstart
  obtain ⟨gap, e1, e2, e3, e4⟩ := unescapeLoop_run str.length [] [] str (unescapeStart str) h0
    (le_refl _) (by simp [unescapeStart]) (by simp [unescapeStart]) (by simp [unescapeStart])
  simp only [List.nil_append, List.length_nil, Nat.zero_add] at e1 e2 e3 e4
  have hbuf : (unescapeInPlace str).buf = unescape str ++ 0 :: (gap ++ [0]).tail := by
    show (unescapeLoop str.length (unescapeStart str)).buf.set
      (unescapeLoop str.length (unescapeStart str)).optr 0 = _
    rw [e1, e2]
    have := set_mid (unescape str) (gap ++ [0]) [] 0 (by simp)
    simpa [List.append_assoc] using this
  have hoptr : (unescapeInPlace str).optr = (unescape str).length := e2
  have hiptr : (unescapeInPlace str).iptr = str.length := e3
  have hdec : (unescapeInPlace str).optr + 3 * (unescapeInPlace str).decoded = str.length := by
    have := hcount str.length
    rw [e3] at this
    exact this
  have hc := cstr_append_zero (unescape str) (gap ++ [0]).tail
  refine ⟨fun n => ?_, hiptr, ?_, hdec, ?_, ?_, ?_⟩
  · have := hcount n
    omega
  · rw [hbuf, hoptr]
    simp [List.take_append_eq_append_take]
  · rw [hbuf, hoptr]
    exact hc.1
  · rw [hbuf]
    have := hc.1
    omega
  · intro hnz
    rw [hbuf, hc.2 hnz, ← hoptr]
    exact hdec

theorem unescape_in_place_witness :
    (∀ n, (unescapeLoop n (unescapeStart (bytes "a\\040b"))).optr
        ≤ (unescapeLoop n (unescapeStart (bytes "a\\040b"))).iptr)
      ∧ (unescapeInPlace (bytes "a\\040b")).iptr = (bytes "a\\040b").length
      ∧ (unescapeInPlace (bytes "a\\040b")).buf.take ((unescapeInPlace (bytes "a\\040b")).optr + 1)
          = unescape (bytes "a\\040b") ++ [0]
      ∧ (unescapeInPlace (bytes "a\\040b")).optr + 3 * (unescapeInPlace (bytes "a\\040b")).decoded
          = (bytes "a\\040b").length
      ∧ (cstr (unescapeInPlace (bytes "a\\040b")).buf).length
          ≤ (unescapeInPlace (bytes "a\\040b")).optr
      ∧ (cstr (unescapeInPlace (bytes "a\\040b")).buf).length ≤ (bytes "a\\040b").length
      ∧ ((∀ c ∈ unescape (bytes "a\\040b"), c ≠ 0) →
          (cstr (unescapeInPlace (bytes "a\\040b")).buf).length
              + 3 * (unescapeInPlace (bytes "a\\040b")).decoded
            = (bytes "a\\040b").length) :=
  unescape_in_place (bytes "a\\040b") (by decide)


/-! ## The parent chain and the capacity of the working list -/

theorem chainFrom_parent (rs : List MountLine) :
    ∀ (pid : Int) (j : Nat) (r : MountLine), ChainFrom pid rs → rs[j]? = some r →
      r.parent = idAt pid rs j := by
  induction rs with
  | nil => intro pid j r _ h; simp at h
  | cons r0 rs ih =>
    intro pid j r hc h
    obtain ⟨h1, h2⟩ := hc
    cases j with
    | zero =>
      simp only [List.getElem?_cons_zero, Option.some.injEq] at h
      subst h
      simpa [idAt] using h1
    | succ j =>
      simp only [List.getElem?_cons_succ] at h
      simpa [idAt] using ih r0.id j r h2 h

/-- C25: after any sequence of records, when the working list is not empty its
first entry is the placeholder of a parent, whose device field is empty, so
that the scan for the resolved entry passes over it; and every entry at a
position i + 1 is the entry of a record of the table whose parent ID is the
ID stored at position i. -/
theorem mount_list_parent_chain (dir : List Nat) (table : List MountLine)
    (hne : (buildMountList dir table).entries ≠ []) :
    (∃ pid, (buildMountList dir table).entries[0]? = some (parentEntry pid))
      ∧ (∀ e0, (buildMountList dir table).entries[0]? = some e0 → e0.device = []
          ∧ resolvedEntry (buildMountList dir table).entries ≠ some e0
          ∧ ∀ poolResolver, resolveScan poolResolver (buildMountList dir table).entries 1
              = { ret := none, relroot := none })
      ∧ (∀ i prev cur, (buildMountList dir table).entries[i]? = some prev →
          (buildMountList dir table).entries[i + 1]? = some cur →
          ∃ r ∈ table, cur = entryOfLine r ∧ r.parent = prev.id) := by
  rcases buildMountList_inv dir table with h | ⟨pid, rs, hL, hrs, hmem, hchain⟩
  · exact absurd h hne
  · refine ⟨⟨pid, by rw [hL]; simp⟩, ?_, ?_⟩
    · intro e0 he0
      rw [hL] at he0
      simp only [List.getElem?_cons_zero, Option.some.injEq] at he0
      subst he0
      refine ⟨rfl, ?_, ?_⟩
      · intro h
        have := List.find?_some h
        simp [parentEntry, charAt] at this
      · intro poolResolver
        rw [hL]
        simp [resolveScan, parentEntry, charAt]
    · intro i prev cur hprev hcur
      rw [hL] at hcur
      simp only [List.getElem?_cons_succ, List.getElem?_map] at hcur
      cases hr : rs[i]? with
      | none => rw [hr] at hcur; simp at hcur
      | some r =>
        rw [hr] at hcur
        simp only [Option.map_some', Option.some.injEq] at hcur
        refine ⟨r, (hmem r (List.getElem?_mem hr)).1, hcur.symm, ?_⟩
        rw [chainFrom_parent rs pid i r hchain hr]
        exact (idAt_getElem rs pid i prev (by rw [← hL]; exact hprev)).symm

theorem mount_list_parent_chain_witness :
    (∃ pid, (buildMountList (bytes "/var/log") scenarioTable).entries[0]?
        = some (parentEntry pid))
      ∧ (∀ e0, (buildMountList (bytes "/var/log") scenarioTable).entries[0]? = some e0 →
          e0.device = []
          ∧ resolvedEntry (buildMountList (bytes "/var/log") scenarioTable).entries ≠ some e0
          ∧ ∀ poolResolver,
              resolveScan poolResolver (buildMountList (bytes "/var/log") scenarioTable).entries 1
                = { ret := none, relroot := none })
      ∧ (∀ i prev cur,
          (buildMountList (bytes "/var/log") scenarioTable).entries[i]? = some prev →
          (buildMountList (bytes "/var/log") scenarioTable).entries[i + 1]? = some cur →
          ∃ r ∈ scenarioTable, cur = entryOfLine r ∧ r.parent = prev.id) :=
  mount_list_parent_chain (bytes "/var/log") scenarioTable (by decide)


theorem insertEntry_length (L : List mountinfo_entry) (p e : mountinfo_entry) :
    (L = [] → (insertEntry L p e).length = 2) ∧
      (L ≠ [] → (insertEntry L p e).length ≤ L.length + 1) := by
  constructor
  · intro h
    subst h
    simp [insertEntry]
  · intro h
    have hlen : L.length ≠ 0 := fun h0 => h (List.eq_nil_of_length_eq_zero h0)
    have hscan : insertEntry L p e = insertScan L p e L.length := by simp [insertEntry, hlen]
    rw [hscan]
    rcases insertScan_shape L p e L.length with h1 | ⟨x, rest, hcons, -, hres⟩ | ⟨i, x, hx, -, hres⟩
    · rw [h1]; omega
    · rw [hres, hcons]; simp
    · rw [hres]
      simp only [List.length_append, List.length_take, List.length_singleton]
      omega

theorem insertScanWrites_le (L : List mountinfo_entry) (p e : mountinfo_entry) :
    ∀ k, k ≤ L.length → ∀ idx ∈ insertScanWrites L p e k, idx ≤ L.length := by
  intro k
  induction k with
  | zero => intro _ idx h; simp [insertScanWrites] at h
  | succ k ih =>
    intro hk idx h
    rw [insertScanWrites] at h
    cases hx : L[k]? with
    | none =>
      rw [hx] at h
      exact ih (by omega) idx h
    | some ek =>
      rw [hx] at h
      simp only at h
      by_cases h1 : ek.id = p.id
      · rw [if_pos h1] at h
        simp only [List.mem_singleton] at h
        omega
      · rw [if_neg h1] at h
        by_cases h2 : k = 0 ∧ ek.id = e.id
        · rw [if_pos h2] at h
          simp only [List.mem_append, List.mem_map, List.mem_range, List.mem_cons,
            List.mem_singleton, List.not_mem_nil, or_false] at h
          rcases h with ⟨a, ha, rfl⟩ | h | h
          · omega
          · omega
          · omega
        · rw [if_neg h2] at h
          exact ih (by omega) idx h

theorem insertWrites_lt (L : List mountinfo_entry) (p e : mountinfo_entry) (cap : Nat)
    (h4 : 4 ≤ cap) (hlen : L.length < cap) : ∀ idx ∈ insertWrites L p e, idx < cap := by
  intro idx h
  unfold insertWrites at h
  by_cases h0 : L.length = 0
  · rw [if_pos h0] at h
    simp only [List.mem_cons, List.mem_singleton, List.not_mem_nil, or_false] at h
    omega
  · rw [if_neg h0] at h
    have := insertScanWrites_le L p e L.length (le_refl _) idx h
    omega

theorem processLine_capacity (dir : List Nat) (st : MountList) (l : MountLine) (n : Nat)
    (h1 : st.entries.length ≤ st.entry_max) (h2 : 4 ≤ st.entry_max)
    (h3 : st.entry_max ≤ max 4 (2 * n)) (h4 : st.entries.length ≤ n + 1) :
    (processLine dir st l).entries.length ≤ (processLine dir st l).entry_max
      ∧ 4 ≤ (processLine dir st l).entry_max
      ∧ (processLine dir st l).entry_max ≤ max 4 (2 * (n + 1))
      ∧ (processLine dir st l).entries.length ≤ n + 2
      ∧ ∀ idx ∈ lineWrites dir st l, idx < (processLine dir st l).entry_max := by
  have hskip : st.entries.length ≤ st.entry_max ∧ 4 ≤ st.entry_max
      ∧ st.entry_max ≤ max 4 (2 * (n + 1)) ∧ st.entries.length ≤ n + 2
      ∧ ∀ idx ∈ ([] : List Nat), idx < st.entry_max :=
    ⟨h1, h2, by omega, by omega, by simp⟩
  unfold processLine lineWrites
  by_cases c1 : charAt l.enc_root 0 = 0 ∨ charAt l.enc_path 0 = 0
  · rw [if_pos c1, if_pos c1]; exact hskip
  · rw [if_neg c1, if_neg c1]
    simp only
    by_cases c2 : (!mountRelevant dir (entryOfLine l).enc_path) = true
    · rw [if_pos c2, if_pos c2]; exact hskip
    · rw [if_neg c2, if_neg c2]
      by_cases c3 : charAt l.fstype 0 = 0 ∨ charAt l.device 0 = 0
      · rw [if_pos c3, if_pos c3]; exact hskip
      · rw [if_neg c3, if_neg c3]
        simp only [Nat.shiftLeft_eq, pow_one]
        have hlen := insertEntry_length st.entries (parentEntry l.parent) (entryOfLine l)
        have hins : (insertEntry st.entries (parentEntry l.parent) (entryOfLine l)).length
            ≤ st.entries.length + 1 ∨
            (st.entries.length = 0 ∧
              (insertEntry st.entries (parentEntry l.parent) (entryOfLine l)).length = 2) := by
          by_cases he : st.entries = []
          · right; exact ⟨by rw [he]; rfl, hlen.1 he⟩
          · left; exact hlen.2 he
        by_cases c4 : st.entries.length ≥ st.entry_max
        · rw [if_pos c4]
          refine ⟨by omega, by omega, by omega, by omega, ?_⟩
          exact insertWrites_lt _ _ _ _ (by omega) (by omega)
        · rw [if_neg c4]
          refine ⟨by omega, by omega, by omega, by omega, ?_⟩
          exact insertWrites_lt _ _ _ _ (by omega) (by omega)

theorem foldl_capacity (dir : List Nat) :
    ∀ (lines : List MountLine) (st : MountList) (n : Nat),
      st.entries.length ≤ st.entry_max → 4 ≤ st.entry_max → st.entry_max ≤ max 4 (2 * n) →
      st.entries.length ≤ n + 1 →
      (lines.foldl (processLine dir) st).entries.length ≤ (lines.foldl (processLine dir) st).entry_max
        ∧ 4 ≤ (lines.foldl (processLine dir) st).entry_max
        ∧ (lines.foldl (processLine dir) st).entry_max ≤ max 4 (2 * (n + lines.length))
        ∧ (lines.foldl (processLine dir) st).entries.length ≤ n + lines.length + 1 := by
  intro lines
  induction lines with
  | nil => intro st n h1 h2 h3 h4; exact ⟨h1, h2, by simpa using h3, by simpa using h4⟩
  | cons l ls ih =>
    intro st n h1 h2 h3 h4
    obtain ⟨a1, a2, a3, a4, -⟩ := processLine_capacity dir st l n h1 h2 h3 h4
    have := ih (processLine dir st l) (n + 1) a1 a2 a3 (by omega)
    simp only [List.foldl_cons, List.length_cons]
    have e : n + 1 + ls.length = n + (ls.length + 1) := by omega
    rw [e] at this
    exact this

/-- C29: for every sequence of records, after the loop `entry_len` is at most
`entry_max`, which is at most the larger of 4 and twice the number of records
(so that it stays an `int` for fewer than 2^30 records); and for every record
read after any sequence of records, every index of `entries` stored to by the
initialise, append and prepend cases, the moved range of the prepend
included, is below `entry_max` as it is after the doubling check. -/
theorem mount_list_capacity (dir : List Nat) (table : List MountLine) (l : MountLine) :
    (buildMountList dir table).entries.length ≤ (buildMountList dir table).entry_max
      ∧ (buildMountList dir table).entry_max ≤ max 4 (2 * table.length)
      ∧ (table.length < 2 ^ 30 → (buildMountList dir table).entry_max < 2 ^ 31)
      ∧ ∀ idx ∈ lineWrites dir (buildMountList dir table) l,
          idx < (processLine dir (buildMountList dir table) l).entry_max := by
  obtain ⟨b1, b2, b3, b4⟩ := foldl_capacity dir table { entries := [], entry_max := 4 } 0
    (by simp) (by simp) (by simp) (by simp)
  simp only [Nat.zero_add] at b3 b4
  refine ⟨b1, b3, fun h => ?_, ?_⟩
  · have : (buildMountList dir table).entry_max ≤ max 4 (2 * table.length) := b3
    omega
  · exact (processLine_capacity dir _ l table.length b1 b2 b3 b4).2.2.2.2


/-! ## The partition normalizer applied twice -/

theorem dev_drop (p : List Nat) : (bytes "/dev/" ++ p).drop 5 = p := by
  rw [lit_dev]; rfl

theorem dev_take (p : List Nat) (k : Nat) :
    (bytes "/dev/" ++ p).take (5 + k) = bytes "/dev/" ++ p.take k := by
  rw [lit_dev, Nat.add_comm]; rfl

theorem dev_start (p : List Nat) : strncmpZero (bytes "/dev/") (bytes "/dev/" ++ p) 5 = true := by
  rw [lit_dev]; simp [strncmpZero]

theorem strncmpZero_comm (a b : List Nat) (n : Nat) : strncmpZero a b n = strncmpZero b a n := by
  induction n generalizing a b with
  | zero => simp [strncmpZero]
  | succ n ih =>
    cases a with
    | nil => cases b <;> simp [strncmpZero]
    | cons x xs =>
      cases b with
      | nil => simp [strncmpZero]
      | cons y ys =>
        simp only [strncmpZero]
        rw [ih xs ys]
        rw [show (x == y) = (y == x) from BEq.comm]

theorem strncmp_lit_iff (lit p : List Nat) (n : Nat) (hn : lit.length = n) :
    strncmpZero lit p n = true ↔ lit <+: p := by
  rw [strncmpZero_comm, ← hn]
  exact strncmpZero_length_iff lit p

theorem path_of_dev (path : List Nat) (h : strncmpZero (bytes "/dev/") path 5 = true) :
    path = bytes "/dev/" ++ path.drop 5 := by
  obtain ⟨t, ht⟩ := (strncmp_lit_iff (bytes "/dev/") path 5 (by decide)).mp h
  rw [← ht, dev_drop]

theorem partToDisc_dev (p : List Nat) :
    partToDisc (bytes "/dev/" ++ p) = bytes "/dev/" ++ discTail p := by
  unfold partToDisc discTail
  rw [dev_drop]
  cases strstr (bytes "part") p with
  | none => rfl
  | some k => simp only [dev_take, List.append_assoc]

theorem cutAtChar_dev (p : List Nat) (c : Nat) :
    cutAtChar (bytes "/dev/" ++ p) c = bytes "/dev/" ++ cutTail p c := by
  unfold cutAtChar cutTail
  rw [dev_drop]
  cases strchr p c with
  | none => rfl
  | some k => simp only [dev_take]

theorem lit_part : bytes "part" = [112, 97, 114, 116] := by decide

theorem lit_disc : bytes "disc" = [100, 105, 115, 99] := by decide

theorem not_mem_take_indexOf (c : Nat) (p : List Nat) : c ∉ p.take (p.indexOf c) := by
  induction p with
  | nil => simp
  | cons x xs ih =>
    by_cases h : x = c
    · rw [List.indexOf_cons_eq xs h]
      simp
    · rw [List.indexOf_cons_ne xs h]
      simp only [List.take_succ_cons, List.mem_cons, not_or]
      exact ⟨fun e => h e.symm, ih⟩

theorem cutTail_facts (p lit : List Nat) (c : Nat) (hlit : lit <+: p) (hno : c ∉ lit) :
    cutTail p c <+: p ∧ lit <+: cutTail p c ∧ cutTail (cutTail p c) c = cutTail p c := by
  unfold cutTail strchr
  by_cases h : p.indexOf c < p.length
  · simp only [h, if_true]
    have hnm := not_mem_take_indexOf c p
    have hidx : ¬ (p.take (p.indexOf c)).indexOf c < (p.take (p.indexOf c)).length := by
      rw [List.indexOf_of_not_mem hnm]
      omega
    refine ⟨List.take_prefix _ _, ?_, by simp only [hidx, if_false]⟩
    rw [List.prefix_take_iff]
    refine ⟨hlit, ?_⟩
    obtain ⟨t, ht⟩ := hlit
    rw [← ht, List.indexOf_append_of_not_mem hno]
    omega
  · simp only [h, if_false]
    exact ⟨List.prefix_refl _, hlit, trivial⟩

theorem discTail_nil : discTail [] = [] := by
  simp [discTail, strstr, lit_part, List.isPrefixOf]

theorem discTail_cons (c : Nat) (tl : List Nat) :
    discTail (c :: tl) =
      if (bytes "part").isPrefixOf (c :: tl) then bytes "disc" else c :: discTail tl := by
  unfold discTail
  rw [strstr]
  by_cases h : (bytes "part").isPrefixOf (c :: tl) = true
  · simp [h]
  · simp only [h, if_false]
    cases strstr (bytes "part") tl with
    | none => rfl
    | some k => rfl

theorem prefix_discTail (tl : List Nat) :
    ∀ s : List Nat, s <+: discTail tl → 100 ∉ s → s <+: tl := by
  induction tl with
  | nil => intro s h _; rw [discTail_nil] at h; exact h
  | cons c tl ih =>
    intro s h hno
    cases s with
    | nil => exact List.nil_prefix
    | cons x s' =>
      rw [discTail_cons] at h
      by_cases hp : (bytes "part").isPrefixOf (c :: tl) = true
      · rw [if_pos hp, lit_disc] at h
        have hx : x = 100 := (List.cons_prefix_cons.mp h).1
        exact absurd (by simp [hx]) hno
      · rw [if_neg hp] at h
        obtain ⟨h1, h2⟩ := List.cons_prefix_cons.mp h
        exact List.cons_prefix_cons.mpr
          ⟨h1, ih s' h2 (fun hm => hno (List.mem_cons_of_mem _ hm))⟩

theorem strstr_discTail (p : List Nat) : strstr (bytes "part") (discTail p) = none := by
  induction p with
  | nil => rw [discTail_nil]; simp [strstr, lit_part, List.isPrefixOf]
  | cons c tl ih =>
    rw [discTail_cons]
    by_cases hp : (bytes "part").isPrefixOf (c :: tl) = true
    · rw [if_pos hp]
      decide
    · rw [if_neg hp, strstr, ih]
      have hq : ¬ (bytes "part").isPrefixOf (c :: discTail tl) = true := by
        intro hq
        apply hp
        rw [lit_part] at hq ⊢
        rw [List.isPrefixOf_iff_prefix] at hq ⊢
        obtain ⟨h1, h2⟩ := List.cons_prefix_cons.mp hq
        exact List.cons_prefix_cons.mpr ⟨h1, prefix_discTail tl _ h2 (by simp)⟩
      simp [hq]

theorem discTail_fixed (p : List Nat) : discTail (discTail p) = discTail p := by
  have h := strstr_discTail p
  generalize discTail p = q at h
  unfold discTail
  rw [h]

theorem prefix_discTail_of (lit : List Nat) :
    ∀ p : List Nat, lit <+: p → 112 ∉ lit → lit <+: discTail p := by
  induction lit with
  | nil => intro p _ _; exact List.nil_prefix
  | cons x l ih =>
    intro p h hno
    cases p with
    | nil => simp at h
    | cons c tl =>
      obtain ⟨h1, h2⟩ := List.cons_prefix_cons.mp h
      have hc : c ≠ 112 := by
        rw [← h1]
        intro e
        exact hno (by simp [e])
      have hp : ¬ (bytes "part").isPrefixOf (c :: tl) = true := by
        rw [lit_part, List.isPrefixOf_iff_prefix]
        intro hq
        exact hc (List.cons_prefix_cons.mp hq).1.symm
      rw [discTail_cons, if_neg hp]
      exact List.cons_prefix_cons.mpr
        ⟨h1, ih tl h2 (fun hm => hno (List.mem_cons_of_mem _ hm))⟩


theorem convert_dev (p : List Nat) (dm : Option DmEnv) (os_dev : List Nat) :
    convert_system_partition_to_system_disk (some (bytes "/dev/" ++ p)) dm os_dev =
      if strncmpZero (bytes "ide/") p 4 then some (bytes "/dev/" ++ discTail p)
      else if strncmpZero (bytes "scsi/") p 5 then some (bytes "/dev/" ++ discTail p)
      else if strncmpZero (bytes "rd/c") p 4 then some (bytes "/dev/" ++ cutTail p 112)
      else if strncmpZero (bytes "rs/c") p 4 then some (bytes "/dev/" ++ cutTail p 112)
      else if strncmpZero (bytes "cciss/c") p 7 then some (bytes "/dev/" ++ cutTail p 112)
      else if strncmpZero (bytes "ida/c") p 5 then some (bytes "/dev/" ++ cutTail p 112)
      else if strncmpZero (bytes "i2o/hd") p 6 then some (bytes "/dev/" ++ p.take 7)
      else if strncmpZero (bytes "mmcblk") p 6 then some (bytes "/dev/" ++ cutTail p 112)
      else if strncmpZero (bytes "md") p 2 && isDecimalDigit (charAt p 2) then
        some (bytes "/dev/" ++ (p.take 2 ++ (p.drop 2).takeWhile isDecimalDigit))
      else if strncmpZero (bytes "vdisk") p 5 && isLowerLetter (charAt p 5) then
        some (bytes "/dev/" ++ p.take 6)
      else if (strncmpZero (bytes "hd") p 2 || strncmpZero (bytes "vd") p 2
          || strncmpZero (bytes "sd") p 2) && isLowerLetter (charAt p 2) then
        some (bytes "/dev/" ++ (p.take 2 ++ (p.drop 2).takeWhile isLowerLetter))
      else if strncmpZero (bytes "xvd") p 3 && isLowerLetter (charAt p 3) then
        some (bytes "/dev/" ++ (p.take 3 ++ (p.drop 3).takeWhile isLowerLetter))
      else
        match dm with
        | some env =>
          if strncmpZero (bytes "/dev/mapper/") os_dev 12 then devmapperBranch env
          else some (bytes "/dev/" ++ p)
        | none => some (bytes "/dev/" ++ p) := by
  unfold convert_system_partition_to_system_disk
  simp only [dev_start, dev_drop, dev_take, if_true, partToDisc_dev, cutAtChar_dev,
    List.append_assoc]

theorem charAt_longer (q p : List Nat) (i : Nat) (hq : q <+: p) (h : charAt q i ≠ 0) :
    charAt p i = charAt q i := by
  obtain ⟨t, ht⟩ := hq
  subst ht
  unfold charAt at h ⊢
  by_cases hi : i < q.length
  · simp [List.getD_eq_getElem?_getD, List.getElem?_append_left hi]
  · exfalso
    apply h
    simp [List.getD_eq_getElem?_getD, List.getElem?_eq_none (Nat.le_of_not_lt hi)]

theorem mono_s (lit p q : List Nat) (n : Nat) (hn : lit.length = n) (hq : q <+: p)
    (h : ¬ strncmpZero lit p n = true) : ¬ strncmpZero lit q n = true := by
  intro h2
  apply h
  rw [strncmp_lit_iff lit _ n hn] at h2 ⊢
  exact h2.trans hq

theorem mono_c (lit p q : List Nat) (n i : Nat) (pred : Nat → Bool) (hn : lit.length = n)
    (hp0 : pred 0 = false) (hq : q <+: p)
    (h : ¬ (strncmpZero lit p n && pred (charAt p i)) = true) :
    ¬ (strncmpZero lit q n && pred (charAt q i)) = true := by
  intro h2
  apply h
  simp only [Bool.and_eq_true] at h2 ⊢
  obtain ⟨h3, h4⟩ := h2
  have hne : charAt q i ≠ 0 := by
    intro e
    rw [e, hp0] at h4
    exact Bool.noConfusion h4
  rw [charAt_longer q p i hq hne]
  refine ⟨?_, h4⟩
  rw [strncmp_lit_iff lit _ n hn] at h3 ⊢
  exact h3.trans hq

theorem mono_three (l1 l2 l3 p q : List Nat) (n i : Nat) (pred : Nat → Bool)
    (h1 : l1.length = n) (h2 : l2.length = n) (h3 : l3.length = n)
    (hp0 : pred 0 = false) (hq : q <+: p)
    (h : ¬ ((strncmpZero l1 p n || strncmpZero l2 p n || strncmpZero l3 p n)
      && pred (charAt p i)) = true) :
    ¬ ((strncmpZero l1 q n || strncmpZero l2 q n || strncmpZero l3 q n)
      && pred (charAt q i)) = true := by
  intro hc
  apply h
  simp only [Bool.and_eq_true, Bool.or_eq_true] at hc ⊢
  obtain ⟨hor, hpred⟩ := hc
  have hne : charAt q i ≠ 0 := by
    intro e
    rw [e, hp0] at hpred
    exact Bool.noConfusion hpred
  rw [charAt_longer q p i hq hne]
  refine ⟨?_, hpred⟩
  rcases hor with (ha | hb) | hc3
  · left; left
    rw [strncmp_lit_iff l1 _ n h1] at ha ⊢
    exact ha.trans hq
  · left; right
    rw [strncmp_lit_iff l2 _ n h2] at hb ⊢
    exact hb.trans hq
  · right
    rw [strncmp_lit_iff l3 _ n h3] at hc3 ⊢
    exact hc3.trans hq

theorem take_facts (lit p : List Nat) (n m : Nat) (hn : lit.length = n) (hnm : n ≤ m)
    (h : strncmpZero lit p n = true) :
    p.take m <+: p ∧ strncmpZero lit (p.take m) n = true ∧ (p.take m).take m = p.take m
      ∧ ∀ i, i < m → charAt (p.take m) i = charAt p i := by
  refine ⟨List.take_prefix _ _, ?_, by simp [List.take_take], ?_⟩
  · rw [strncmp_lit_iff lit _ n hn] at h ⊢
    rw [List.prefix_take_iff]
    exact ⟨h, by omega⟩
  · intro i hi
    simp [charAt, List.getD_eq_getElem?_getD, List.getElem?_take, hi]

theorem takeWhile_facts (lit p : List Nat) (n : Nat) (pred : Nat → Bool) (hn : lit.length = n)
    (hp0 : pred 0 = false) (h : strncmpZero lit p n = true) (hc : pred (charAt p n) = true) :
    p.take n ++ (p.drop n).takeWhile pred <+: p
      ∧ strncmpZero lit (p.take n ++ (p.drop n).takeWhile pred) n = true
      ∧ pred (charAt (p.take n ++ (p.drop n).takeWhile pred) n) = true
      ∧ (p.take n ++ (p.drop n).takeWhile pred).take n
          ++ ((p.take n ++ (p.drop n).takeWhile pred).drop n).takeWhile pred
        = p.take n ++ (p.drop n).takeWhile pred := by
  rw [strncmp_lit_iff lit _ n hn] at h
  obtain ⟨t, ht⟩ := h
  subst ht
  subst hn
  have e1 : (lit ++ t).take lit.length = lit := by simp
  have e2 : (lit ++ t).drop lit.length = t := by simp
  rw [e1, e2]
  have hhead : charAt (lit ++ t) lit.length = t.headD 0 := charAt_append_length lit t
  rw [hhead] at hc
  refine ⟨(List.prefix_append_right_inj lit).mpr (List.takeWhile_prefix pred), ?_, ?_, ?_⟩
  · rw [strncmp_lit_iff lit _ lit.length rfl]
    exact List.prefix_append _ _
  · rw [charAt_append_length]
    cases t with
    | nil => simp [hp0] at hc
    | cons d t' =>
      simp only [List.headD_cons] at hc
      simp [List.takeWhile_cons, hc]
  · have e3 : (lit ++ List.takeWhile pred t).take lit.length = lit := by simp
    have e4 : (lit ++ List.takeWhile pred t).drop lit.length = List.takeWhile pred t := by simp
    rw [e3, e4, List.takeWhile_idem]


theorem scsi_not_ide (q : List Nat) (h : strncmpZero (bytes "scsi/") q 5 = true) :
    ¬ strncmpZero (bytes "ide/") q 4 = true := by
  intro h2
  rw [lit_scsi] at h
  rw [lit_ide] at h2
  cases q with
  | nil => simp [strncmpZero] at h
  | cons x xs =>
    simp only [strncmpZero, Bool.and_eq_true, beq_iff_eq] at h h2
    omega

theorem not_mapper_of_start (lit q : List Nat)
    (hinc : ¬ (lit <+: bytes "mapper/" ∨ bytes "mapper/" <+: lit)) (hlq : lit <+: q) :
    strncmpZero (bytes "/dev/mapper/") (bytes "/dev/" ++ q) 12 = false := by
  cases hx : strncmpZero (bytes "/dev/mapper/") (bytes "/dev/" ++ q) 12 with
  | false => rfl
  | true =>
    exfalso
    apply hinc
    have h1 := (strncmp_lit_iff (bytes "/dev/mapper/") _ 12 (by decide)).mp hx
    have e : bytes "/dev/mapper/" = bytes "/dev/" ++ bytes "mapper/" := by decide
    rw [e, List.prefix_append_right_inj] at h1
    exact List.prefix_or_prefix_of_prefix hlq h1

theorem convert_twice_dev (p : List Nat) (dm : Option DmEnv)
    (hdm : dm = none ∨ strncmpZero (bytes "/dev/mapper/") (bytes "/dev/" ++ p) 12 = false) :
    ∃ q, convert_system_partition_to_system_disk (some (bytes "/dev/" ++ p)) dm
          (bytes "/dev/" ++ p) = some (bytes "/dev/" ++ q)
      ∧ convert_system_partition_to_system_disk (some (bytes "/dev/" ++ q)) dm
          (bytes "/dev/" ++ q) = some (bytes "/dev/" ++ q)
      ∧ (dm = none ∨ strncmpZero (bytes "/dev/mapper/") (bytes "/dev/" ++ q) 12 = false) := by
  by_cases h1 : strncmpZero (bytes "ide/") p 4 = true
  · have hl := (strncmp_lit_iff (bytes "ide/") p 4 (by decide)).mp h1
    have hlq := prefix_discTail_of (bytes "ide/") p hl (by decide)
    have e1 := (strncmp_lit_iff (bytes "ide/") (discTail p) 4 (by decide)).mpr hlq
    refine ⟨discTail p, ?_, ?_, ?_⟩
    · rw [convert_dev, if_pos h1]
    · rw [convert_dev, if_pos e1, discTail_fixed]
    · exact Or.inr (not_mapper_of_start _ _ (by decide) hlq)
  by_cases h2 : strncmpZero (bytes "scsi/") p 5 = true
  · have hl := (strncmp_lit_iff (bytes "scsi/") p 5 (by decide)).mp h2
    have hlq := prefix_discTail_of (bytes "scsi/") p hl (by decide)
    have e2 := (strncmp_lit_iff (bytes "scsi/") (discTail p) 5 (by decide)).mpr hlq
    refine ⟨discTail p, ?_, ?_, ?_⟩
    · rw [convert_dev, if_neg h1, if_pos h2]
    · rw [convert_dev, if_neg (scsi_not_ide _ e2), if_pos e2, discTail_fixed]
    · exact Or.inr (not_mapper_of_start _ _ (by decide) hlq)
  by_cases h3 : strncmpZero (bytes "rd/c") p 4 = true
  · have hl := (strncmp_lit_iff (bytes "rd/c") p 4 (by decide)).mp h3
    obtain ⟨hq, hlq, hfix⟩ := cutTail_facts p (bytes "rd/c") 112 hl (by decide)
    have e3 := (strncmp_lit_iff (bytes "rd/c") (cutTail p 112) 4 (by decide)).mpr hlq
    refine ⟨cutTail p 112, ?_, ?_, ?_⟩
    · rw [convert_dev, if_neg h1, if_neg h2, if_pos h3]
    · rw [convert_dev, if_neg (mono_s (bytes "ide/") p (cutTail p 112) 4 (by decide) hq h1),
        if_neg (mono_s (bytes "scsi/") p (cutTail p 112) 5 (by decide) hq h2),
        if_pos e3, hfix]
    · exact Or.inr (not_mapper_of_start _ _ (by decide) hlq)
  by_cases h4 : strncmpZero (bytes "rs/c") p 4 = true
  · have hl := (strncmp_lit_iff (bytes "rs/c") p 4 (by decide)).mp h4
    obtain ⟨hq, hlq, hfix⟩ := cutTail_facts p (bytes "rs/c") 112 hl (by decide)
    have e4 := (strncmp_lit_iff (bytes "rs/c") (cutTail p 112) 4 (by decide)).mpr hlq
    refine ⟨cutTail p 112, ?_, ?_, ?_⟩
    · rw [convert_dev, if_neg h1, if_neg h2, if_neg h3, if_pos h4]
    · rw [convert_dev, if_neg (mono_s (bytes "ide/") p (cutTail p 112) 4 (by decide) hq h1),
        if_neg (mono_s (bytes "scsi/") p (cutTail p 112) 5 (by decide) hq h2),
        if_neg (mono_s (bytes "rd/c") p (cutTail p 112) 4 (by decide) hq h3),
        if_pos e4, hfix]
    · exact Or.inr (not_mapper_of_start _ _ (by decide) hlq)
  by_cases h5 : strncmpZero (bytes "cciss/c") p 7 = true
  · have hl := (strncmp_lit_iff (bytes "cciss/c") p 7 (by decide)).mp h5
    obtain ⟨hq, hlq, hfix⟩ := cutTail_facts p (bytes "cciss/c") 112 hl (by decide)
    have e5 := (strncmp_lit_iff (bytes "cciss/c") (cutTail p 112) 7 (by decide)).mpr hlq
    refine ⟨cutTail p 112, ?_, ?_, ?_⟩
    · rw [convert_dev, if_neg h1, if_neg h2, if_neg h3, if_neg h4, if_pos h5]
    · rw [convert_dev, if_neg (mono_s (bytes "ide/") p (cutTail p 112) 4 (by decide) hq h1),
        if_neg (mono_s (bytes "scsi/") p (cutTail p 112) 5 (by decide) hq h2),
        if_neg (mono_s (bytes "rd/c") p (cutTail p 112) 4 (by decide) hq h3),
        if_neg (mono_s (bytes "rs/c") p (cutTail p 112) 4 (by decide) hq h4),
        if_pos e5, hfix]
    · exact Or.inr (not_mapper_of_start _ _ (by decide) hlq)
  by_cases h6 : strncmpZero (bytes "ida/c") p 5 = true
  · have hl := (strncmp_lit_iff (bytes "ida/c") p 5 (by decide)).mp h6
    obtain ⟨hq, hlq, hfix⟩ := cutTail_facts p (bytes "ida/c") 112 hl (by decide)
    have e6 := (strncmp_lit_iff (bytes "ida/c") (cutTail p 112) 5 (by decide)).mpr hlq
    refine ⟨cutTail p 112, ?_, ?_, ?_⟩
    · rw [convert_dev, if_neg h1, if_neg h2, if_neg h3, if_neg h4, if_neg h5, if_pos h6]
    · rw [convert_dev, if_neg (mono_s (bytes "ide/") p (cutTail p 112) 4 (by decide) hq h1),
        if_neg (mono_s (bytes "scsi/") p (cutTail p 112) 5 (by decide) hq h2),
        if_neg (mono_s (bytes "rd/c") p (cutTail p 112) 4 (by decide) hq h3),
        if_neg (mono_s (bytes "rs/c") p (cutTail p 112) 4 (by decide) hq h4),
        if_neg (mono_s (bytes "cciss/c") p (cutTail p 112) 7 (by decide) hq h5),
        if_pos e6, hfix]
    · exact Or.inr (not_mapper_of_start _ _ (by decide) hlq)
  by_cases h7 : strncmpZero (bytes "i2o/hd") p 6 = true
  · obtain ⟨hq, e7, hfix, -⟩ := take_facts (bytes "i2o/hd") p 6 7 (by decide) (by omega) h7
    have hlq := (strncmp_lit_iff (bytes "i2o/hd") (p.take 7) 6 (by decide)).mp e7
    refine ⟨p.take 7, ?_, ?_, ?_⟩
    · rw [convert_dev, if_neg h1, if_neg h2, if_neg h3, if_neg h4, if_neg h5, if_neg h6, if_pos h7]
    · rw [convert_dev, if_neg (mono_s (bytes "ide/") p (p.take 7) 4 (by decide) hq h1),
        if_neg (mono_s (bytes "scsi/") p (p.take 7) 5 (by decide) hq h2),
        if_neg (mono_s (bytes "rd/c") p (p.take 7) 4 (by decide) hq h3),
        if_neg (mono_s (bytes "rs/c") p (p.take 7) 4 (by decide) hq h4),
        if_neg (mono_s (bytes "cciss/c") p (p.take 7) 7 (by decide) hq h5),
        if_neg (mono_s (bytes "ida/c") p (p.take 7) 5 (by decide) hq h6),
        if_pos e7, hfix]
    · exact Or.inr (not_mapper_of_start _ _ (by decide) hlq)
  by_cases h8 : strncmpZero (bytes "mmcblk") p 6 = true
  · have hl := (strncmp_lit_iff (bytes "mmcblk") p 6 (by decide)).mp h8
    obtain ⟨hq, hlq, hfix⟩ := cutTail_facts p (bytes "mmcblk") 112 hl (by decide)
    have e8 := (strncmp_lit_iff (bytes "mmcblk") (cutTail p 112) 6 (by decide)).mpr hlq
    refine ⟨cutTail p 112, ?_, ?_, ?_⟩
    · rw [convert_dev, if_neg h1, if_neg h2, if_neg h3, if_neg h4, if_neg h5, if_neg h6, if_neg h7, if_pos h8]
    · rw [convert_dev, if_neg (mono_s (bytes "ide/") p (cutTail p 112) 4 (by decide) hq h1),
        if_neg (mono_s (bytes "scsi/") p (cutTail p 112) 5 (by decide) hq h2),
        if_neg (mono_s (bytes "rd/c") p (cutTail p 112) 4 (by decide) hq h3),
        if_neg (mono_s (bytes "rs/c") p (cutTail p 112) 4 (by decide) hq h4),
        if_neg (mono_s (bytes "cciss/c") p (cutTail p 112) 7 (by decide) hq h5),
        if_neg (mono_s (bytes "ida/c") p (cutTail p 112) 5 (by decide) hq h6),
        if_neg (mono_s (bytes "i2o/hd") p (cutTail p 112) 6 (by decide) hq h7),
        if_pos e8, hfix]
    · exact Or.inr (not_mapper_of_start _ _ (by decide) hlq)
  by_cases h9 : (strncmpZero (bytes "md") p 2 && isDecimalDigit (charAt p 2)) = true
  · have hab := Bool.and_eq_true_iff.mp h9
    obtain ⟨hq, ea, eb, hfix⟩ := takeWhile_facts (bytes "md") p 2 isDecimalDigit (by decide)
      (by decide) hab.1 hab.2
    have hlq := (strncmp_lit_iff (bytes "md") _ 2 (by decide)).mp ea
    have e9 : (strncmpZero (bytes "md") (p.take 2 ++ (p.drop 2).takeWhile isDecimalDigit) 2 && isDecimalDigit (charAt (p.take 2 ++ (p.drop 2).takeWhile isDecimalDigit) 2)) = true := by
      rw [ea, eb]; rfl
    refine ⟨p.take 2 ++ (p.drop 2).takeWhile isDecimalDigit, ?_, ?_, ?_⟩
    · rw [convert_dev, if_neg h1, if_neg h2, if_neg h3, if_neg h4, if_neg h5, if_neg h6, if_neg h7, if_neg h8, if_pos h9]
    · rw [convert_dev, if_neg (mono_s (bytes "ide/") p (p.take 2 ++ (p.drop 2).takeWhile isDecimalDigit) 4 (by decide) hq h1),
        if_neg (mono_s (bytes "scsi/") p (p.take 2 ++ (p.drop 2).takeWhile isDecimalDigit) 5 (by decide) hq h2),
        if_neg (mono_s (bytes "rd/c") p (p.take 2 ++ (p.drop 2).takeWhile isDecimalDigit) 4 (by decide) hq h3),
        if_neg (mono_s (bytes "rs/c") p (p.take 2 ++ (p.drop 2).takeWhile isDecimalDigit) 4 (by decide) hq h4),
        if_neg (mono_s (bytes "cciss/c") p (p.take 2 ++ (p.drop 2).takeWhile isDecimalDigit) 7 (by decide) hq h5),
        if_neg (mono_s (bytes "ida/c") p (p.take 2 ++ (p.drop 2).takeWhile isDecimalDigit) 5 (by decide) hq h6),
        if_neg (mono_s (bytes "i2o/hd") p (p.take 2 ++ (p.drop 2).takeWhile isDecimalDigit) 6 (by decide) hq h7),
        if_neg (mono_s (bytes "mmcblk") p (p.take 2 ++ (p.drop 2).takeWhile isDecimalDigit) 6 (by decide) hq h8),
        if_pos e9, hfix]
    · exact Or.inr (not_mapper_of_start _ _ (by decide) hlq)
  by_cases h10 : (strncmpZero (bytes "vdisk") p 5 && isLowerLetter (charAt p 5)) = true
  · have hab := Bool.and_eq_true_iff.mp h10
    obtain ⟨hq, ea, hfix, hch⟩ := take_facts (bytes "vdisk") p 5 6 (by decide) (by omega) hab.1
    have hlq := (strncmp_lit_iff (bytes "vdisk") _ 5 (by decide)).mp ea
    have e10 : (strncmpZero (bytes "vdisk") (p.take 6) 5 && isLowerLetter (charAt (p.take 6) 5)) = true := by
      rw [ea, hch 5 (by omega), hab.2]; rfl
    refine ⟨p.take 6, ?_, ?_, ?_⟩
    · rw [convert_dev, if_neg h1, if_neg h2, if_neg h3, if_neg h4, if_neg h5, if_neg h6, if_neg h7, if_neg h8, if_neg h9, if_pos h10]
    · rw [convert_dev, if_neg (mono_s (bytes "ide/") p (p.take 6) 4 (by decide) hq h1),
        if_neg (mono_s (bytes "scsi/") p (p.take 6) 5 (by decide) hq h2),
        if_neg (mono_s (bytes "rd/c") p (p.take 6) 4 (by decide) hq h3),
        if_neg (mono_s (bytes "rs/c") p (p.take 6) 4 (by decide) hq h4),
        if_neg (mono_s (bytes "cciss/c") p (p.take 6) 7 (by decide) hq h5),
        if_neg (mono_s (bytes "ida/c") p (p.take 6) 5 (by decide) hq h6),
        if_neg (mono_s (bytes "i2o/hd") p (p.take 6) 6 (by decide) hq h7),
        if_neg (mono_s (bytes "mmcblk") p (p.take 6) 6 (by decide) hq h8),
        if_neg (mono_c (bytes "md") p (p.take 6) 2 2 isDecimalDigit (by decide) (by decide) hq h9),
        if_pos e10, hfix]
    · exact Or.inr (not_mapper_of_start _ _ (by decide) hlq)
  by_cases h11 : ((strncmpZero (bytes "hd") p 2 || strncmpZero (bytes "vd") p 2
      || strncmpZero (bytes "sd") p 2) && isLowerLetter (charAt p 2)) = true
  · have hab := Bool.and_eq_true_iff.mp h11
    have hlit : ∃ lit, (lit = bytes "hd" ∨ lit = bytes "vd" ∨ lit = bytes "sd")
        ∧ strncmpZero lit p 2 = true := by
      have h3 := hab.1
      simp only [Bool.or_eq_true] at h3
      rcases h3 with (ha | hb) | hc
      · exact ⟨_, Or.inl rfl, ha⟩
      · exact ⟨_, Or.inr (Or.inl rfl), hb⟩
      · exact ⟨_, Or.inr (Or.inr rfl), hc⟩
    obtain ⟨lit, hwhich, hlp⟩ := hlit
    have hlen : lit.length = 2 := by
      rcases hwhich with rfl | rfl | rfl <;> decide
    obtain ⟨hq, ea, eb, hfix⟩ := takeWhile_facts lit p 2 isLowerLetter hlen (by decide) hlp hab.2
    have hlq := (strncmp_lit_iff lit _ 2 hlen).mp ea
    have e11 : ((strncmpZero (bytes "hd") (p.take 2 ++ (p.drop 2).takeWhile isLowerLetter) 2 || strncmpZero (bytes "vd") (p.take 2 ++ (p.drop 2).takeWhile isLowerLetter) 2
      || strncmpZero (bytes "sd") (p.take 2 ++ (p.drop 2).takeWhile isLowerLetter) 2) && isLowerLetter (charAt (p.take 2 ++ (p.drop 2).takeWhile isLowerLetter) 2)) = true := by
      rw [eb]
      rcases hwhich with rfl | rfl | rfl <;> simp [ea]
    refine ⟨p.take 2 ++ (p.drop 2).takeWhile isLowerLetter, ?_, ?_, ?_⟩
    · rw [convert_dev, if_neg h1, if_neg h2, if_neg h3, if_neg h4, if_neg h5, if_neg h6, if_neg h7, if_neg h8, if_neg h9, if_neg h10, if_pos h11]
    · rw [convert_dev, if_neg (mono_s (bytes "ide/") p (p.take 2 ++ (p.drop 2).takeWhile isLowerLetter) 4 (by decide) hq h1),
        if_neg (mono_s (bytes "scsi/") p (p.take 2 ++ (p.drop 2).takeWhile isLowerLetter) 5 (by decide) hq h2),
        if_neg (mono_s (bytes "rd/c") p (p.take 2 ++ (p.drop 2).takeWhile isLowerLetter) 4 (by decide) hq h3),
        if_neg (mono_s (bytes "rs/c") p (p.take 2 ++ (p.drop 2).takeWhile isLowerLetter) 4 (by decide) hq h4),
        if_neg (mono_s (bytes "cciss/c") p (p.take 2 ++ (p.drop 2).takeWhile isLowerLetter) 7 (by decide) hq h5),
        if_neg (mono_s (bytes "ida/c") p (p.take 2 ++ (p.drop 2).takeWhile isLowerLetter) 5 (by decide) hq h6),
        if_neg (mono_s (bytes "i2o/hd") p (p.take 2 ++ (p.drop 2).takeWhile isLowerLetter) 6 (by decide) hq h7),
        if_neg (mono_s (bytes "mmcblk") p (p.take 2 ++ (p.drop 2).takeWhile isLowerLetter) 6 (by decide) hq h8),
        if_neg (mono_c (bytes "md") p (p.take 2 ++ (p.drop 2).takeWhile isLowerLetter) 2 2 isDecimalDigit (by decide) (by decide) hq h9),
        if_neg (mono_c (bytes "vdisk") p (p.take 2 ++ (p.drop 2).takeWhile isLowerLetter) 5 5 isLowerLetter (by decide) (by decide) hq h10),
        if_pos e11, hfix]
    · refine Or.inr (not_mapper_of_start lit _ ?_ hlq)
      rcases hwhich with rfl | rfl | rfl <;> decide
  by_cases h12 : (strncmpZero (bytes "xvd") p 3 && isLowerLetter (charAt p 3)) = true
  · have hab := Bool.and_eq_true_iff.mp h12
    obtain ⟨hq, ea, eb, hfix⟩ := takeWhile_facts (bytes "xvd") p 3 isLowerLetter (by decide)
      (by decide) hab.1 hab.2
    have hlq := (strncmp_lit_iff (bytes "xvd") _ 3 (by decide)).mp ea
    have e12 : (strncmpZero (bytes "xvd") (p.take 3 ++ (p.drop 3).takeWhile isLowerLetter) 3 && isLowerLetter (charAt (p.take 3 ++ (p.drop 3).takeWhile isLowerLetter) 3)) = true := by
      rw [ea, eb]; rfl
    refine ⟨p.take 3 ++ (p.drop 3).takeWhile isLowerLetter, ?_, ?_, ?_⟩
    · rw [convert_dev, if_neg h1, if_neg h2, if_neg h3, if_neg h4, if_neg h5, if_neg h6, if_neg h7, if_neg h8, if_neg h9, if_neg h10, if_neg h11, if_pos h12]
    · rw [convert_dev, if_neg (mono_s (bytes "ide/") p (p.take 3 ++ (p.drop 3).takeWhile isLowerLetter) 4 (by decide) hq h1),
        if_neg (mono_s (bytes "scsi/") p (p.take 3 ++ (p.drop 3).takeWhile isLowerLetter) 5 (by decide) hq h2),
        if_neg (mono_s (bytes "rd/c") p (p.take 3 ++ (p.drop 3).takeWhile isLowerLetter) 4 (by decide) hq h3),
        if_neg (mono_s (bytes "rs/c") p (p.take 3 ++ (p.drop 3).takeWhile isLowerLetter) 4 (by decide) hq h4),
        if_neg (mono_s (bytes "cciss/c") p (p.take 3 ++ (p.drop 3).takeWhile isLowerLetter) 7 (by decide) hq h5),
        if_neg (mono_s (bytes "ida/c") p (p.take 3 ++ (p.drop 3).takeWhile isLowerLetter) 5 (by decide) hq h6),
        if_neg (mono_s (bytes "i2o/hd") p (p.take 3 ++ (p.drop 3).takeWhile isLowerLetter) 6 (by decide) hq h7),
        if_neg (mono_s (bytes "mmcblk") p (p.take 3 ++ (p.drop 3).takeWhile isLowerLetter) 6 (by decide) hq h8),
        if_neg (mono_c (bytes "md") p (p.take 3 ++ (p.drop 3).takeWhile isLowerLetter) 2 2 isDecimalDigit (by decide) (by decide) hq h9),
        if_neg (mono_c (bytes "vdisk") p (p.take 3 ++ (p.drop 3).takeWhile isLowerLetter) 5 5 isLowerLetter (by decide) (by decide) hq h10),
        if_neg (mono_three (bytes "hd") (bytes "vd") (bytes "sd") p (p.take 3 ++ (p.drop 3).takeWhile isLowerLetter) 2 2 isLowerLetter
        (by decide) (by decide) (by decide) (by decide) hq h11),
        if_pos e12, hfix]
    · exact Or.inr (not_mapper_of_start _ _ (by decide) hlq)
  have hres : convert_system_partition_to_system_disk (some (bytes "/dev/" ++ p)) dm
      (bytes "/dev/" ++ p) = some (bytes "/dev/" ++ p) := by
    rw [convert_dev, if_neg h1, if_neg h2, if_neg h3, if_neg h4, if_neg h5, if_neg h6, if_neg h7, if_neg h8, if_neg h9, if_neg h10, if_neg h11, if_neg h12]
    rcases hdm with rfl | hm
    · rfl
    · cases dm with
      | none => rfl
      | some env => simp only [hm, Bool.false_eq_true, if_false]
  exact ⟨p, hres, hres, hdm⟩


/-- C26: for every path that `realpath` returns as it is and that the
device-mapper branch does not handle (the program is built without
device-mapper support, or the path does not begin with `/dev/mapper/`), the
function returns a path, and applied to that path, taken as canonical in its
turn, it returns it unchanged. -/
theorem convert_idempotent (path : List Nat) (dm : Option DmEnv)
    (hdm : dm = none ∨ strncmpZero (bytes "/dev/mapper/") path 12 = false) :
    ∃ r, convert_system_partition_to_system_disk (some path) dm path = some r
      ∧ convert_system_partition_to_system_disk (some r) dm r = some r := by
  by_cases hdev : strncmpZero (bytes "/dev/") path 5 = true
  · have hp := path_of_dev path hdev
    rw [hp] at hdm ⊢
    obtain ⟨q, h1, h2, -⟩ := convert_twice_dev (path.drop 5) dm hdm
    exact ⟨_, h1, h2⟩
  · have hres : convert_system_partition_to_system_disk (some path) dm path = some path := by
      unfold convert_system_partition_to_system_disk
      simp only [hdev, Bool.false_eq_true, if_false]
    exact ⟨path, hres, hres⟩

theorem convert_idempotent_witness :
    ∃ r, convert_system_partition_to_system_disk (some (bytes "/dev/sda3")) none
          (bytes "/dev/sda3") = some r
      ∧ convert_system_partition_to_system_disk (some r) none r = some r :=
  convert_idempotent (bytes "/dev/sda3") none (Or.inl rfl)

/-! ## The naming switch of `grub_util_get_grub_dev` -/

theorem luks_prefix_length (uuid : List Nat)
    (h : strncmpZero uuid (bytes "CRYPT-LUKS1-") 12 = true) : 12 ≤ uuid.length := by
  have h2 := (strncmpZero_length_iff (bytes "CRYPT-LUKS1-") uuid).mp h
  have := h2.length_le
  simpa using this

/-- C27: the device-mapper node /dev/mapper/tmp with the UUID `CRYPT-TMP`, nine
bytes long, is classified as LUKS, because the test compares four bytes only,
and `grub_util_get_grub_dev` then takes the name at offset 12 of the UUID,
outside the string. -/
theorem luks_uuid_short :
    grub_util_get_dm_abstraction raidHost.classify (bytes "/dev/mapper/tmp") = .LUKS
      ∧ get_dm_uuid raidHost.classify (bytes "/dev/mapper/tmp") = some (bytes "CRYPT-TMP")
      ∧ (bytes "CRYPT-TMP").length < 12
      ∧ grub_util_get_grub_dev raidHost (bytes "/dev/mapper/tmp") = .outside := by
  decide

theorem commaAtFirstP_partition (nn mm : List Nat) (h : 112 ∉ nn) :
    commaAtFirstP (nn ++ bytes "p" ++ mm) = nn ++ bytes "," ++ mm := by
  have hp : bytes "p" = [112] := by decide
  have hc : bytes "," = [44] := by decide
  rw [hp, hc]
  unfold commaAtFirstP strchr
  have hidx : (nn ++ [112] ++ mm).indexOf 112 = nn.length := by
    rw [List.append_assoc, List.indexOf_append_of_not_mem h]
    simp
  rw [hidx]
  have hlt : nn.length < (nn ++ [112] ++ mm).length := by simp
  rw [if_pos hlt]
  simp

theorem commaAtFirstP_none (name : List Nat) (h : 112 ∉ name) : commaAtFirstP name = name := by
  unfold commaAtFirstP strchr
  rw [List.indexOf_of_not_mem h]
  simp

theorem digits_no_p (nn : List Nat) (h : ∀ c ∈ nn, isDecimalDigit c = true) : 112 ∉ nn := by
  intro hm
  have := h 112 hm
  simp [isDecimalDigit] at this


theorem lit_md_d : bytes "/dev/md_d" = [47, 100, 101, 118, 47, 109, 100, 95, 100] := by decide

theorem lit_md_slash_d : bytes "/dev/md/d" = [47, 100, 101, 118, 47, 109, 100, 47, 100] := by
  decide

theorem lit_dev_md_slash : bytes "/dev/md/" = [47, 100, 101, 118, 47, 109, 100, 47] := by decide

theorem raidName_md_d (r : List Nat) :
    raidName (bytes "/dev/md_d" ++ r) = some (bytes "md" ++ commaAtFirstP r) := by
  simp [raidName, lit_md_d, charAt]

theorem raidName_md_slash_d (r : List Nat) :
    raidName (bytes "/dev/md/d" ++ r) = some (bytes "md" ++ commaAtFirstP r) := by
  simp [raidName, lit_md_slash_d, charAt]

theorem raidName_md_digit (d : Nat) (r : List Nat) (hd : isDecimalDigit d = true) :
    raidName (bytes "/dev/md" ++ d :: r) = some (bytes "md" ++ commaAtFirstP (d :: r)) := by
  have h95 : d ≠ 95 := by
    intro e; rw [e] at hd; simp [isDecimalDigit] at hd
  have h47 : d ≠ 47 := by
    intro e; rw [e] at hd; simp [isDecimalDigit] at hd
  have e : bytes "/dev/md" = [47, 100, 101, 118, 47, 109, 100] := by decide
  simp [raidName, e, charAt, hd, h95, h47]

theorem raidName_md_slash_digit (d : Nat) (r : List Nat) (hd : isDecimalDigit d = true) :
    raidName (bytes "/dev/md/" ++ d :: r) = some (bytes "md" ++ commaAtFirstP (d :: r)) := by
  have h100 : d ≠ 100 := by
    intro e; rw [e] at hd; simp [isDecimalDigit] at hd
  have h47 : isDecimalDigit 47 = false := by decide
  simp [raidName, lit_dev_md_slash, charAt, hd, h100, h47]

theorem raidName_md_slash_free (c : Nat) (r : List Nat) (hd : isDecimalDigit c = false)
    (h100 : c ≠ 100) :
    raidName (bytes "/dev/md/" ++ c :: r) = some (bytes "md/" ++ commaAtFirstP (c :: r)) := by
  have h47 : isDecimalDigit 47 = false := by decide
  simp [raidName, lit_dev_md_slash, charAt, hd, h100, h47]

/-- The numbered shapes of RAID device names: /dev/md_dNNpMM and /dev/md/dNNpMM
give mdNN,MM; /dev/mdNN and /dev/md/NN give mdNN, and with the suffix pMM they
give mdNN,MM. -/
theorem raid_names_numbered (d : Nat) (ns mm : List Nat)
    (hnn : ∀ c ∈ d :: ns, isDecimalDigit c = true) :
    raidName (bytes "/dev/md_d" ++ (d :: ns ++ bytes "p" ++ mm))
        = some (bytes "md" ++ (d :: ns ++ bytes "," ++ mm))
      ∧ raidName (bytes "/dev/md/d" ++ (d :: ns ++ bytes "p" ++ mm))
        = some (bytes "md" ++ (d :: ns ++ bytes "," ++ mm))
      ∧ raidName (bytes "/dev/md" ++ d :: ns) = some (bytes "md" ++ d :: ns)
      ∧ raidName (bytes "/dev/md" ++ (d :: ns ++ bytes "p" ++ mm))
        = some (bytes "md" ++ (d :: ns ++ bytes "," ++ mm))
      ∧ raidName (bytes "/dev/md/" ++ d :: ns) = some (bytes "md" ++ d :: ns)
      ∧ raidName (bytes "/dev/md/" ++ (d :: ns ++ bytes "p" ++ mm))
        = some (bytes "md" ++ (d :: ns ++ bytes "," ++ mm)) := by
  have hd := hnn d (List.mem_cons_self _ _)
  have hp := digits_no_p (d :: ns) hnn
  have e1 := commaAtFirstP_partition (d :: ns) mm hp
  have e2 := commaAtFirstP_none (d :: ns) hp
  refine ⟨?_, ?_, ?_, ?_, ?_, ?_⟩
  · rw [raidName_md_d, e1]
  · rw [raidName_md_slash_d, e1]
  · rw [raidName_md_digit d ns hd, e2]
  · have := raidName_md_digit d (ns ++ bytes "p" ++ mm) hd
    simp only [List.cons_append] at this e1 ⊢
    rw [this, e1]
  · rw [raidName_md_slash_digit d ns hd, e2]
  · have := raidName_md_slash_digit d (ns ++ bytes "p" ++ mm) hd
    simp only [List.cons_append] at this e1 ⊢
    rw [this, e1]

/-- A free name without the letter `p` that begins neither with `d` nor with a
digit: /dev/md/<name> gives md/<name>; with a partition suffix pMM after such
a name the result is md/<name>,MM. -/
theorem raid_names_free (c : Nat) (r mm : List Nat) (hd : isDecimalDigit c = false)
    (h100 : c ≠ 100) (hp : 112 ∉ c :: r) :
    raidName (bytes "/dev/md/" ++ c :: r) = some (bytes "md/" ++ c :: r)
      ∧ raidName (bytes "/dev/md/" ++ (c :: r ++ bytes "p" ++ mm))
        = some (bytes "md/" ++ (c :: r ++ bytes "," ++ mm)) := by
  have e1 := commaAtFirstP_partition (c :: r) mm hp
  have e2 := commaAtFirstP_none (c :: r) hp
  constructor
  · rw [raidName_md_slash_free c r hd h100, e2]
  · have := raidName_md_slash_free c (r ++ bytes "p" ++ mm) hd h100
    simp only [List.cons_append] at this e1 ⊢
    rw [this, e1]

/-- C23: with no MD UUID available, the free-name array /dev/md/pool is named
`md/,ool`, not `md/pool`: the comma replaces the first `p` of the name, not
the `p` of a partition suffix. -/
theorem raid_free_name_pool :
    grub_util_get_dev_abstraction raidHost.classify (bytes "/dev/md/pool") = .RAID
      ∧ raidHost.mdadm_uuid (bytes "/dev/md/pool") = none
      ∧ grub_util_get_grub_dev raidHost (bytes "/dev/md/pool") = .name (some (bytes "md/,ool"))
      ∧ grub_util_get_grub_dev raidHost (bytes "/dev/md/pool") ≠ .name (some (bytes "md/pool")) := by
  decide


/-! ## `grub_functional_test` -/

theorem functionalLoop_registered {σ : Type} (find : List Nat → Option (List Nat))
    (grub_test_run : List Nat → σ → Int × σ) :
    ∀ (args : List (List Nat)) (acc : FunctionalRun σ), (∀ a ∈ args, find a = some a) →
      ∃ r, functionalLoop find grub_test_run args acc = some r
        ∧ r.runs = acc.runs ++ args.zip (statusesInOrder grub_test_run args acc.world)
        ∧ r.status = (((statusesInOrder grub_test_run args acc.world).reverse.find?
            (fun v => v != 0)).getD acc.status) := by
  intro args
  induction args with
  | nil =>
    intro acc _
    exact ⟨acc, rfl, by simp [statusesInOrder], by simp [statusesInOrder]⟩
  | cons a rest ih =>
    intro acc hreg
    have ha := hreg a (List.mem_cons_self _ _)
    obtain ⟨r, h1, h2, h3⟩ := ih
      { status := if (grub_test_run a acc.world).1 ≠ 0 then (grub_test_run a acc.world).1
          else acc.status,
        runs := acc.runs ++ [(a, (grub_test_run a acc.world).1)],
        world := (grub_test_run a acc.world).2 }
      (fun x hx => hreg x (List.mem_cons_of_mem _ hx))
    refine ⟨r, ?_, ?_, ?_⟩
    · rw [functionalLoop, ha]
      exact h1
    · rw [h2]
      simp [statusesInOrder]
    · rw [h3]
      simp only [statusesInOrder, List.reverse_cons, List.find?_append]
      cases hf : List.find? (fun v => v != 0)
          (statusesInOrder grub_test_run rest (grub_test_run a acc.world).2).reverse with
      | some v => simp
      | none =>
        by_cases hz : (grub_test_run a acc.world).1 = 0
        · simp [hz]
        · simp [hz]


theorem statusesInOrder_length {σ : Type} (grub_test_run : List Nat → σ → Int × σ) :
    ∀ (args : List (List Nat)) (w : σ), (statusesInOrder grub_test_run args w).length
      = args.length := by
  intro args
  induction args with
  | nil => intro w; rfl
  | cons a rest ih => intro w; simp [statusesInOrder, ih]

/-- C28: for every list of arguments that are all names of registered tests,
`grub_functional_test` returns after running the named tests once each in the
order of the arguments; the value returned is 0 exactly when every run
returned 0, and otherwise it is the status, other than 0, of the last run
that did not return 0.  With no argument no test is run and 0 is returned,
while the summary of the command is "Run all functional tests." -/
theorem functional_test_status {σ : Type} (find : List Nat → Option (List Nat))
    (grub_test_run : List Nat → σ → Int × σ) (args : List (List Nat)) (w : σ)
    (hreg : ∀ a ∈ args, find a = some a) :
    (∃ r, grub_functional_test find grub_test_run args w = some r
        ∧ r.runs.map Prod.fst = args
        ∧ r.runs.map Prod.snd = statusesInOrder grub_test_run args w
        ∧ (r.status = 0 ↔ ∀ v ∈ statusesInOrder grub_test_run args w, v = 0)
        ∧ (r.status ≠ 0 →
            (statusesInOrder grub_test_run args w).reverse.find? (fun v => v != 0)
              = some r.status))
      ∧ (∃ r0, grub_functional_test find grub_test_run [] w = some r0
          ∧ r0.status = 0 ∧ r0.runs = [])
      ∧ functional_test_registration.2 = bytes "Run all functional tests." := by
  refine ⟨?_, ⟨_, rfl, rfl, rfl⟩, rfl⟩
  obtain ⟨r, h1, h2, h3⟩ := functionalLoop_registered find grub_test_run args
    { status := 0, runs := [], world := w } hreg
  simp only [List.nil_append] at h2 h3
  have hlen := statusesInOrder_length grub_test_run args w
  refine ⟨r, h1, ?_, ?_, ?_, ?_⟩
  · rw [h2]
    exact List.map_fst_zip _ _ (by omega)
  · rw [h2]
    exact List.map_snd_zip _ _ (by omega)
  · rw [h3]
    cases hf : (statusesInOrder grub_test_run args w).reverse.find? (fun v => v != 0) with
    | none =>
      simp only [Option.getD_none, true_iff]
      intro v hv
      have := List.find?_eq_none.mp hf v (List.mem_reverse.mpr hv)
      simpa using this
    | some v =>
      have hv := List.find?_some hf
      have hm := List.mem_reverse.mp (List.mem_of_find?_eq_some hf)
      simp only [Option.getD_some]
      constructor
      · intro h0
        rw [h0] at hv
        simp at hv
      · intro hall
        have := hall v hm
        rw [this] at hv
        simp at hv
  · intro hne
    rw [h3] at hne ⊢
    cases hf : (statusesInOrder grub_test_run args w).reverse.find? (fun v => v != 0) with
    | none => rw [hf] at hne; simp at hne
    | some v => simp

theorem functional_test_status_witness :
    (∃ r, grub_functional_test (fun a => some a)
          (fun (name : List Nat) (n : Nat) => (if name = bytes "b" then (3 : Int) else 0, n + 1))
          [bytes "a", bytes "b", bytes "c"] 0 = some r
        ∧ r.runs.map Prod.fst = [bytes "a", bytes "b", bytes "c"]
        ∧ r.runs.map Prod.snd = statusesInOrder
            (fun (name : List Nat) (n : Nat) => (if name = bytes "b" then (3 : Int) else 0, n + 1))
            [bytes "a", bytes "b", bytes "c"] 0
        ∧ (r.status = 0 ↔ ∀ v ∈ statusesInOrder
            (fun (name : List Nat) (n : Nat) => (if name = bytes "b" then (3 : Int) else 0, n + 1))
            [bytes "a", bytes "b", bytes "c"] 0, v = 0)
        ∧ (r.status ≠ 0 →
            (statusesInOrder
              (fun (name : List Nat) (n : Nat) => (if name = bytes "b" then (3 : Int) else 0, n + 1))
              [bytes "a", bytes "b", bytes "c"] 0).reverse.find? (fun v => v != 0)
              = some r.status))
      ∧ (∃ r0, grub_functional_test (fun a => some a)
          (fun (name : List Nat) (n : Nat) => (if name = bytes "b" then (3 : Int) else 0, n + 1))
          [] 0 = some r0
          ∧ r0.status = 0 ∧ r0.runs = [])
      ∧ functional_test_registration.2 = bytes "Run all functional tests." :=
  functional_test_status (fun a => some a)
    (fun (name : List Nat) (n : Nat) => (if name = bytes "b" then (3 : Int) else 0, n + 1))
    [bytes "a", bytes "b", bytes "c"] 0 (fun _ _ => rfl)

/-! ## `grub_find_device`: the current directory and the node found -/

theorem findRestore_returns {δ : Type} (env : FsEnv δ) (cur cwd : δ) (res r : Option (List Nat))
    (c' : δ)
    (hback : ∀ c d d', env.chdir c (env.getcwd d) = some d' → d' = d)
    (h : findRestore env cur (env.getcwd cwd) res = .returns (r, c')) : c' = cwd ∧ r = res := by
  unfold findRestore at h
  cases hc : env.chdir cur (env.getcwd cwd) with
  | none => rw [hc] at h; cases h
  | some d =>
    rw [hc] at h
    simp only [Outcome.returns.injEq, Prod.mk.injEq] at h
    obtain ⟨h1, h2⟩ := h
    exact ⟨by rw [← h2]; exact hback cur cwd d hc, h1.symm⟩

theorem findLoop_restores {δ : Type} (env : FsEnv δ) (dev : Nat)
    (recurse : δ → List Nat → Outcome (Option (List Nat) × δ)) (dir : List Nat) (cwd : δ)
    (hback : ∀ c d d', env.chdir c (env.getcwd d) = some d' → d' = d) :
    ∀ (rest : List (List Nat)) (cur : δ) (r : Option (List Nat)) (c' : δ),
      findLoop env dev recurse dir (env.getcwd cwd) cur rest = .returns (r, c') → c' = cwd := by
  intro rest
  induction rest with
  | nil =>
    intro cur r c' h
    rw [findLoop] at h
    exact (findRestore_returns env cur cwd none r c' hback h).1
  | cons n rest ih =>
    intro cur r c' h
    rw [findLoop] at h
    split at h
    · exact ih _ _ _ h
    · split at h
      · exact ih _ _ _ h
      · split at h
        · split at h
          · exact (findRestore_returns env _ cwd _ r c' hback h).1
          · exact ih _ _ _ h
          · cases h
          · cases h
        · split at h
          · split at h
            · exact ih _ _ _ h
            · split at h
              · exact ih _ _ _ h
              · exact (findRestore_returns env _ cwd _ r c' hback h).1
          · exact ih _ _ _ h

theorem find_restores {δ : Type} (env : FsEnv δ) (dev : Nat)
    (hback : ∀ c d d', env.chdir c (env.getcwd d) = some d' → d' = d) :
    ∀ (depth : Nat) (cwd : δ) (dir : Option (List Nat)) (r : Option (List Nat)) (c' : δ),
      grub_find_device env dev depth cwd dir = .returns (r, c') → c' = cwd := by
  intro depth cwd dir r c' h
  cases depth with
  | zero => rw [grub_find_device] at h; cases h
  | succ depth =>
    rw [grub_find_device] at h
    split at h
    · simp only [Outcome.returns.injEq, Prod.mk.injEq] at h
      exact h.2.symm
    · split at h
      · simp only [Outcome.returns.injEq, Prod.mk.injEq] at h
        exact h.2.symm
      · exact findLoop_restores env dev _ _ cwd hback _ _ _ _ h


theorem findLoop_sound {δ : Type} (env : FsEnv δ) (dev : Nat)
    (recurse : δ → List Nat → Outcome (Option (List Nat) × δ)) (dir : List Nat)
    (cwd entered : δ) (names : List (List Nat))
    (hback : ∀ c d d', env.chdir c (env.getcwd d) = some d' → d' = d)
    (hopen : env.opendir cwd dir = some names) (hch : env.chdir cwd dir = some entered)
    (hrec : ∀ d_name r c', recurse entered d_name = .returns (r, c') →
      c' = entered ∧ ∀ res, r = some res → Reaches env dev entered d_name res) :
    ∀ rest : List (List Nat), (∀ n ∈ rest, n ∈ names) → ∀ (res : List Nat) (c' : δ),
      findLoop env dev recurse dir (env.getcwd cwd) entered rest = .returns (some res, c') →
      Reaches env dev cwd dir res := by
  intro rest
  induction rest with
  | nil =>
    intro _ res c' h
    rw [findLoop] at h
    have := (findRestore_returns env entered cwd none (some res) c' hback h).2
    cases this
  | cons n rest ih =>
    intro hsub res c' h
    have hn : n ∈ names := hsub n (List.mem_cons_self _ _)
    have hrest : ∀ x ∈ rest, x ∈ names := fun x hx => hsub x (List.mem_cons_of_mem _ hx)
    rw [findLoop] at h
    split at h
    · exact ih hrest res c' h
    · rename_i hdot
      split at h
      · exact ih hrest res c' h
      · rename_i st hst
        split at h
        · rename_i hdir
          split at h
          · rename_i found cur' hr
            obtain ⟨-, hreach⟩ := hrec n _ _ hr
            have hres := (findRestore_returns env _ cwd _ (some res) c' hback h).2
            simp only [Option.some.injEq] at hres
            subst hres
            exact Reaches.deeper cwd dir names entered n st _ hopen hch hn hdot hst hdir
              (hreach _ rfl)
          · rename_i cur' hr
            obtain ⟨hc, -⟩ := hrec n _ _ hr
            rw [hc] at h
            exact ih hrest res c' h
          · cases h
          · cases h
        · split at h
          · rename_i hblk
            split at h
            · exact ih hrest res c' h
            · rename_i halias
              split at h
              · exact ih hrest res c' h
              · rename_i hroot
                have hres := (findRestore_returns env _ cwd _ (some res) c' hback h).2
                simp only [Option.some.injEq] at hres
                subst hres
                exact Reaches.entry cwd dir names entered n st hopen hch hn hdot hst hblk.1
                  hblk.2 (by simpa using halias) hroot
          · exact ih hrest res c' h

theorem find_sound {δ : Type} (env : FsEnv δ) (dev : Nat)
    (hback : ∀ c d d', env.chdir c (env.getcwd d) = some d' → d' = d) :
    ∀ (depth : Nat) (cwd : δ) (dir : Option (List Nat)) (res : List Nat) (c' : δ),
      grub_find_device env dev depth cwd dir = .returns (some res, c') →
      Reaches env dev cwd (dir.getD (bytes "/dev")) res := by
  intro depth
  induction depth with
  | zero => intro cwd dir res c' h; rw [grub_find_device] at h; cases h
  | succ depth ih =>
    intro cwd dir res c' h
    rw [grub_find_device] at h
    split at h
    · simp at h
    · rename_i names hopen
      split at h
      · simp at h
      · rename_i entered hch
        refine findLoop_sound env dev _ _ cwd entered names hback hopen hch ?_ names
          (fun _ hn => hn) res c' h
        intro d_name r c2 hr
        refine ⟨find_restores env dev hback depth entered (some d_name) r c2 hr, ?_⟩
        intro res2 hres
        subst hres
        exact ih entered (some d_name) res2 c2 hr

theorem findRestore_ok {δ : Type} (env : FsEnv δ) (cur cwd : δ) (res : Option (List Nat))
    (hrestore : ∀ c d, env.chdir c (env.getcwd d) = some d) :
    findRestore env cur (env.getcwd cwd) res = .returns (res, cwd) := by
  unfold findRestore
  rw [hrestore cur cwd]

theorem findLoop_returns {δ : Type} (env : FsEnv δ) (dev : Nat)
    (recurse : δ → List Nat → Outcome (Option (List Nat) × δ)) (dir : List Nat)
    (cwd entered : δ) (hrestore : ∀ c d, env.chdir c (env.getcwd d) = some d) :
    ∀ rest : List (List Nat),
      (∀ n ∈ rest, charAt n 0 ≠ 46 → ∃ r, recurse entered n = .returns (r, entered)) →
      ∃ r, findLoop env dev recurse dir (env.getcwd cwd) entered rest = .returns (r, cwd) := by
  intro rest
  induction rest with
  | nil =>
    intro _
    rw [findLoop]
    exact ⟨none, findRestore_ok env entered cwd none hrestore⟩
  | cons n rest ih =>
    intro hrec
    have hrest := ih (fun x hx => hrec x (List.mem_cons_of_mem _ hx))
    rw [findLoop]
    split
    · exact hrest
    · rename_i hdot
      obtain ⟨r0, hr0⟩ := hrec n (List.mem_cons_self _ _) hdot
      split
      · exact hrest
      · split
        · rw [hr0]
          cases r0 with
          | none => exact hrest
          | some found => exact ⟨_, findRestore_ok env entered cwd _ hrestore⟩
        · split
          · split
            · exact hrest
            · split
              · exact hrest
              · exact ⟨_, findRestore_ok env entered cwd _ hrestore⟩
          · exact hrest

theorem find_returns {δ : Type} (env : FsEnv δ) (dev : Nat) (height : δ → Nat)
    (hrestore : ∀ c d, env.chdir c (env.getcwd d) = some d)
    (hheight : ∀ cwd dir names entered, env.opendir cwd dir = some names →
      env.chdir cwd dir = some entered → ∀ n ∈ names, charAt n 0 ≠ 46 →
      ∀ d, env.chdir entered n = some d → height d < height entered) :
    ∀ (depth : Nat) (cwd : δ) (dir : Option (List Nat)), 1 ≤ depth →
      (∀ entered, env.chdir cwd (dir.getD (bytes "/dev")) = some entered →
        height entered + 2 ≤ depth) →
      ∃ r, grub_find_device env dev depth cwd dir = .returns (r, cwd) := by
  intro depth
  induction depth with
  | zero => intro cwd dir h1; omega
  | succ depth ih =>
    intro cwd dir _ hb
    rw [grub_find_device]
    split
    · exact ⟨none, rfl⟩
    · rename_i names hopen
      split
      · exact ⟨none, rfl⟩
      · rename_i entered hch
        have hd := hb entered hch
        apply findLoop_returns env dev _ _ cwd entered hrestore names
        intro n hn hdot
        apply ih entered (some n) (by omega)
        intro d hd2
        have := hheight cwd _ names entered hopen hch n hn hdot d hd2
        omega

theorem devHost_back : ∀ c d d' : Fin 3, devHost.chdir c (devHost.getcwd d) = some d' → d' = d := by
  decide

theorem devHost_restore : ∀ c d : Fin 3, devHost.chdir c (devHost.getcwd d) = some d := by
  decide

theorem devHost_height : ∀ (cwd : Fin 3) (dir : List Nat) (names : List (List Nat))
    (entered : Fin 3), devHost.opendir cwd dir = some names →
    devHost.chdir cwd dir = some entered → ∀ n ∈ names, charAt n 0 ≠ 46 →
    ∀ d, devHost.chdir entered n = some d → devHostHeight d < devHostHeight entered := by
  intro cwd dir names entered hopen hch
  by_cases h1 : dir = bytes "/dev"
  · subst h1
    have e1 : names
        = [bytes ".", bytes "..", bytes "sda", bytes "dm-0", bytes "root", bytes "mapper"] := by
      have : devHost.opendir cwd (bytes "/dev") = some [bytes ".", bytes "..", bytes "sda",
          bytes "dm-0", bytes "root", bytes "mapper"] := rfl
      rw [this] at hopen
      exact (Option.some.inj hopen).symm
    have e2 : entered = 1 := by
      have : devHost.chdir cwd (bytes "/dev") = some 1 := rfl
      rw [this] at hch
      exact (Option.some.inj hch).symm
    subst e1 e2
    decide
  · have hopen2 : devHost.opendir cwd dir
        = if cwd = 1 ∧ dir = bytes "mapper" then
            some [bytes ".", bytes "..", bytes "control", bytes "vg-root"]
          else none := by
      simp only [devHost, h1, if_false]
    rw [hopen2] at hopen
    by_cases h2 : cwd = 1 ∧ dir = bytes "mapper"
    · rw [if_pos h2] at hopen
      obtain ⟨hc, hd⟩ := h2
      subst hc hd
      have e1 := (Option.some.inj hopen).symm
      have e2 : entered = 2 := by
        have : devHost.chdir 1 (bytes "mapper") = some 2 := by decide
        rw [this] at hch
        exact (Option.some.inj hch).symm
      subst e1 e2
      decide
    · rw [if_neg h2] at hopen
      cases hopen


theorem reaches_node {δ : Type} (env : FsEnv δ) (dev : Nat) (cwd : δ) (dir res : List Nat)
    (h : Reaches env dev cwd dir res) :
    ∃ (entered : δ) (opened d_name : List Nat) (st : FileStat),
      entryStat env opened entered d_name = some st ∧ st.kind = .blk ∧ st.rdev = dev
        ∧ charAt d_name 0 ≠ 46 ∧ isDmAlias d_name = false
        ∧ res = strip_extra_slashes (env.getcwd entered ++ bytes "/" ++ d_name)
        ∧ res ≠ bytes "/dev/root" := by
  induction h with
  | entry cwd dir names entered d_name st _ _ _ hdot hst hblk hdev halias hroot =>
    exact ⟨entered, dir, d_name, st, hst, hblk, hdev, hdot, halias, rfl, hroot⟩
  | deeper cwd dir names entered d_name st res _ _ _ _ _ _ _ ih => exact ih

/-- C21: on a file system where `chdir` to the string that `getcwd` gave for a
directory leads back to that directory, every path that `grub_find_device`
returns is the path of a block-device entry with the target device number,
found in the directory entered or below it through entries that are
directories, no name on the way beginning with a dot; the name of the entry is
not of the form `dm-<digit>...` and the path is not `/dev/root`.  Where the
directories nest to a finite depth and `chdir` back succeeds, a search in a
tree without such a node returns NULL. -/
theorem find_device_sound {δ : Type} (env : FsEnv δ) (dev : Nat)
    (hback : ∀ c d d', env.chdir c (env.getcwd d) = some d' → d' = d) :
    (∀ (depth : Nat) (cwd : δ) (dir : Option (List Nat)) (res : List Nat) (c' : δ),
      grub_find_device env dev depth cwd dir = .returns (some res, c') →
      Reaches env dev cwd (dir.getD (bytes "/dev")) res
        ∧ ∃ (entered : δ) (opened d_name : List Nat) (st : FileStat),
          entryStat env opened entered d_name = some st ∧ st.kind = .blk ∧ st.rdev = dev
            ∧ charAt d_name 0 ≠ 46 ∧ isDmAlias d_name = false
            ∧ res = strip_extra_slashes (env.getcwd entered ++ bytes "/" ++ d_name)
            ∧ res ≠ bytes "/dev/root")
      ∧ (∀ (height : δ → Nat), (∀ c d, env.chdir c (env.getcwd d) = some d) →
          (∀ cwd dir names entered, env.opendir cwd dir = some names →
            env.chdir cwd dir = some entered → ∀ n ∈ names, charAt n 0 ≠ 46 →
            ∀ d, env.chdir entered n = some d → height d < height entered) →
          ∀ (depth : Nat) (cwd : δ) (dir : Option (List Nat)), 1 ≤ depth →
            (∀ entered, env.chdir cwd (dir.getD (bytes "/dev")) = some entered →
              height entered + 2 ≤ depth) →
            (∀ res, ¬ Reaches env dev cwd (dir.getD (bytes "/dev")) res) →
            grub_find_device env dev depth cwd dir = .returns (none, cwd)) := by
  constructor
  · intro depth cwd dir res c' h
    have hr := find_sound env dev hback depth cwd dir res c' h
    exact ⟨hr, reaches_node env dev cwd _ res hr⟩
  · intro height hrestore hheight depth cwd dir h1 hb hnone
    obtain ⟨r, hr⟩ := find_returns env dev height hrestore hheight depth cwd dir h1 hb
    cases r with
    | none => exact hr
    | some res => exact absurd (find_sound env dev hback depth cwd dir res cwd hr) (hnone res)

theorem find_device_sound_witness :
    Reaches devHost 64512 0 (bytes "/dev") (bytes "/dev/mapper/vg-root")
      ∧ ∃ (entered : Fin 3) (opened d_name : List Nat) (st : FileStat),
        entryStat devHost opened entered d_name = some st ∧ st.kind = .blk ∧ st.rdev = 64512
          ∧ charAt d_name 0 ≠ 46 ∧ isDmAlias d_name = false
          ∧ bytes "/dev/mapper/vg-root"
            = strip_extra_slashes (devHost.getcwd entered ++ bytes "/" ++ d_name)
          ∧ bytes "/dev/mapper/vg-root" ≠ bytes "/dev/root" :=
  (find_device_sound devHost 64512 devHost_back).1 3 0 none (bytes "/dev/mapper/vg-root") 0
    (by decide)

/-- C22: on a file system where `chdir` to the string that `getcwd` gave for a
directory leads back to that directory, whenever `grub_find_device` returns,
with a path or with NULL, from whatever depth, the current directory is the
one in which it was called; and where the directories nest to a finite depth
and `chdir` back succeeds, the function does return. -/
theorem find_device_restores_cwd {δ : Type} (env : FsEnv δ) (dev : Nat)
    (hback : ∀ c d d', env.chdir c (env.getcwd d) = some d' → d' = d) :
    (∀ (depth : Nat) (cwd : δ) (dir : Option (List Nat)) (r : Option (List Nat)) (c' : δ),
      grub_find_device env dev depth cwd dir = .returns (r, c') → c' = cwd)
      ∧ (∀ (height : δ → Nat), (∀ c d, env.chdir c (env.getcwd d) = some d) →
          (∀ cwd dir names entered, env.opendir cwd dir = some names →
            env.chdir cwd dir = some entered → ∀ n ∈ names, charAt n 0 ≠ 46 →
            ∀ d, env.chdir entered n = some d → height d < height entered) →
          ∀ (depth : Nat) (cwd : δ) (dir : Option (List Nat)), 1 ≤ depth →
            (∀ entered, env.chdir cwd (dir.getD (bytes "/dev")) = some entered →
              height entered + 2 ≤ depth) →
            ∃ r, grub_find_device env dev depth cwd dir = .returns (r, cwd)) :=
  ⟨find_restores env dev hback,
    fun height hrestore hheight => find_returns env dev height hrestore hheight⟩

theorem find_device_restores_cwd_witness :
    (∀ (r : Option (List Nat)) (c' : Fin 3),
        grub_find_device devHost 64512 3 1 (some (bytes "mapper")) = .returns (r, c') → c' = 1)
      ∧ ∃ r, grub_find_device devHost 64512 3 0 none = .returns (r, 0) :=
  ⟨(find_device_restores_cwd devHost 64512 devHost_back).1 3 1 (some (bytes "mapper")),
    (find_device_restores_cwd devHost 64512 devHost_back).2 devHostHeight devHost_restore
      devHost_height 3 0 none (by decide) (by decide)⟩

end Getroot
